import Mathlib

/-!
HadoopExporter: metric-name derivation and deduplication.

A shallow embedding of `hadoopExporter.go`.

Conventions of the embedding.

* A Go `string` is a Lean `String`, read as its sequence of characters; offsets
  count characters.  Every offset the program uses is either the position of an
  ASCII marker it has just found or a constant following an ASCII prefix test,
  so character offsets and byte offsets cut the text at the same place.
* `strings.ToLower` maps every character through `unicode.ToLower`.  The case
  table is not part of the program, so the per-character map is the argument
  `lower` of every function that reaches `renameMetricName`; examples use
  `Char.toLower`.
* A `map[string][]string` is a function `String → Option (List String)`; `none`
  is the `nil` slice that a lookup of an absent key returns.
* A `map[string]string` is an association list with unique keys; assignment
  overwrites in place or appends, `delete` removes.
* A runtime panic (index or slice out of range) is the result `none`.
* `getJmxInfo` is modelled from the parsed bean list on; fetching and parsing
  are not part of the model.
* `prometheus.NewDesc` with `prometheus.MustNewConstMetric` gives the record of
  the name, the labels at the time of the call and the value, or panics when
  the client library refuses the descriptor.  Which names the library refuses
  depends on the library, so its check is the argument `descOk` of every
  function that builds an observation; examples use `classicDescOk`, the
  classic name rules, which refuse whatever any version of the library refuses.

The definitions come first: the program, then the vocabulary in which its
properties are stated.  The theorems follow.
-/

namespace HadoopExporter

/-! ## Strings (package `strings`) -/

/-- Joins character lists with a separator between consecutive items. -/
def joinChars (sep : List Char) : List (List Char) → List Char
  | [] => []
  | [a] => a
  | a :: b :: rest => a ++ sep ++ joinChars sep (b :: rest)

/-- Go `strings.Join(parts, sep)`. -/
def join (parts : List String) (sep : String) : String :=
  ⟨joinChars sep.data (parts.map String.data)⟩

/-- Splits a character list at every occurrence of the separator character;
the result always has at least one item. -/
def splitChars (sep : Char) : List Char → List (List Char)
  | [] => [[]]
  | c :: cs =>
    if c = sep then [] :: splitChars sep cs
    else
      match splitChars sep cs with
      | [] => [[c]]
      | t :: ts => (c :: t) :: ts

/-- Go `strings.Split(s, sep)` for a separator of one character. -/
def split (s : String) (sep : Char) : List String :=
  (splitChars sep s.data).map String.mk

/-- Go `strings.HasPrefix(s, p)`. -/
def hasPrefix (s p : String) : Bool :=
  p.data.isPrefixOf s.data

/-- Position of the first occurrence of `pat` in a character list. -/
def indexChars (pat : List Char) : List Char → Option Nat
  | [] => if pat.isPrefixOf [] then some 0 else none
  | c :: cs =>
    if pat.isPrefixOf (c :: cs) then some 0
    else (indexChars pat cs).map (· + 1)

/-- Go `strings.Index(s, pat)`; `none` stands for the result `-1`. -/
def index (s pat : String) : Option Nat :=
  indexChars pat.data s.data

/-- Go `s[n:]` on a string; `none` when `n` is beyond the end. -/
def sliceFrom (s : String) (n : Nat) : Option String :=
  if n ≤ s.data.length then some ⟨s.data.drop n⟩ else none

/-- Go `parts[lo:hi]` on a slice whose capacity is its length; `none` is the
panic "slice bounds out of range". -/
def sliceList (parts : List String) (lo hi : Nat) : Option (List String) :=
  if lo ≤ hi ∧ hi ≤ parts.length then some ((parts.take hi).drop lo) else none

/-- Go `strings.ReplaceAll(s, old, new)` for a pattern `old` of one character. -/
def replaceAll (s : String) (old : Char) (new : String) : String :=
  ⟨(s.data.map (fun c => if c = old then new.data else [c])).flatten⟩

/-- Go `strings.ToLower(s)`, given the per-character case map. -/
def toLower (lower : Char → Char) (s : String) : String :=
  ⟨s.data.map lower⟩

/-! ## The registry `keySet` and `renameMetricName` -/

/-- The registry `keySet map[string][]string`. -/
abbrev KeySet := String → Option (List String)

/-- The registry `make(map[string][]string)`. -/
def emptyKeySet : KeySet := fun _ => none

/-- Assignment `keySet[key] = value`. -/
def KeySet.set (keySet : KeySet) (key : String) (value : List String) : KeySet :=
  fun k => if k = key then some value else keySet k

/-- The five `strings.ReplaceAll` calls opening `renameMetricName`
(source lines 198-202). -/
def sanitize (metricName : String) : String :=
  let metricName := replaceAll metricName '(' ""
  let metricName := replaceAll metricName ')' ""
  let metricName := replaceAll metricName '.' "_"
  let metricName := replaceAll metricName '-' "_"
  replaceAll metricName ':' "_"

/-- The loop `for index, oriName = range dupMetrics` with its `break`
(source lines 211-216).  `i` is the position of the next element and `index` the
current value of the variable `index`; the result is the final value of `index`
and of `isFind`. -/
def rangeFind (target : String) : List String → Nat → Nat → Nat × Bool
  | [], _, index => (index, false)
  | oriName :: rest, i, _ =>
    if oriName = target then (i, true) else rangeFind target rest (i + 1) i

/-- Go `renameMetricName(keySet, metricName, tagString)`: the returned name
and the registry after the call. -/
def renameMetricName (lower : Char → Char) (keySet : KeySet)
    (metricName tagString : String) : String × KeySet :=
  let metricName := sanitize metricName
  let shortMetricName := toLower lower metricName
  match keySet shortMetricName with
  | none => (metricName, keySet.set shortMetricName [metricName ++ "_" ++ tagString])
  | some dupMetrics =>
    match rangeFind (metricName ++ "_" ++ tagString) dupMetrics 0 0 with
    | (index, true) =>
      if index ≠ 0 then (metricName ++ Nat.repr (index - 1), keySet)
      else (metricName, keySet)
    | (index, false) =>
      (metricName ++ Nat.repr index,
        keySet.set shortMetricName (dupMetrics ++ [metricName ++ "_" ++ tagString]))

/-! ## Beans, label maps and observations -/

/-- A typed raw attribute value (`VType` with `Value`).  A 64-bit float is kept
as its bit pattern. -/
inductive AttrValue where
  | str (s : String)
  | float64 (bits : Nat)
  | int32 (v : Int)
  | other
  deriving DecidableEq, Repr

/-- The numeric value of an observation, kept symbolic: a float given by its
bit pattern, or the conversion of an integer. -/
inductive SampleValue where
  | bits (b : Nat)
  | fromInt (v : Int)
  deriving DecidableEq, Repr

/-- Go `getAttributeValue`: floats are used directly, integers are widened,
every other type gives the zero value `0.0`. -/
def getAttributeValue : AttrValue → SampleValue
  | .float64 b => .bits b
  | .int32 v => .fromInt v
  | _ => .bits 0

/-- A bean as the program observes it: `GetKeys()`, `GetString(key)` and
`Attributes[key]`. -/
structure JsonObject where
  keys : List String
  getString : String → String
  attributes : String → AttrValue

/-- The bean holding the given attributes, enumerated in the given order. -/
def JsonObject.ofList (attrs : List (String × AttrValue)) : JsonObject where
  keys := attrs.map Prod.fst
  getString := fun k =>
    match attrs.lookup k with
    | some (.str s) => s
    | _ => ""
  attributes := fun k => (attrs.lookup k).getD .other

/-- A label map `map[string]string`. -/
abbrev Tags := List (String × String)

/-- Assignment `tags[key] = value`. -/
def Tags.set : Tags → String → String → Tags
  | [], key, value => [(key, value)]
  | (k, v) :: rest, key, value =>
    if k = key then (key, value) :: rest else (k, v) :: Tags.set rest key value

/-- Go `delete(tags, key)`. -/
def Tags.delete (tags : Tags) (key : String) : Tags :=
  tags.filter (fun kv => kv.1 ≠ key)

/-- The value `tags[key]`, if present. -/
def Tags.get (tags : Tags) (key : String) : Option String :=
  tags.lookup key

/-- The order of `sort.Strings`: lexicographic on characters. -/
def strLe (a b : String) : Prop := a.data ≤ b.data

instance strLeDecidable : DecidableRel strLe :=
  fun a b => inferInstanceAs (Decidable (a.data ≤ b.data))

/-- Go `getTagNames(tags)`: the label names, sorted, joined by `_`. -/
def getTagNames (tags : Tags) : String :=
  join (List.insertionSort strLe (tags.map Prod.fst)) "_"

/-- An emitted observation: the name and constant labels of its descriptor
(`prometheus.NewDesc` copies the labels) and its value. -/
structure Metric where
  name : String
  labels : Tags
  value : SampleValue
  deriving DecidableEq, Repr

/-- The observation built by `prometheus.NewDesc(metricName, metricName, nil,
tags)` and `prometheus.MustNewConstMetric(desc, prometheus.CounterValue,
value)` (source lines 139-140 and 176-177), or `none` for the panic of
`MustNewConstMetric` on a descriptor that the check `descOk` of the client
library refuses. -/
def mustNewConstMetric (descOk : String → Tags → Bool) (metricName : String) (tags : Tags)
    (value : SampleValue) : Option Metric :=
  if descOk metricName tags then some ⟨metricName, tags, value⟩ else none

/-- The classic rule of the client library for a metric name: a letter, `_` or
`:` followed by letters, digits, `_` and `:`. -/
def classicMetricName (s : String) : Bool :=
  match s.data with
  | [] => false
  | c :: cs =>
    (c.isAlpha || c == '_' || c == ':') &&
      cs.all (fun d => d.isAlphanum || d == '_' || d == ':')

/-- The classic rule of the client library for a label name: a letter or `_`
followed by letters, digits and `_`, and not beginning with `__`. -/
def classicLabelName (s : String) : Bool :=
  match s.data with
  | [] => false
  | c :: cs =>
    (c.isAlpha || c == '_') && cs.all (fun d => d.isAlphanum || d == '_') &&
      !("__".data.isPrefixOf s.data)

/-- The descriptor check of the client library under its classic name rules:
the metric name and every label name must be valid. -/
def classicDescOk (metricName : String) (tags : Tags) : Bool :=
  classicMetricName metricName && tags.all (fun kv => classicLabelName kv.1)

/-! ## `getNameLabelInfo` -/

/-- The loop over the segments of the identity string (source lines 239-246).
`pre` is the slice `prefix`; `items[1]` panics on a segment without `=`. -/
def nameSegments : List String → List String → Tags → Option (List String × Tags)
  | [], pre, tags => some (pre, tags)
  | label :: rest, pre, tags =>
    let items := split label '='
    if items.head? = some "service" then
      match items[1]? with
      | none => none
      | some v => nameSegments rest (pre ++ [v]) tags
    else if items.head? ≠ some "name" then
      match items.head?, items[1]? with
      | some k, some v => nameSegments rest pre (tags.set k v)
      | _, _ => none
    else nameSegments rest pre tags

/-- The loop over the attribute keys in `getNameLabelInfo` (source lines
233-264), carrying `metrixPerfix` and `tags`. -/
def nameLabelLoop (beanInfo : JsonObject) (modulePrefix : String) :
    List String → String → Tags → Option (String × Tags)
  | [], metrixPerfix, tags => some (metrixPerfix, tags)
  | key :: rest, metrixPerfix, tags =>
    if key = "name" then
      match sliceFrom (beanInfo.getString "name") 7 with
      | none => none
      | some body =>
        match nameSegments (split body ',') ["Hadoop"] tags with
        | none => none
        | some (pre, tags) =>
          let metrixPerfix := join pre "_"
          let metrixPerfix :=
            if modulePrefix ≠ "" then metrixPerfix ++ "_" ++ modulePrefix else metrixPerfix
          nameLabelLoop beanInfo modulePrefix rest metrixPerfix tags
    else if key = "modelerType" then
      nameLabelLoop beanInfo modulePrefix rest metrixPerfix tags
    else if hasPrefix key "tag." then
      nameLabelLoop beanInfo modulePrefix rest metrixPerfix
        (tags.set ⟨key.data.drop 4⟩ (beanInfo.getString key))
    else nameLabelLoop beanInfo modulePrefix rest metrixPerfix tags

/-- Go `getNameLabelInfo(beanInfo, tags, modulePrefix)`: the returned prefix and
the label map after the call. -/
def getNameLabelInfo (beanInfo : JsonObject) (tags : Tags) (modulePrefix : String) :
    Option (String × Tags) :=
  nameLabelLoop beanInfo modulePrefix beanInfo.keys "" tags

/-! ## The translators -/

/-- The attribute filter shared by both translators (source lines 136, 156). -/
def isMetricKey (key : String) : Bool :=
  key ≠ "name" && key ≠ "modelerType" && !hasPrefix key "tag."

/-- The loop over the attribute keys in `getBeanMetrics` (source lines
135-143), carrying `metrics` and the registry. -/
def beanMetricsLoop (descOk : String → Tags → Bool) (lower : Char → Char)
    (beanInfo : JsonObject) (metrixPerfix : String) (tags : Tags) (tagString : String) :
    List String → List Metric → KeySet → Option (List Metric × KeySet)
  | [], metrics, keySet => some (metrics, keySet)
  | key :: rest, metrics, keySet =>
    if isMetricKey key then
      let r := renameMetricName lower keySet (metrixPerfix ++ "_" ++ key) tagString
      let value := getAttributeValue (beanInfo.attributes key)
      match mustNewConstMetric descOk r.1 tags value with
      | none => none
      | some metric =>
        beanMetricsLoop descOk lower beanInfo metrixPerfix tags tagString rest
          (metrics ++ [metric]) r.2
    else beanMetricsLoop descOk lower beanInfo metrixPerfix tags tagString rest metrics keySet

/-- Go `getBeanMetrics(beanInfo, keySet, modulePrefix)`: the emitted
observations and the registry after the call. -/
def getBeanMetrics (descOk : String → Tags → Bool) (lower : Char → Char)
    (beanInfo : JsonObject) (keySet : KeySet) (modulePrefix : String) :
    Option (List Metric × KeySet) :=
  match getNameLabelInfo beanInfo [] modulePrefix with
  | none => none
  | some (metrixPerfix, tags) =>
    beanMetricsLoop descOk lower beanInfo metrixPerfix tags (getTagNames tags)
      beanInfo.keys [] keySet

/-- The loop `for index, part := range parts` of the region decoder (source
lines 162-173).  `parts` is the whole token list, the list argument the tokens
still to visit, `index` the position of the next one; the state is `metriTag`,
`tags` and `regionIndex`. -/
def decodeRegion (parts : List String) :
    List String → Nat → String → Tags → Nat → Option (String × Tags × Nat)
  | [], _, metriTag, tags, regionIndex => some (metriTag, tags, regionIndex)
  | part :: rest, index, metriTag, tags, regionIndex =>
    if part = "region" then
      match sliceList parts 3 index with
      | none => none
      | some sl =>
        decodeRegion parts rest (index + 1) (metriTag ++ "_tableName")
          (tags.set "tableName" (join sl "_")) index
    else if part = "metric" then
      match sliceList parts (regionIndex + 1) index with
      | none => none
      | some sl =>
        decodeRegion parts rest (index + 1) (metriTag ++ "_tableId")
          (tags.set "tableId" (join sl "_")) regionIndex
    else decodeRegion parts rest (index + 1) metriTag tags regionIndex

/-- One iteration of the loop over the attribute keys in
`handlerRegionServerRegions` (source lines 156-182): the state is `metrics`,
`tags` and the registry. -/
def regionKeyStep (descOk : String → Tags → Bool) (lower : Char → Char)
    (beanInfo : JsonObject) (metrixPerfix : String) (tagString : String) (key : String)
    (metrics : List Metric) (tags : Tags) (keySet : KeySet) :
    Option (List Metric × Tags × KeySet) :=
  if isMetricKey key then
    match index key "_metric_" with
    | none => some (metrics, tags, keySet)
    | some metricIndex =>
      let parts := split key '_'
      match decodeRegion parts parts 0 tagString tags 0 with
      | none => none
      | some (metriTag, tags, _) =>
        match sliceFrom key (metricIndex + 8) with
        | none => none
        | some tail =>
          let r := renameMetricName lower keySet (metrixPerfix ++ "_" ++ tail) metriTag
          let value := getAttributeValue (beanInfo.attributes key)
          match mustNewConstMetric descOk r.1 tags value with
          | none => none
          | some metric =>
            some (metrics ++ [metric], (tags.delete "tableName").delete "tableId", r.2)
  else some (metrics, tags, keySet)

/-- The loop over the attribute keys in `handlerRegionServerRegions` (source
lines 155-183). -/
def regionLoop (descOk : String → Tags → Bool) (lower : Char → Char) (beanInfo : JsonObject)
    (metrixPerfix : String) (tagString : String) :
    List String → List Metric → Tags → KeySet → Option (List Metric × Tags × KeySet)
  | [], metrics, tags, keySet => some (metrics, tags, keySet)
  | key :: rest, metrics, tags, keySet =>
    match regionKeyStep descOk lower beanInfo metrixPerfix tagString key metrics tags
        keySet with
    | none => none
    | some (metrics, tags, keySet) =>
      regionLoop descOk lower beanInfo metrixPerfix tagString rest metrics tags keySet

/-- Go `handlerRegionServerRegions(beanInfo, keySet, modulePrefix)`: the emitted
observations and the registry after the call. -/
def handlerRegionServerRegions (descOk : String → Tags → Bool) (lower : Char → Char)
    (beanInfo : JsonObject) (keySet : KeySet) (modulePrefix : String) :
    Option (List Metric × KeySet) :=
  match getNameLabelInfo beanInfo [] modulePrefix with
  | none => none
  | some (metrixPerfix, tags) =>
    match regionLoop descOk lower beanInfo metrixPerfix (getTagNames tags) beanInfo.keys []
        tags keySet with
    | none => none
    | some (metrics, _, keySet) => some (metrics, keySet)

/-! ## Dispatch and the scrape pass -/

/-- The type `beanHandler`. -/
abbrev BeanHandler :=
  (String → Tags → Bool) → (Char → Char) → JsonObject → KeySet → String →
    Option (List Metric × KeySet)

/-- The table `handlerMap` after the three `registerNameHandler` calls of
`main`; `none` is the `nil` handler of an unregistered name. -/
def handlerMap (beanName : String) : Option BeanHandler :=
  if beanName = "Hadoop:service=HBase,name=RegionServer,sub=Regions" then
    some handlerRegionServerRegions
  else if beanName = "Hadoop:service=HBase,name=RegionServer,sub=Tables" then
    some handlerRegionServerRegions
  else if beanName = "Hadoop:service=HBase,name=RegionServer,sub=TableLatencies" then
    some handlerRegionServerRegions
  else none

/-- The loop over the beans in `getJmxInfo` (source lines 54-63). -/
def jmxLoop (descOk : String → Tags → Bool) (lower : Char → Char) (modulePrefix : String) :
    List JsonObject → List Metric → KeySet → Option (List Metric × KeySet)
  | [], metrics, keySet => some (metrics, keySet)
  | beanInfo :: rest, metrics, keySet =>
    let beanName := beanInfo.getString "name"
    if hasPrefix beanName "Hadoop:" then
      let handler := (handlerMap beanName).getD getBeanMetrics
      match handler descOk lower beanInfo keySet modulePrefix with
      | none => none
      | some (ms, keySet) => jmxLoop descOk lower modulePrefix rest (metrics ++ ms) keySet
    else jmxLoop descOk lower modulePrefix rest metrics keySet

/-- Go `getJmxInfo` from the parsed bean list on: one scrape pass over the
beans with a fresh registry. -/
def getJmxInfo (descOk : String → Tags → Bool) (lower : Char → Char)
    (beanInfos : List JsonObject) (modulePrefix : String) : Option (List Metric) :=
  (jmxLoop descOk lower modulePrefix beanInfos [] emptyKeySet).map Prod.fst

/-! ## Vocabulary of the specification -/

/-- The signature of a request: sanitized name, `_`, label-name signature. -/
def signature (metricName tagString : String) : String :=
  sanitize metricName ++ "_" ++ tagString

/-- The bucket key of a request: the lowercase form of the sanitized name. -/
def bucketKey (lower : Char → Char) (metricName : String) : String :=
  toLower lower (sanitize metricName)

/-- The name resolved for a signature at position `p` of its bucket: unchanged
at position 0, otherwise followed by the decimal numeral of `p - 1`. -/
def suffixed (name : String) (p : Nat) : String :=
  if p = 0 then name else name ++ Nat.repr (p - 1)

/-- The signature list of a bucket, empty for an unseen bucket. -/
def KeySet.bucket (keySet : KeySet) (key : String) : List String :=
  (keySet key).getD []

/-- Sanitization as the specification words it: parentheses deleted, `.`, `-`
and `:` replaced by `_`, every other character kept. -/
def sanitizeSpec (s : String) : String :=
  ⟨s.data.filterMap (fun c =>
    if c = '(' ∨ c = ')' then none
    else if c = '.' ∨ c = '-' ∨ c = ':' then some '_'
    else some c)⟩

/-- A run of `renameMetricName` calls, each given as (candidate name, tag
string): the returned names in call order and the final registry. -/
def renameAll (lower : Char → Char) : KeySet → List (String × String) → List String × KeySet
  | keySet, [] => ([], keySet)
  | keySet, c :: rest =>
    let r := renameMetricName lower keySet c.1 c.2
    let rr := renameAll lower r.2 rest
    (r.1 :: rr.1, rr.2)

/-- The list `l` with `s` appended unless already present. -/
def appendIfNew (l : List String) (s : String) : List String :=
  if s ∈ l then l else l ++ [s]

/-- The signatures `xs` registered one after the other on top of the list `acc`. -/
def registerAll : List String → List String → List String
  | acc, [] => acc
  | acc, x :: xs => registerAll (appendIfNew acc x) xs

/-- The signatures requested in bucket `b` by a run of calls, in call order. -/
def sigsIn (lower : Char → Char) (b : String) (calls : List (String × String)) : List String :=
  (calls.filter (fun c => bucketKey lower c.1 = b)).map (fun c => signature c.1 c.2)

/-- Position, in a run of calls, of the first call that requests the signature
of the call `c` in the bucket of `c`. -/
def firstRequest (lower : Char → Char) (calls : List (String × String))
    (c : String × String) : Nat :=
  calls.findIdx (fun d =>
    decide (bucketKey lower d.1 = bucketKey lower c.1 ∧ signature d.1 d.2 = signature c.1 c.2))

/-- The distinct signatures requested in the bucket of `c` before the
signature of `c` was first requested there. -/
def priorSignatures (lower : Char → Char) (calls : List (String × String))
    (c : String × String) : Finset String :=
  (((calls.take (firstRequest lower calls c)).filter
      (fun d => bucketKey lower d.1 = bucketKey lower c.1)).map
    (fun d => signature d.1 d.2)).toFinset

/-! ## The calls a translator makes -/

/-- One request to the registry together with what the observation built from
it carries: the candidate name and tag string passed to `renameMetricName`,
and the labels and value passed on to the descriptor. -/
structure Request where
  metricName : String
  tagString : String
  labels : Tags
  value : SampleValue
  deriving DecidableEq, Repr

/-- Resolves one request, leaving the check of the descriptor aside: the
observation built from the answer of the registry, and the registry afterwards. -/
def resolve (lower : Char → Char) (keySet : KeySet) (r : Request) : Metric × KeySet :=
  (⟨(renameMetricName lower keySet r.metricName r.tagString).1, r.labels, r.value⟩,
    (renameMetricName lower keySet r.metricName r.tagString).2)

/-- Resolves requests one after the other, threading the registry. -/
def resolveAll (lower : Char → Char) : KeySet → List Request → List Metric × KeySet
  | keySet, [] => ([], keySet)
  | keySet, r :: rest =>
    ((resolve lower keySet r).1 :: (resolveAll lower (resolve lower keySet r).2 rest).1,
      (resolveAll lower (resolve lower keySet r).2 rest).2)

/-- The observations of a resolved request list as the translators deliver
them: all of them when the client library accepts every descriptor, and the
panic of `MustNewConstMetric` otherwise. -/
def checked (descOk : String → Tags → Bool) (x : List Metric × KeySet) :
    Option (List Metric × KeySet) :=
  if x.1.all (fun m => descOk m.name m.labels) then some x else none

/-- The requests of the generic translator for the given attribute keys. -/
def beanRequests (beanInfo : JsonObject) (metrixPerfix : String) (tags : Tags)
    (tagString : String) (keys : List String) : List Request :=
  (keys.filter isMetricKey).map (fun key =>
    ⟨metrixPerfix ++ "_" ++ key, tagString, tags, getAttributeValue (beanInfo.attributes key)⟩)

/-- The requests of `getBeanMetrics` for a bean. -/
def genericRequests (beanInfo : JsonObject) (modulePrefix : String) : Option (List Request) :=
  match getNameLabelInfo beanInfo [] modulePrefix with
  | none => none
  | some (metrixPerfix, tags) =>
    some (beanRequests beanInfo metrixPerfix tags (getTagNames tags) beanInfo.keys)

/-- The request of the region-server translator for one attribute key, and the
working label map afterwards; `some (none, tags)` is a key that is skipped. -/
def regionRequest (beanInfo : JsonObject) (metrixPerfix tagString key : String)
    (tags : Tags) : Option (Option Request × Tags) :=
  if isMetricKey key then
    match index key "_metric_" with
    | none => some (none, tags)
    | some metricIndex =>
      match decodeRegion (split key '_') (split key '_') 0 tagString tags 0 with
      | none => none
      | some (metriTag, tags, _) =>
        match sliceFrom key (metricIndex + 8) with
        | none => none
        | some tail =>
          some (some ⟨metrixPerfix ++ "_" ++ tail, metriTag, tags,
              getAttributeValue (beanInfo.attributes key)⟩,
            (tags.delete "tableName").delete "tableId")
  else some (none, tags)

/-- The requests of the region-server translator for the given attribute
keys, and the working label map afterwards. -/
def regionRequests (beanInfo : JsonObject) (metrixPerfix tagString : String) :
    List String → Tags → Option (List Request × Tags)
  | [], tags => some ([], tags)
  | key :: rest, tags =>
    match regionRequest beanInfo metrixPerfix tagString key tags with
    | none => none
    | some (r, tags) =>
      match regionRequests beanInfo metrixPerfix tagString rest tags with
      | none => none
      | some (rs, tags) => some (r.toList ++ rs, tags)

/-- The requests of `handlerRegionServerRegions` for a bean. -/
def regionServerRequests (beanInfo : JsonObject) (modulePrefix : String) :
    Option (List Request) :=
  match getNameLabelInfo beanInfo [] modulePrefix with
  | none => none
  | some (metrixPerfix, tags) =>
    (regionRequests beanInfo metrixPerfix (getTagNames tags) beanInfo.keys tags).map Prod.fst

/-- The requests of one scrape pass over the beans. -/
def scrapeRequests (modulePrefix : String) : List JsonObject → Option (List Request)
  | [] => some []
  | beanInfo :: rest =>
    if hasPrefix (beanInfo.getString "name") "Hadoop:" then
      match (if (handlerMap (beanInfo.getString "name")).isSome
          then regionServerRequests beanInfo modulePrefix
          else genericRequests beanInfo modulePrefix) with
      | none => none
      | some rs =>
        match scrapeRequests modulePrefix rest with
        | none => none
        | some rs' => some (rs ++ rs')
    else scrapeRequests modulePrefix rest

/-- What the decoder appends to the tag string for the tokens of a key:
`_tableName` for each `region` token and `_tableId` for each `metric` token, in
token order. -/
def markerSuffix : List String → String
  | [] => ""
  | part :: rest =>
    (if part = "region" then "_tableName" else if part = "metric" then "_tableId" else "") ++
      markerSuffix rest

/-! ## Vocabulary for the registry invariant, the translators and the name deriver -/

/-- The invariant of registries built by `renameMetricName`: every bucket
present is non-empty, repeats no signature, and holds only signatures of
sanitized names whose lowercase form is the bucket key. -/
def RegistryInv (lower : Char → Char) (keySet : KeySet) : Prop :=
  ∀ (b : String) (l : List String), keySet b = some l →
    l ≠ [] ∧ l.Nodup ∧
      ∀ s ∈ l, ∃ m t : String, s = sanitize m ++ "_" ++ t ∧ toLower lower (sanitize m) = b

/-- The text of a key that follows the first occurrence of `_metric_` (empty
when the key does not contain it). -/
def afterMarker (key : String) : String :=
  match index key "_metric_" with
  | some i => ⟨key.data.drop (i + 8)⟩
  | none => ""

/-- The attribute filter of the region-server translator: the shared filter and
the presence of `_metric_`. -/
def isRegionKey (key : String) : Bool :=
  isMetricKey key && (index key "_metric_").isSome

/-- The identity string with the given segments: `Hadoop:` followed by the
segments `key=value`, separated by commas. -/
def identityOf (segs : List (String × String)) : String :=
  "Hadoop:" ++ join (segs.map (fun p => p.1 ++ "=" ++ p.2)) ","

/-- The values of the `service` segments, in their order of appearance. -/
def serviceValues (segs : List (String × String)) : List String :=
  (segs.filter (fun p => p.1 = "service")).map Prod.snd

/-- The segments that become labels: those whose key is neither `service` nor
`name`, in their order of appearance. -/
def identityLabels (segs : List (String × String)) : List (String × String) :=
  segs.filter (fun p => p.1 ≠ "service" ∧ p.1 ≠ "name")

/-- The assignments `tags[key] = value` for a list of pairs, in order. -/
def Tags.setAll (tags : Tags) (l : List (String × String)) : Tags :=
  l.foldl (fun t p => t.set p.1 p.2) tags

/-- What one attribute key does to the label map in `getNameLabelInfo`, for a
bean whose identity has the segments `segs`. -/
def labelStep (beanInfo : JsonObject) (segs : List (String × String)) (tags : Tags)
    (key : String) : Tags :=
  if key = "name" then tags.setAll (identityLabels segs)
  else if key = "modelerType" then tags
  else if hasPrefix key "tag." then tags.set ⟨key.data.drop 4⟩ (beanInfo.getString key)
  else tags

/-- The module prefix of the specification: `Hadoop` and the service values
joined by `_`, followed by `_` and the override when the override is not empty. -/
def modulePrefixOf (segs : List (String × String)) (modulePrefix : String) : String :=
  join ("Hadoop" :: serviceValues segs) "_" ++
    (if modulePrefix = "" then "" else "_" ++ modulePrefix)

/-! ## Facts about strings -/

theorem str_append_data (a b : String) : (a ++ b).data = a.data ++ b.data :=
  String.data_append a b

theorem str_append_right_cancel {a b c : String} (h : a ++ c = b ++ c) : a = b := by
  have h1 := congrArg String.data h
  simp only [String.data_append] at h1
  exact String.ext (List.append_cancel_right h1)

theorem str_append_left_cancel {a b c : String} (h : a ++ b = a ++ c) : b = c := by
  have h1 := congrArg String.data h
  simp only [String.data_append] at h1
  exact String.ext (List.append_cancel_left h1)

theorem map_lower_eq_of_same_case (lower : Char → Char) (l₁ l₂ : List Char)
    (h : List.Forall₂ (fun a b => lower a = lower b) l₁ l₂) : l₁.map lower = l₂.map lower := by
  induction h with
  | nil => rfl
  | cons h _ ih => simp [h, ih]

/-! ## The search loop of `renameMetricName` -/

theorem rangeFind_first (t : String) :
    ∀ (l : List String) (p i idx : Nat), l[p]? = some t → (∀ q, q < p → l[q]? ≠ some t) →
      rangeFind t l i idx = (i + p, true) := by
  intro l
  induction l with
  | nil => intro p i idx h; simp at h
  | cons a l ih =>
    intro p i idx h hfirst
    cases p with
    | zero =>
      simp at h
      simp [rangeFind, h]
    | succ p =>
      have ha : a ≠ t := by
        intro hat
        exact hfirst 0 (Nat.succ_pos p) (by simp [hat])
      simp only [List.getElem?_cons_succ] at h
      have := ih p (i + 1) i h (fun q hq => by
        have := hfirst (q + 1) (Nat.succ_lt_succ hq)
        simpa using this)
      simp [rangeFind, ha, this]
      omega

theorem rangeFind_mem (t : String) (l : List String) (i idx : Nat) (h : t ∈ l) :
    rangeFind t l i idx = (i + l.indexOf t, true) := by
  induction l generalizing i idx with
  | nil => simp at h
  | cons a l ih =>
    by_cases ha : a = t
    · simp [rangeFind, ha]
    · have hl : t ∈ l := by
        rcases List.mem_cons.1 h with h | h
        · exact absurd h.symm ha
        · exact h
      simp [rangeFind, ha, ih (i + 1) i hl, List.indexOf_cons_ne _ ha]
      omega

theorem rangeFind_not_mem (t : String) (l : List String) (i idx : Nat) (h : t ∉ l) :
    rangeFind t l i idx = (if l = [] then idx else i + l.length - 1, false) := by
  induction l generalizing i idx with
  | nil => simp [rangeFind]
  | cons a l ih =>
    have ha : a ≠ t := fun e => h (by simp [e])
    have hl : t ∉ l := fun e => h (List.mem_cons_of_mem _ e)
    simp only [rangeFind, ha, if_false, ih (i + 1) i hl]
    cases l with
    | nil => simp
    | cons b l => simp; omega

/-! ## One call of `renameMetricName` -/

theorem rename_unseen (lower : Char → Char) (ks : KeySet) (m t : String)
    (h : ks (bucketKey lower m) = none) :
    renameMetricName lower ks m t =
      (sanitize m, ks.set (bucketKey lower m) [signature m t]) := by
  unfold bucketKey at h
  simp [renameMetricName, h, bucketKey, signature]

theorem rename_found (lower : Char → Char) (ks : KeySet) (m t : String) (l : List String)
    (h : ks (bucketKey lower m) = some l) (hm : signature m t ∈ l) :
    renameMetricName lower ks m t = (suffixed (sanitize m) (l.indexOf (signature m t)), ks) := by
  unfold bucketKey at h
  unfold signature at hm
  simp only [renameMetricName, h, rangeFind_mem _ _ 0 0 hm, suffixed, signature]
  by_cases h0 : List.indexOf (sanitize m ++ "_" ++ t) l = 0 <;> simp [h0]

theorem rename_new (lower : Char → Char) (ks : KeySet) (m t : String) (l : List String)
    (h : ks (bucketKey lower m) = some l) (hm : signature m t ∉ l) :
    renameMetricName lower ks m t =
      (sanitize m ++ Nat.repr (if l = [] then 0 else l.length - 1),
        ks.set (bucketKey lower m) (l ++ [signature m t])) := by
  unfold bucketKey at h
  unfold signature at hm
  simp only [renameMetricName, h, rangeFind_not_mem _ _ 0 0 hm, signature, bucketKey]
  simp

/-! ## Decimal numerals -/

theorem digitChar_isDigit (k : Nat) (h : k < 10) : (Nat.digitChar k).isDigit = true := by
  interval_cases k <;> decide

theorem toDigitsCore_isDigit (fuel : Nat) :
    ∀ (n : Nat) (ds : List Char), (∀ c ∈ ds, c.isDigit = true) →
      ∀ c ∈ Nat.toDigitsCore 10 fuel n ds, c.isDigit = true := by
  induction fuel with
  | zero => intro n ds h c hc; exact h c (by simpa [Nat.toDigitsCore] using hc)
  | succ fuel ih =>
    intro n ds h c hc
    have hd : ∀ c ∈ Nat.digitChar (n % 10) :: ds, c.isDigit = true := by
      intro c hc
      rcases List.mem_cons.1 hc with rfl | hc
      · exact digitChar_isDigit _ (Nat.mod_lt _ (by decide))
      · exact h c hc
    simp only [Nat.toDigitsCore] at hc
    split at hc
    · exact hd c hc
    · exact ih _ _ hd c hc

theorem repr_isDigit (n : Nat) : ∀ c ∈ (Nat.repr n).data, c.isDigit = true := by
  intro c hc
  exact toDigitsCore_isDigit _ n [] (by simp) c (by simpa [Nat.repr, Nat.toDigits, List.asString] using hc)

theorem isDigit_not_special (c : Char) (h : c.isDigit = true) :
    c ≠ '(' ∧ c ≠ ')' ∧ c ≠ '.' ∧ c ≠ '-' ∧ c ≠ ':' := by
  refine ⟨?_, ?_, ?_, ?_, ?_⟩ <;> (rintro rfl; revert h; decide)

/-! ## Sanitization -/

theorem replaceAll_data (s : String) (old : Char) (new : String) :
    (replaceAll s old new).data =
      (s.data.map (fun c => if c = old then new.data else [c])).flatten := rfl

theorem sanitize_data_cons (c : Char) (cs : List Char) :
    (sanitize ⟨c :: cs⟩).data = (sanitize ⟨[c]⟩).data ++ (sanitize ⟨cs⟩).data := by
  simp only [sanitize, replaceAll_data, List.map_cons, List.flatten_cons, List.map_append,
    List.flatten_append, List.map_nil, List.flatten_nil, List.append_nil]

theorem sanitize_data_single (c : Char) :
    (sanitize ⟨[c]⟩).data =
      if c = '(' ∨ c = ')' then [] else if c = '.' ∨ c = '-' ∨ c = ':' then ['_'] else [c] := by
  by_cases h1 : c = '('
  · subst h1; decide
  by_cases h2 : c = ')'
  · subst h2; decide
  by_cases h3 : c = '.'
  · subst h3; decide
  by_cases h4 : c = '-'
  · subst h4; decide
  by_cases h5 : c = ':'
  · subst h5; decide
  simp [sanitize, replaceAll_data, h1, h2, h3, h4, h5]

theorem sanitize_eq_spec (m : String) : sanitize m = sanitizeSpec m := by
  apply String.ext
  obtain ⟨l⟩ := m
  induction l with
  | nil => rfl
  | cons c cs ih =>
    rw [sanitize_data_cons, sanitize_data_single, ih]
    simp only [sanitizeSpec, List.filterMap_cons]
    by_cases h1 : c = '(' ∨ c = ')'
    · simp [h1]
    · by_cases h2 : c = '.' ∨ c = '-' ∨ c = ':'
      · simp [h1, h2]
      · simp [h1, h2]

theorem sanitizeSpec_not_special (m : String) :
    ∀ c ∈ (sanitizeSpec m).data, c ≠ '(' ∧ c ≠ ')' ∧ c ≠ '.' ∧ c ≠ '-' ∧ c ≠ ':' := by
  intro c hc
  simp only [sanitizeSpec, List.mem_filterMap] at hc
  obtain ⟨a, _, ha⟩ := hc
  by_cases h1 : a = '(' ∨ a = ')'
  · simp [h1] at ha
  · by_cases h2 : a = '.' ∨ a = '-' ∨ a = ':'
    · simp [h1, h2] at ha
      subst ha
      decide
    · simp [h1, h2] at ha
      subst ha
      push_neg at h1 h2
      exact ⟨h1.1, h1.2, h2.1, h2.2.1, h2.2.2⟩

/-- The name returned by one call is the sanitized candidate followed by a
(possibly empty) decimal numeral. -/
theorem rename_name_shape (lower : Char → Char) (ks : KeySet) (m t : String) :
    (renameMetricName lower ks m t).1 = sanitize m ∨
      ∃ k : Nat, (renameMetricName lower ks m t).1 = sanitize m ++ Nat.repr k := by
  cases h : ks (bucketKey lower m) with
  | none => left; rw [rename_unseen lower ks m t h]
  | some l =>
    by_cases hm : signature m t ∈ l
    · rw [rename_found lower ks m t l h hm]
      unfold suffixed
      split
      · left; rfl
      · right; exact ⟨_, rfl⟩
    · rw [rename_new lower ks m t l h hm]
      right; exact ⟨_, rfl⟩

/-! ## Runs of calls -/

theorem mem_appendIfNew (l : List String) (s x : String) :
    x ∈ appendIfNew l s ↔ x ∈ l ∨ x = s := by
  unfold appendIfNew
  split
  · constructor
    · exact Or.inl
    · rintro (h | rfl)
      · exact h
      · assumption
  · simp

theorem nodup_appendIfNew (l : List String) (s : String) (h : l.Nodup) :
    (appendIfNew l s).Nodup := by
  unfold appendIfNew
  split
  · exact h
  · rename_i hs
    exact List.Nodup.append h (List.nodup_singleton s) (by simpa using hs)

theorem indexOf_appendIfNew_of_mem (l : List String) (s x : String) (h : x ∈ l) :
    (appendIfNew l s).indexOf x = l.indexOf x := by
  unfold appendIfNew
  split
  · rfl
  · exact List.indexOf_append_of_mem h

theorem indexOf_registerAll_of_mem (s : String) :
    ∀ (xs acc : List String), s ∈ acc → (registerAll acc xs).indexOf s = acc.indexOf s := by
  intro xs
  induction xs with
  | nil => intro acc _; rfl
  | cons x xs ih =>
    intro acc h
    rw [registerAll, ih _ ((mem_appendIfNew acc x s).2 (Or.inl h)),
      indexOf_appendIfNew_of_mem acc x s h]

theorem indexOf_registerAll_card (s : String) :
    ∀ (xs acc : List String), acc.Nodup → s ∉ acc → s ∈ xs →
      (registerAll acc xs).indexOf s =
        (acc.toFinset ∪ (xs.take (xs.indexOf s)).toFinset).card := by
  intro xs
  induction xs with
  | nil => intro acc _ _ h; simp at h
  | cons x xs ih =>
    intro acc hnd hs hmem
    by_cases hx : x = s
    · subst hx
      have happ : appendIfNew acc x = acc ++ [x] := by simp [appendIfNew, hs]
      rw [registerAll, indexOf_registerAll_of_mem x xs _ ((mem_appendIfNew acc x x).2 (Or.inr rfl)),
        happ, List.indexOf_append_of_not_mem hs]
      simp [List.toFinset_card_of_nodup hnd]
    · have hmem' : s ∈ xs := by
        rcases List.mem_cons.1 hmem with h | h
        · exact absurd h.symm hx
        · exact h
      have hs' : s ∉ appendIfNew acc x := by
        rw [mem_appendIfNew]
        rintro (h | h)
        · exact hs h
        · exact hx h.symm
      rw [registerAll, ih _ (nodup_appendIfNew acc x hnd) hs' hmem', List.indexOf_cons_ne _ hx]
      congr 1
      ext y
      simp only [Finset.mem_union, List.mem_toFinset, mem_appendIfNew, List.take_succ_cons,
        List.mem_cons]
      tauto

theorem rename_bucket (lower : Char → Char) (ks : KeySet) (m t b : String) :
    (renameMetricName lower ks m t).2.bucket b =
      if b = bucketKey lower m then
        appendIfNew (ks.bucket (bucketKey lower m)) (signature m t)
      else ks.bucket b := by
  cases h : ks (bucketKey lower m) with
  | none =>
    rw [rename_unseen lower ks m t h]
    by_cases hb : b = bucketKey lower m
    · simp [KeySet.bucket, KeySet.set, hb, h, appendIfNew]
    · simp [KeySet.bucket, KeySet.set, hb]
  | some l =>
    by_cases hm : signature m t ∈ l
    · rw [rename_found lower ks m t l h hm]
      by_cases hb : b = bucketKey lower m
      · simp [KeySet.bucket, hb, h, appendIfNew, hm]
      · simp [hb]
    · rw [rename_new lower ks m t l h hm]
      by_cases hb : b = bucketKey lower m
      · simp [KeySet.bucket, KeySet.set, hb, h, appendIfNew, hm]
      · simp [KeySet.bucket, KeySet.set, hb]

theorem rename_name (lower : Char → Char) (ks : KeySet) (m t : String)
    (hne : ks (bucketKey lower m) ≠ some []) :
    (renameMetricName lower ks m t).1 =
      suffixed (sanitize m)
        ((appendIfNew (ks.bucket (bucketKey lower m)) (signature m t)).indexOf (signature m t)) := by
  cases h : ks (bucketKey lower m) with
  | none =>
    rw [rename_unseen lower ks m t h]
    simp [KeySet.bucket, h, appendIfNew, suffixed]
  | some l =>
    by_cases hm : signature m t ∈ l
    · rw [rename_found lower ks m t l h hm]
      simp [KeySet.bucket, h, appendIfNew, hm]
    · rw [rename_new lower ks m t l h hm]
      have hl : l ≠ [] := fun e => hne (by rw [h, e])
      have hlen : l.length ≠ 0 := fun e => hl (List.length_eq_zero.1 e)
      simp [KeySet.bucket, h, appendIfNew, hm, hl, suffixed,
        List.indexOf_append_of_not_mem hm, hlen]

theorem rename_no_empty (lower : Char → Char) (ks : KeySet) (m t : String)
    (hne : ∀ b, ks b ≠ some []) : ∀ b, (renameMetricName lower ks m t).2 b ≠ some [] := by
  intro b
  cases h : ks (bucketKey lower m) with
  | none =>
    rw [rename_unseen lower ks m t h]
    by_cases hb : b = bucketKey lower m
    · simp [KeySet.set, hb]
    · simpa [KeySet.set, hb] using hne b
  | some l =>
    by_cases hm : signature m t ∈ l
    · rw [rename_found lower ks m t l h hm]; exact hne b
    · rw [rename_new lower ks m t l h hm]
      by_cases hb : b = bucketKey lower m
      · simp [KeySet.set, hb]
      · simpa [KeySet.set, hb] using hne b

theorem sigsIn_cons (lower : Char → Char) (b : String) (c : String × String)
    (calls : List (String × String)) :
    sigsIn lower b (c :: calls) =
      if bucketKey lower c.1 = b then signature c.1 c.2 :: sigsIn lower b calls
      else sigsIn lower b calls := by
  unfold sigsIn
  by_cases h : bucketKey lower c.1 = b <;> simp [List.filter_cons, h]

theorem registerAll_rename (lower : Char → Char) (ks : KeySet) (c : String × String)
    (calls : List (String × String)) (b : String) :
    registerAll ((renameMetricName lower ks c.1 c.2).2.bucket b) (sigsIn lower b calls) =
      registerAll (ks.bucket b) (sigsIn lower b (c :: calls)) := by
  rw [rename_bucket, sigsIn_cons]
  by_cases h : bucketKey lower c.1 = b
  · subst h
    simp [registerAll]
  · have h' : ¬ b = bucketKey lower c.1 := fun e => h e.symm
    simp [h, h']

/-- The name returned by the `i`-th call of a run is determined by the position
of its signature among the signatures registered in its bucket. -/
theorem renameAll_get (lower : Char → Char) :
    ∀ (calls : List (String × String)) (ks : KeySet), (∀ b, ks b ≠ some []) →
      ∀ (i : Nat) (c : String × String), calls[i]? = some c →
        (renameAll lower ks calls).1[i]? =
          some (suffixed (sanitize c.1)
            ((registerAll (ks.bucket (bucketKey lower c.1))
              (sigsIn lower (bucketKey lower c.1) calls)).indexOf (signature c.1 c.2))) := by
  intro calls
  induction calls with
  | nil => intro ks _ i c h; simp at h
  | cons d calls ih =>
    intro ks hne i c hc
    cases i with
    | zero =>
      simp only [List.getElem?_cons_zero, Option.some.injEq] at hc
      subst hc
      simp only [renameAll, List.getElem?_cons_zero, Option.some.injEq]
      rw [rename_name lower ks d.1 d.2 (hne _), sigsIn_cons]
      simp only [if_true, registerAll]
      rw [indexOf_registerAll_of_mem _ _ _ ((mem_appendIfNew _ _ _).2 (Or.inr rfl))]
    | succ i =>
      simp only [List.getElem?_cons_succ] at hc
      simp only [renameAll, List.getElem?_cons_succ]
      rw [ih _ (rename_no_empty lower ks d.1 d.2 hne) i c hc, registerAll_rename]

theorem sigsIn_take_firstRequest (lower : Char → Char) (c : String × String) :
    ∀ calls : List (String × String),
      ((calls.take (firstRequest lower calls c)).filter
          (fun d => bucketKey lower d.1 = bucketKey lower c.1)).map
        (fun d => signature d.1 d.2) =
      (sigsIn lower (bucketKey lower c.1) calls).take
        ((sigsIn lower (bucketKey lower c.1) calls).indexOf (signature c.1 c.2)) := by
  intro calls
  induction calls with
  | nil => simp [firstRequest, sigsIn]
  | cons d calls ih =>
    unfold firstRequest at ih ⊢
    rw [sigsIn_cons, List.findIdx_cons]
    by_cases hb : bucketKey lower d.1 = bucketKey lower c.1
    · by_cases hs : signature d.1 d.2 = signature c.1 c.2
      · simp [hb, hs]
      · simp only [hb, hs, and_false, decide_False, cond_false, List.take_succ_cons, if_true,
          List.indexOf_cons_ne _ hs, Nat.succ_eq_add_one]
        rw [List.filter_cons]
        simp only [hb, decide_True, if_true, List.map_cons, ih]
    · simp only [hb, false_and, decide_False, cond_false, List.take_succ_cons, if_false]
      rw [List.filter_cons]
      simp only [hb, decide_False]
      exact ih

theorem mem_sigsIn_of_get (lower : Char → Char) (calls : List (String × String)) (i : Nat)
    (c : String × String) (hc : calls[i]? = some c) :
    signature c.1 c.2 ∈ sigsIn lower (bucketKey lower c.1) calls := by
  have hmem : c ∈ calls := List.getElem?_mem hc
  unfold sigsIn
  exact List.mem_map.2 ⟨c, List.mem_filter.2 ⟨hmem, by simp⟩, rfl⟩

/-! ## The translators as request lists -/

theorem resolveAll_append (lower : Char → Char) :
    ∀ (rs rs' : List Request) (ks : KeySet),
      resolveAll lower ks (rs ++ rs') =
        ((resolveAll lower ks rs).1 ++ (resolveAll lower (resolveAll lower ks rs).2 rs').1,
          (resolveAll lower (resolveAll lower ks rs).2 rs').2) := by
  intro rs
  induction rs with
  | nil => intro rs' ks; simp [resolveAll]
  | cons r rs ih => intro rs' ks; simp [resolveAll, ih]

theorem checked_nil (descOk : String → Tags → Bool) (ks : KeySet) :
    checked descOk (([] : List Metric), ks) = some ([], ks) := rfl

theorem checked_singleton (descOk : String → Tags → Bool) (m : Metric) (ks : KeySet) :
    checked descOk ([m], ks) = if descOk m.name m.labels = true then some ([m], ks) else none := by
  unfold checked
  simp only [List.all_cons, List.all_nil, Bool.and_true]

theorem checked_resolveAll_cons (descOk : String → Tags → Bool) (lower : Char → Char)
    (r : Request) (rs : List Request) (ks : KeySet) :
    checked descOk (resolveAll lower ks (r :: rs)) =
      if descOk (resolve lower ks r).1.name (resolve lower ks r).1.labels = true then
        (checked descOk (resolveAll lower (resolve lower ks r).2 rs)).map
          (fun y => ((resolve lower ks r).1 :: y.1, y.2))
      else none := by
  unfold checked
  simp only [resolveAll, List.all_cons]
  cases h1 : descOk (resolve lower ks r).1.name (resolve lower ks r).1.labels with
  | false => rfl
  | true =>
    cases h2 : (resolveAll lower (resolve lower ks r).2 rs).1.all
        (fun m => descOk m.name m.labels) with
    | false => rfl
    | true => rfl

theorem checked_resolveAll_append (descOk : String → Tags → Bool) (lower : Char → Char)
    (rs rs' : List Request) (ks : KeySet) :
    checked descOk (resolveAll lower ks (rs ++ rs')) =
      (checked descOk (resolveAll lower ks rs)).bind (fun y =>
        (checked descOk (resolveAll lower y.2 rs')).map (fun z => (y.1 ++ z.1, z.2))) := by
  unfold checked
  rw [resolveAll_append]
  simp only [List.all_append]
  cases h1 : (resolveAll lower ks rs).1.all (fun m => descOk m.name m.labels) with
  | false => rfl
  | true =>
    cases h2 : (resolveAll lower (resolveAll lower ks rs).2 rs').1.all
        (fun m => descOk m.name m.labels) with
    | false =>
      simp only [Bool.and_false, Bool.false_eq_true, if_false, if_true, Option.some_bind, h2,
        Option.map_none']
    | true =>
      simp only [Bool.and_true, if_true, Option.some_bind, h2, Option.map_some']

theorem checked_some (descOk : String → Tags → Bool) (x out : List Metric × KeySet)
    (h : checked descOk x = some out) :
    out = x ∧ ∀ m ∈ x.1, descOk m.name m.labels = true := by
  unfold checked at h
  split at h
  · rename_i hall
    exact ⟨(Option.some.inj h).symm, fun m hm => List.all_eq_true.1 hall m hm⟩
  · cases h

theorem checked_of_all (descOk : String → Tags → Bool) (x : List Metric × KeySet)
    (h : ∀ m ∈ x.1, descOk m.name m.labels = true) : checked descOk x = some x := by
  unfold checked
  rw [if_pos (List.all_eq_true.2 h)]

theorem beanMetricsLoop_eq (descOk : String → Tags → Bool) (lower : Char → Char)
    (beanInfo : JsonObject) (pre : String) (tags : Tags) (tagString : String) :
    ∀ (keys : List String) (metrics : List Metric) (ks : KeySet),
      beanMetricsLoop descOk lower beanInfo pre tags tagString keys metrics ks =
        (checked descOk
          (resolveAll lower ks (beanRequests beanInfo pre tags tagString keys))).map
          (fun y => (metrics ++ y.1, y.2)) := by
  intro keys
  induction keys with
  | nil => intro metrics ks; simp [beanMetricsLoop, beanRequests, resolveAll, checked_nil]
  | cons key keys ih =>
    intro metrics ks
    unfold beanRequests at ih ⊢
    by_cases hk : isMetricKey key = true
    · rw [beanMetricsLoop, if_pos hk, List.filter_cons, if_pos hk, List.map_cons,
        checked_resolveAll_cons]
      simp only [mustNewConstMetric, resolve]
      by_cases hok : descOk
          (renameMetricName lower ks (pre ++ "_" ++ key) tagString).1 tags = true
      · rw [if_pos hok, if_pos hok]
        simp only [ih, Option.map_map]
        congr 1
        funext y
        simp [List.append_assoc]
      · rw [if_neg hok, if_neg hok]
        rfl
    · rw [beanMetricsLoop, if_neg hk, List.filter_cons, if_neg hk]
      exact ih metrics ks

theorem getBeanMetrics_eq (descOk : String → Tags → Bool) (lower : Char → Char)
    (beanInfo : JsonObject) (ks : KeySet) (modulePrefix : String) :
    getBeanMetrics descOk lower beanInfo ks modulePrefix =
      (genericRequests beanInfo modulePrefix).bind
        (fun rs => checked descOk (resolveAll lower ks rs)) := by
  unfold getBeanMetrics genericRequests
  cases getNameLabelInfo beanInfo [] modulePrefix with
  | none => rfl
  | some x =>
    obtain ⟨pre, tags⟩ := x
    simp only [beanMetricsLoop_eq, Option.some_bind]
    cases checked descOk (resolveAll lower ks
      (beanRequests beanInfo pre tags (getTagNames tags) beanInfo.keys)) with
    | none => rfl
    | some y => simp

theorem regionKeyStep_eq (descOk : String → Tags → Bool) (lower : Char → Char)
    (beanInfo : JsonObject) (pre tagString key : String)
    (metrics : List Metric) (tags : Tags) (ks : KeySet) :
    regionKeyStep descOk lower beanInfo pre tagString key metrics tags ks =
      (regionRequest beanInfo pre tagString key tags).bind (fun x =>
        (checked descOk (resolveAll lower ks x.1.toList)).map
          (fun y => (metrics ++ y.1, x.2, y.2))) := by
  unfold regionKeyStep regionRequest
  by_cases hk : isMetricKey key = true
  · simp only [hk, if_true]
    cases index key "_metric_" with
    | none => simp [resolveAll, checked_nil]
    | some mi =>
      simp only
      cases decodeRegion (split key '_') (split key '_') 0 tagString tags 0 with
      | none => rfl
      | some d =>
        obtain ⟨mt, tg, ri⟩ := d
        simp only
        cases sliceFrom key (mi + 8) with
        | none => rfl
        | some tail =>
          simp only [Option.some_bind, Option.toList, resolve,
            mustNewConstMetric, resolveAll, checked_singleton]
          by_cases hok : descOk (renameMetricName lower ks (pre ++ "_" ++ tail) mt).1 tg = true
          · simp [hok]
          · simp [hok]
  · simp [hk, resolveAll, checked_nil]

theorem regionLoop_eq (descOk : String → Tags → Bool) (lower : Char → Char)
    (beanInfo : JsonObject) (pre tagString : String) :
    ∀ (keys : List String) (metrics : List Metric) (tags : Tags) (ks : KeySet),
      regionLoop descOk lower beanInfo pre tagString keys metrics tags ks =
        (regionRequests beanInfo pre tagString keys tags).bind (fun x =>
          (checked descOk (resolveAll lower ks x.1)).map
            (fun y => (metrics ++ y.1, x.2, y.2))) := by
  intro keys
  induction keys with
  | nil => intro metrics tags ks; simp [regionLoop, regionRequests, resolveAll, checked_nil]
  | cons key keys ih =>
    intro metrics tags ks
    rw [regionLoop, regionRequests, regionKeyStep_eq]
    cases regionRequest beanInfo pre tagString key tags with
    | none => rfl
    | some x =>
      obtain ⟨r, tg⟩ := x
      simp only [Option.some_bind]
      cases hrest : regionRequests beanInfo pre tagString keys tg with
      | none =>
        cases checked descOk (resolveAll lower ks r.toList) with
        | none => rfl
        | some y => simp [ih, hrest]
      | some z =>
        obtain ⟨rs, tg'⟩ := z
        simp only [Option.some_bind, checked_resolveAll_append]
        cases checked descOk (resolveAll lower ks r.toList) with
        | none => rfl
        | some y =>
          simp only [Option.map_some', Option.some_bind, ih, hrest]
          cases checked descOk (resolveAll lower y.2 rs) with
          | none => rfl
          | some w => simp [List.append_assoc]

theorem handlerRegionServerRegions_eq (descOk : String → Tags → Bool) (lower : Char → Char)
    (beanInfo : JsonObject) (ks : KeySet) (modulePrefix : String) :
    handlerRegionServerRegions descOk lower beanInfo ks modulePrefix =
      (regionServerRequests beanInfo modulePrefix).bind
        (fun rs => checked descOk (resolveAll lower ks rs)) := by
  unfold handlerRegionServerRegions regionServerRequests
  cases getNameLabelInfo beanInfo [] modulePrefix with
  | none => rfl
  | some x =>
    obtain ⟨pre, tags⟩ := x
    simp only [regionLoop_eq]
    cases regionRequests beanInfo pre (getTagNames tags) beanInfo.keys tags with
    | none => rfl
    | some y =>
      simp only [Option.some_bind, Option.map_some']
      cases checked descOk (resolveAll lower ks y.1) with
      | none => rfl
      | some w => simp

theorem handlerMap_eq (beanName : String) (h : BeanHandler) (hh : handlerMap beanName = some h) :
    h = handlerRegionServerRegions := by
  unfold handlerMap at hh
  split at hh
  · exact (Option.some.inj hh).symm
  · split at hh
    · exact (Option.some.inj hh).symm
    · split at hh
      · exact (Option.some.inj hh).symm
      · cases hh

theorem jmxLoop_eq (descOk : String → Tags → Bool) (lower : Char → Char)
    (modulePrefix : String) :
    ∀ (beans : List JsonObject) (metrics : List Metric) (ks : KeySet),
      jmxLoop descOk lower modulePrefix beans metrics ks =
        (scrapeRequests modulePrefix beans).bind (fun rs =>
          (checked descOk (resolveAll lower ks rs)).map
            (fun y => (metrics ++ y.1, y.2))) := by
  intro beans
  induction beans with
  | nil => intro metrics ks; simp [jmxLoop, scrapeRequests, resolveAll, checked_nil]
  | cons bean beans ih =>
    intro metrics ks
    rw [jmxLoop, scrapeRequests]
    by_cases hp : hasPrefix (bean.getString "name") "Hadoop:" = true
    · simp only [hp, if_true]
      have hh : (handlerMap (bean.getString "name")).getD getBeanMetrics descOk lower bean ks
            modulePrefix =
          (if (handlerMap (bean.getString "name")).isSome
            then regionServerRequests bean modulePrefix
            else genericRequests bean modulePrefix).bind
            (fun rs => checked descOk (resolveAll lower ks rs)) := by
        cases hm : handlerMap (bean.getString "name") with
        | none => simp [getBeanMetrics_eq]
        | some h =>
          rw [handlerMap_eq _ h hm]
          simp [handlerRegionServerRegions_eq]
      rw [hh]
      cases (if (handlerMap (bean.getString "name")).isSome
            then regionServerRequests bean modulePrefix
            else genericRequests bean modulePrefix) with
      | none => rfl
      | some rs =>
        simp only [Option.some_bind]
        cases hrest : scrapeRequests modulePrefix beans with
        | none =>
          cases checked descOk (resolveAll lower ks rs) with
          | none => rfl
          | some y => simp [ih, hrest]
        | some rs' =>
          simp only [Option.some_bind, checked_resolveAll_append]
          cases checked descOk (resolveAll lower ks rs) with
          | none => rfl
          | some y =>
            simp only [Option.some_bind, ih, hrest]
            cases checked descOk (resolveAll lower y.2 rs') with
            | none => rfl
            | some w => simp [List.append_assoc]
    · simp only [hp, ih]
      simp

theorem getJmxInfo_eq (descOk : String → Tags → Bool) (lower : Char → Char)
    (beans : List JsonObject) (modulePrefix : String) :
    getJmxInfo descOk lower beans modulePrefix =
      (scrapeRequests modulePrefix beans).bind (fun rs =>
        (checked descOk (resolveAll lower emptyKeySet rs)).map Prod.fst) := by
  unfold getJmxInfo
  rw [jmxLoop_eq]
  cases scrapeRequests modulePrefix beans with
  | none => rfl
  | some rs =>
    simp only [Option.some_bind]
    cases checked descOk (resolveAll lower emptyKeySet rs) with
    | none => rfl
    | some y => simp

theorem decodeRegion_tag (parts : List String) :
    ∀ (rest : List String) (i : Nat) (mt : String) (tags : Tags) (ri : Nat)
      (out : String × Tags × Nat),
      decodeRegion parts rest i mt tags ri = some out → out.1 = mt ++ markerSuffix rest := by
  intro rest
  induction rest with
  | nil =>
    intro i mt tags ri out h
    simp only [decodeRegion, Option.some.injEq] at h
    subst h
    simp [markerSuffix]
  | cons part rest ih =>
    intro i mt tags ri out h
    rw [decodeRegion] at h
    by_cases hr : part = "region"
    · simp only [hr, if_true] at h
      cases hs : sliceList parts 3 i with
      | none => simp [hs] at h
      | some sl =>
        simp only [hs] at h
        rw [ih _ _ _ _ _ h, markerSuffix]
        simp [hr, String.append_assoc]
    · simp only [hr, if_false] at h
      by_cases hm : part = "metric"
      · simp only [hm, if_true] at h
        cases hs : sliceList parts (ri + 1) i with
        | none => simp [hs] at h
        | some sl =>
          simp only [hs] at h
          rw [ih _ _ _ _ _ h, markerSuffix]
          simp [hm, String.append_assoc]
      · simp only [hm, if_false] at h
        rw [ih _ _ _ _ _ h, markerSuffix]
        simp [hr, hm]

/-! ## Splitting, joining and searching -/

theorem splitChars_ne_nil (sep : Char) (l : List Char) : splitChars sep l ≠ [] := by
  induction l with
  | nil => simp [splitChars]
  | cons c cs ih =>
    rw [splitChars]
    split
    · simp
    · split <;> simp

theorem splitChars_no_sep (sep : Char) (a : List Char) (h : sep ∉ a) :
    splitChars sep a = [a] := by
  induction a with
  | nil => rfl
  | cons c cs ih =>
    have hc : c ≠ sep := fun e => h (by simp [e])
    have hcs : sep ∉ cs := fun e => h (List.mem_cons_of_mem _ e)
    simp [splitChars, hc, ih hcs]

theorem splitChars_append_sep (sep : Char) (a r : List Char) (h : sep ∉ a) :
    splitChars sep (a ++ sep :: r) = a :: splitChars sep r := by
  induction a with
  | nil => simp [splitChars]
  | cons c cs ih =>
    have hc : c ≠ sep := fun e => h (by simp [e])
    have hcs : sep ∉ cs := fun e => h (List.mem_cons_of_mem _ e)
    simp [splitChars, hc, ih hcs]

theorem joinChars_cons_of_ne_nil (sep a : List Char) (r : List (List Char)) (h : r ≠ []) :
    joinChars sep (a :: r) = a ++ sep ++ joinChars sep r := by
  cases r with
  | nil => exact absurd rfl h
  | cons b r => rfl

theorem joinChars_append (sep : List Char) (A B : List (List Char)) (hA : A ≠ [])
    (hB : B ≠ []) : joinChars sep (A ++ B) = joinChars sep A ++ sep ++ joinChars sep B := by
  induction A with
  | nil => exact absurd rfl hA
  | cons a A ih =>
    cases A with
    | nil => simp [joinChars_cons_of_ne_nil sep a B hB, joinChars]
    | cons a' A =>
      have h1 : (a' :: A) ++ B ≠ [] := by simp
      rw [List.cons_append, joinChars_cons_of_ne_nil sep a _ h1, ih (by simp),
        joinChars_cons_of_ne_nil sep a (a' :: A) (by simp)]
      simp [List.append_assoc]

theorem splitChars_joinChars (sep : Char) :
    ∀ toks : List (List Char), toks ≠ [] → (∀ t ∈ toks, sep ∉ t) →
      splitChars sep (joinChars [sep] toks) = toks := by
  intro toks
  induction toks with
  | nil => intro h; exact absurd rfl h
  | cons a toks ih =>
    intro _ htok
    have ha : sep ∉ a := htok a (by simp)
    cases toks with
    | nil => simpa [joinChars] using splitChars_no_sep sep a ha
    | cons b toks =>
      rw [joinChars_cons_of_ne_nil _ _ _ (by simp)]
      have := ih (by simp) (fun t ht => htok t (List.mem_cons_of_mem _ ht))
      simp only [List.append_assoc, List.singleton_append]
      rw [splitChars_append_sep sep a _ ha, this]

theorem split_join (toks : List String) (h : toks ≠ [])
    (htok : ∀ t ∈ toks, '_' ∉ t.data) : split (join toks "_") '_' = toks := by
  unfold split join
  have hd : "_".data = ['_'] := rfl
  rw [hd, splitChars_joinChars '_' (toks.map String.data) (by simpa using h)
    (by simpa using htok)]
  simp [Function.comp_def]

theorem join_append (A B : List String) (hA : A ≠ []) (hB : B ≠ []) :
    join (A ++ B) "_" = join A "_" ++ "_" ++ join B "_" := by
  apply String.ext
  simp only [join, List.map_append, String.data_append]
  exact joinChars_append _ _ _ (by simpa using hA) (by simpa using hB)

theorem indexChars_skip_token (s : Char) (p : List Char) (a : List Char) (hs : s ∉ a)
    (Y : List Char) :
    indexChars (s :: p) (a ++ Y) = (indexChars (s :: p) Y).map (· + a.length) := by
  induction a with
  | nil => simp
  | cons c cs ih =>
    have hc : s ≠ c := fun e => hs (by simp [e])
    have hcs : s ∉ cs := fun e => hs (List.mem_cons_of_mem _ e)
    have hbeq : (s == c) = false := by simpa using hc
    rw [List.cons_append, indexChars, List.isPrefixOf_cons₂, hbeq, Bool.false_and,
      if_neg (by simp), ih hcs, Option.map_map]
    congr 1

theorem token_eq_of_marker (s : Char) :
    ∀ (m b Z : List Char), s ∉ m → s ∉ b → (m ++ [s]) <+: (b ++ s :: Z) → b = m := by
  intro m
  induction m with
  | nil =>
    intro b Z _ hb h
    cases b with
    | nil => rfl
    | cons d b =>
      simp only [List.nil_append, List.cons_append, List.cons_prefix_cons] at h
      exact absurd (by simp [h.1]) hb
  | cons c m ih =>
    intro b Z hm hb h
    cases b with
    | nil =>
      simp only [List.cons_append, List.nil_append, List.cons_prefix_cons] at h
      exact absurd (by simp [h.1]) hm
    | cons d b =>
      simp only [List.cons_append, List.cons_prefix_cons] at h
      rw [h.1, ih b Z (fun e => hm (List.mem_cons_of_mem _ e))
        (fun e => hb (List.mem_cons_of_mem _ e)) h.2]

theorem indexChars_marker (s : Char) (m : List Char) (hm : s ∉ m) (Ts : List (List Char))
    (hT : Ts ≠ []) :
    ∀ pre : List (List Char), pre ≠ [] → (∀ t ∈ pre, s ∉ t ∧ t ≠ m) →
      indexChars (s :: (m ++ [s])) (joinChars [s] (pre ++ m :: Ts)) =
        some (joinChars [s] pre).length := by
  intro pre
  induction pre with
  | nil => intro h; exact absurd rfl h
  | cons a pre ih =>
    intro _ htok
    have ha := htok a (by simp)
    rw [List.cons_append, joinChars_cons_of_ne_nil _ _ _ (by simp), List.append_assoc,
      indexChars_skip_token s _ a ha.1]
    cases pre with
    | nil =>
      have hj : [s] ++ joinChars [s] ([] ++ m :: Ts) = (s :: (m ++ [s])) ++ joinChars [s] Ts := by
        rw [List.nil_append, joinChars_cons_of_ne_nil _ _ _ hT]; simp
      rw [hj]
      have hp : (s :: (m ++ [s])).isPrefixOf ((s :: (m ++ [s])) ++ joinChars [s] Ts) = true := by
        rw [List.isPrefixOf_iff_prefix]; exact List.prefix_append _ _
      cases hx : (s :: (m ++ [s])) ++ joinChars [s] Ts with
      | nil => simp at hx
      | cons x xs =>
        rw [hx] at hp
        simp [indexChars, hp, joinChars]
    | cons b pre =>
      have hb := htok b (by simp)
      have hrec := ih (by simp) (fun t ht => htok t (List.mem_cons_of_mem _ ht))
      have hnp : (s :: (m ++ [s])).isPrefixOf
          (s :: joinChars [s] ((b :: pre) ++ m :: Ts)) = false := by
        rw [Bool.eq_false_iff]
        intro hp
        rw [List.isPrefixOf_iff_prefix, List.cons_prefix_cons] at hp
        rw [List.cons_append, joinChars_cons_of_ne_nil _ _ _ (by simp)] at hp
        simp only [List.append_assoc, List.singleton_append] at hp
        exact hb.2 (token_eq_of_marker s m b _ hm hb.1 hp.2)
      rw [List.singleton_append, indexChars, if_neg (by rw [hnp]; simp), hrec,
        joinChars_cons_of_ne_nil _ a (b :: pre) (by simp)]
      simp only [Option.map_some', Option.some.injEq, List.length_append, List.length_singleton]
      omega

theorem join_marker (pre Ts : List String) (hpre : pre ≠ []) (hT : Ts ≠ []) :
    (join (pre ++ "metric" :: Ts) "_").data =
      (join pre "_").data ++ "_metric_".data ++ (join Ts "_").data := by
  have h1 : join (pre ++ "metric" :: Ts) "_" = join pre "_" ++ "_" ++ join ("metric" :: Ts) "_" :=
    join_append pre ("metric" :: Ts) hpre (by simp)
  have h2 : join ("metric" :: Ts) "_" = "metric" ++ "_" ++ join Ts "_" := by
    have := join_append ["metric"] Ts (by simp) hT
    simpa [join, joinChars] using this
  rw [h1, h2]
  simp only [String.data_append, List.append_assoc]
  rfl

theorem index_marker (pre Ts : List String) (hpre : pre ≠ []) (hT : Ts ≠ [])
    (htok : ∀ t ∈ pre, '_' ∉ t.data ∧ t ≠ "metric") :
    index (join (pre ++ "metric" :: Ts) "_") "_metric_" = some (join pre "_").data.length := by
  unfold index join
  have hpat : "_metric_".data = '_' :: ("metric".data ++ ['_']) := rfl
  have hsep : "_".data = ['_'] := rfl
  rw [hpat, hsep, List.map_append, List.map_cons]
  exact indexChars_marker '_' "metric".data (by decide) (Ts.map String.data) (by simpa using hT)
    (pre.map String.data) (by simpa using hpre) (by
      intro t ht
      obtain ⟨u, hu, rfl⟩ := List.mem_map.1 ht
      exact ⟨(htok u hu).1, fun e => (htok u hu).2 (String.ext e)⟩)

theorem sliceFrom_marker (pre Ts : List String) (hpre : pre ≠ []) (hT : Ts ≠ []) :
    sliceFrom (join (pre ++ "metric" :: Ts) "_") ((join pre "_").data.length + 8) =
      some (join Ts "_") := by
  unfold sliceFrom
  rw [join_marker pre Ts hpre hT]
  have h8 : "_metric_".data.length = 8 := rfl
  have hlen : (join pre "_").data.length + 8 ≤
      ((join pre "_").data ++ "_metric_".data ++ (join Ts "_").data).length := by
    simp only [List.length_append, h8]; omega
  rw [if_pos hlen, List.append_assoc, List.drop_append, ← h8, List.drop_left]

/-! ## The region decoder on a well-formed token list -/

theorem decodeRegion_skip (parts : List String) :
    ∀ (xs rest : List String) (i : Nat) (mt : String) (tags : Tags) (ri : Nat),
      (∀ t ∈ xs, t ≠ "region" ∧ t ≠ "metric") →
      decodeRegion parts (xs ++ rest) i mt tags ri =
        decodeRegion parts rest (i + xs.length) mt tags ri := by
  intro xs
  induction xs with
  | nil => intro rest i mt tags ri _; rfl
  | cons x xs ih =>
    intro rest i mt tags ri h
    have hx := h x (by simp)
    rw [List.cons_append, decodeRegion]
    simp only [hx.1, hx.2, if_false]
    rw [ih rest (i + 1) mt tags ri (fun t ht => h t (List.mem_cons_of_mem _ ht))]
    simp only [List.length_cons]
    congr 1
    omega

theorem decodeRegion_well_formed (t0 t1 t2 : String) (Ns Is Ts : List String)
    (htok : ∀ t ∈ [t0, t1, t2] ++ Ns ++ Is ++ Ts, t ≠ "region" ∧ t ≠ "metric")
    (mt : String) (tags : Tags) :
    decodeRegion ([t0, t1, t2] ++ Ns ++ "region" :: (Is ++ "metric" :: Ts))
        ([t0, t1, t2] ++ Ns ++ "region" :: (Is ++ "metric" :: Ts)) 0 mt tags 0 =
      some (mt ++ "_tableName" ++ "_tableId",
        (tags.set "tableName" (join Ns "_")).set "tableId" (join Is "_"), 3 + Ns.length) := by
  have hA : ∀ t ∈ [t0, t1, t2] ++ Ns, t ≠ "region" ∧ t ≠ "metric" :=
    fun t ht => htok t (by simp only [List.mem_append] at ht ⊢; tauto)
  have hI : ∀ t ∈ Is, t ≠ "region" ∧ t ≠ "metric" :=
    fun t ht => htok t (by simp only [List.mem_append]; tauto)
  have hTs : ∀ t ∈ Ts, t ≠ "region" ∧ t ≠ "metric" :=
    fun t ht => htok t (by simp only [List.mem_append]; tauto)
  have hlenA : ([t0, t1, t2] ++ Ns).length = 3 + Ns.length := by simp; omega
  have hs1 : sliceList ([t0, t1, t2] ++ Ns ++ "region" :: (Is ++ "metric" :: Ts)) 3
      (3 + Ns.length) = some Ns := by
    unfold sliceList
    have hb : 3 ≤ 3 + Ns.length ∧ 3 + Ns.length ≤
        ([t0, t1, t2] ++ Ns ++ "region" :: (Is ++ "metric" :: Ts)).length := by
      simp only [List.length_append, List.length_cons]; omega
    rw [if_pos hb, List.take_left' hlenA]
    rfl
  have hs2 : sliceList ([t0, t1, t2] ++ Ns ++ "region" :: (Is ++ "metric" :: Ts))
      (3 + Ns.length + 1) (3 + Ns.length + 1 + Is.length) = some Is := by
    unfold sliceList
    have hb : 3 + Ns.length + 1 ≤ 3 + Ns.length + 1 + Is.length ∧
        3 + Ns.length + 1 + Is.length ≤
          ([t0, t1, t2] ++ Ns ++ "region" :: (Is ++ "metric" :: Ts)).length := by
      simp only [List.length_append, List.length_cons]; omega
    have hre : [t0, t1, t2] ++ Ns ++ "region" :: (Is ++ "metric" :: Ts) =
        (([t0, t1, t2] ++ Ns ++ ["region"]) ++ Is) ++ "metric" :: Ts := by simp
    have hl1 : (([t0, t1, t2] ++ Ns ++ ["region"]) ++ Is).length =
        3 + Ns.length + 1 + Is.length := by simp; omega
    have hl2 : ([t0, t1, t2] ++ Ns ++ ["region"]).length = 3 + Ns.length + 1 := by simp; omega
    rw [if_pos hb, hre, List.take_left' hl1, List.drop_left' hl2]
  rw [decodeRegion_skip _ _ _ 0 mt tags 0 hA, decodeRegion, if_pos rfl, Nat.zero_add, hlenA, hs1]
  simp only
  rw [decodeRegion_skip _ _ _ _ _ _ _ hI, decodeRegion, if_neg (by decide), if_pos rfl, hs2]
  simp only
  have := decodeRegion_skip ([t0, t1, t2] ++ Ns ++ "region" :: (Is ++ "metric" :: Ts)) Ts []
    (3 + Ns.length + 1 + Is.length + 1) (mt ++ "_tableName" ++ "_tableId")
    ((tags.set "tableName" (join Ns "_")).set "tableId" (join Is "_")) (3 + Ns.length) hTs
  rw [List.append_nil] at this
  rw [this, decodeRegion]

/-! ## Label maps -/

theorem tags_get_set_same (tags : Tags) (k v : String) : (tags.set k v).get k = some v := by
  induction tags with
  | nil => simp [Tags.set, Tags.get, List.lookup]
  | cons kv tags ih =>
    obtain ⟨k', v'⟩ := kv
    unfold Tags.get at ih ⊢
    by_cases h : k' = k
    · simp [Tags.set, h, List.lookup]
    · have h' : (k == k') = false := by simpa using fun e => h e.symm
      simp [Tags.set, h, List.lookup, h', ih]

theorem tags_get_set_other (tags : Tags) (k v k' : String) (hk : k' ≠ k) :
    (tags.set k v).get k' = tags.get k' := by
  induction tags with
  | nil =>
    have h' : (k' == k) = false := by simpa using hk
    simp [Tags.set, Tags.get, List.lookup, h']
  | cons kv tags ih =>
    obtain ⟨k₀, v₀⟩ := kv
    unfold Tags.get at ih ⊢
    by_cases h : k₀ = k
    · subst h
      have h' : (k' == k₀) = false := by simpa using hk
      simp [Tags.set, List.lookup, h']
    · by_cases h2 : k' = k₀
      · simp [Tags.set, h, List.lookup, h2]
      · have h' : (k' == k₀) = false := by simpa using h2
        simp [Tags.set, h, List.lookup, h', ih]

theorem isMetricKey_of_tokens (toks : List String) (hlen : 2 ≤ toks.length)
    (htok : ∀ t ∈ toks, '_' ∉ t.data) (hfilter : hasPrefix (join toks "_") "tag." = false) :
    isMetricKey (join toks "_") = true := by
  have hne : toks ≠ [] := by intro e; rw [e] at hlen; simp at hlen
  have hsplit := split_join toks hne htok
  have h1 : join toks "_" ≠ "name" := by
    intro e
    rw [e] at hsplit
    have : split "name" '_' = ["name"] := by decide
    rw [this] at hsplit
    rw [← hsplit] at hlen
    simp at hlen
  have h2 : join toks "_" ≠ "modelerType" := by
    intro e
    rw [e] at hsplit
    have : split "modelerType" '_' = ["modelerType"] := by decide
    rw [this] at hsplit
    rw [← hsplit] at hlen
    simp at hlen
  simp [isMetricKey, h1, h2, hfilter]

/-! ## Decimal numerals are read back uniquely -/

theorem digitChar_value (k : Nat) (h : k < 10) : (Nat.digitChar k).toNat - 48 = k := by
  interval_cases k <;> rfl

theorem toDigitsCore_fold (fuel : Nat) :
    ∀ (n : Nat) (ds : List Char), n < fuel →
      List.foldl (fun a c => 10 * a + (c.toNat - 48)) 0 (Nat.toDigitsCore 10 fuel n ds) =
        List.foldl (fun a c => 10 * a + (c.toNat - 48)) n ds := by
  induction fuel with
  | zero => intro n ds h; omega
  | succ fuel ih =>
    intro n ds h
    simp only [Nat.toDigitsCore]
    have hd := digitChar_value (n % 10) (Nat.mod_lt _ (by decide))
    split
    · rename_i h0
      have hn : n % 10 = n := by omega
      rw [hn] at hd
      simp only [List.foldl_cons, Nat.mul_zero, Nat.zero_add, hn, hd]
    · rename_i h0
      have hlt : n / 10 < fuel := by omega
      rw [ih _ _ hlt]
      simp only [List.foldl_cons, hd]
      congr 1
      omega

theorem repr_injective (a b : Nat) (h : Nat.repr a = Nat.repr b) : a = b := by
  have key : ∀ n : Nat,
      List.foldl (fun a c => 10 * a + (c.toNat - 48)) 0 (Nat.repr n).data = n := by
    intro n
    have := toDigitsCore_fold (n + 1) n [] (Nat.lt_succ_self n)
    simpa [Nat.repr, Nat.toDigits, List.asString] using this
  rw [← key a, ← key b, h]

theorem toDigitsCore_ne_nil (fuel : Nat) :
    ∀ (n : Nat) (ds : List Char), fuel ≠ 0 ∨ ds ≠ [] → Nat.toDigitsCore 10 fuel n ds ≠ [] := by
  induction fuel with
  | zero =>
    intro n ds h
    rcases h with h | h
    · exact absurd rfl h
    · simpa [Nat.toDigitsCore] using h
  | succ fuel ih =>
    intro n ds _
    simp only [Nat.toDigitsCore]
    split
    · simp
    · exact ih _ _ (Or.inr (by simp))

theorem repr_data_ne_nil (n : Nat) : (Nat.repr n).data ≠ [] := by
  have := toDigitsCore_ne_nil (n + 1) n [] (Or.inl (Nat.succ_ne_zero n))
  simpa [Nat.repr, Nat.toDigits, List.asString] using this

theorem suffixed_data (name : String) (p : Nat) :
    (suffixed name p).data = name.data ++ (if p = 0 then [] else (Nat.repr (p - 1)).data) := by
  unfold suffixed
  split <;> simp

theorem suffixed_inj (n1 n2 : String) (p1 p2 : Nat) (hlen : n1.data.length = n2.data.length)
    (h : suffixed n1 p1 = suffixed n2 p2) : n1 = n2 ∧ p1 = p2 := by
  have hd := congrArg String.data h
  rw [suffixed_data, suffixed_data] at hd
  obtain ⟨h1, h2⟩ := List.append_inj hd hlen
  refine ⟨String.ext h1, ?_⟩
  by_cases hp1 : p1 = 0
  · by_cases hp2 : p2 = 0
    · rw [hp1, hp2]
    · simp only [hp1, hp2, if_true, if_false] at h2
      exact absurd h2.symm (repr_data_ne_nil _)
  · by_cases hp2 : p2 = 0
    · simp only [hp1, hp2, if_true, if_false] at h2
      exact absurd h2 (repr_data_ne_nil _)
    · simp only [hp1, hp2, if_false] at h2
      have := repr_injective _ _ (String.ext h2)
      omega

theorem toLower_length (lower : Char → Char) (s : String) :
    (toLower lower s).data.length = s.data.length := by
  simp [toLower]

/-! ## Names of one bucket -/

theorem subset_registerAll :
    ∀ (xs acc : List String) (x : String), x ∈ acc → x ∈ registerAll acc xs := by
  intro xs
  induction xs with
  | nil => intro acc x h; exact h
  | cons y xs ih =>
    intro acc x h
    exact ih _ x ((mem_appendIfNew acc y x).2 (Or.inl h))

theorem mem_registerAll :
    ∀ (xs acc : List String) (x : String), x ∈ xs → x ∈ registerAll acc xs := by
  intro xs
  induction xs with
  | nil => intro acc x h; simp at h
  | cons y xs ih =>
    intro acc x h
    rcases List.mem_cons.1 h with rfl | h
    · exact subset_registerAll xs _ x ((mem_appendIfNew acc x x).2 (Or.inr rfl))
    · exact ih _ x h

/-- In a run from the empty registry, two calls of the same bucket with
different signatures are answered with different names. -/
theorem renameAll_distinct (lower : Char → Char) (calls : List (String × String))
    (i j : Nat) (ci cj : String × String) (ni nj : String)
    (hci : calls[i]? = some ci) (hcj : calls[j]? = some cj)
    (hni : (renameAll lower emptyKeySet calls).1[i]? = some ni)
    (hnj : (renameAll lower emptyKeySet calls).1[j]? = some nj)
    (hb : bucketKey lower ci.1 = bucketKey lower cj.1)
    (hs : signature ci.1 ci.2 ≠ signature cj.1 cj.2) : ni ≠ nj := by
  have hne : ∀ b, emptyKeySet b ≠ some [] := fun b => by simp [emptyKeySet]
  rw [renameAll_get lower calls emptyKeySet hne i ci hci] at hni
  rw [renameAll_get lower calls emptyKeySet hne j cj hcj, ← hb] at hnj
  have hmi := mem_registerAll _ (emptyKeySet.bucket (bucketKey lower ci.1)) _
    (mem_sigsIn_of_get lower calls i ci hci)
  have hmj := mem_registerAll _ (emptyKeySet.bucket (bucketKey lower cj.1)) _
    (mem_sigsIn_of_get lower calls j cj hcj)
  rw [← hb] at hmj
  intro e
  rw [← Option.some.inj hni, ← Option.some.inj hnj] at e
  have hlen : (sanitize ci.1).data.length = (sanitize cj.1).data.length := by
    have := congrArg (fun s => s.data.length) hb
    simp only [bucketKey] at this
    rw [toLower_length, toLower_length] at this
    exact this
  have := (suffixed_inj _ _ _ _ hlen e).2
  exact hs ((List.indexOf_inj hmi hmj).1 this)

theorem renameAll_same (lower : Char → Char) (calls : List (String × String))
    (i j : Nat) (ci cj : String × String) (ni nj : String)
    (hci : calls[i]? = some ci) (hcj : calls[j]? = some cj)
    (hni : (renameAll lower emptyKeySet calls).1[i]? = some ni)
    (hnj : (renameAll lower emptyKeySet calls).1[j]? = some nj)
    (hn : sanitize ci.1 = sanitize cj.1) (ht : ci.2 = cj.2) : ni = nj := by
  have hne : ∀ b, emptyKeySet b ≠ some [] := fun b => by simp [emptyKeySet]
  rw [renameAll_get lower calls emptyKeySet hne i ci hci] at hni
  rw [renameAll_get lower calls emptyKeySet hne j cj hcj] at hnj
  have hb : bucketKey lower ci.1 = bucketKey lower cj.1 := by unfold bucketKey; rw [hn]
  have hs : signature ci.1 ci.2 = signature cj.1 cj.2 := by unfold signature; rw [hn, ht]
  rw [hb, hs, hn] at hni
  rw [hni] at hnj
  exact Option.some.inj hnj

theorem resolveAll_names (lower : Char → Char) :
    ∀ (reqs : List Request) (ks : KeySet),
      (resolveAll lower ks reqs).1.map Metric.name =
        (renameAll lower ks (reqs.map (fun r => (r.metricName, r.tagString)))).1 := by
  intro reqs
  induction reqs with
  | nil => intro ks; rfl
  | cons r reqs ih =>
    intro ks
    simp only [resolveAll, resolve, List.map_cons, renameAll, ih]

theorem regionRequest_tag (beanInfo : JsonObject) (pre ts key : String) (tags tags' : Tags)
    (r : Request) (h : regionRequest beanInfo pre ts key tags = some (some r, tags')) :
    r.tagString = ts ++ markerSuffix (split key '_') := by
  unfold regionRequest at h
  split at h
  · split at h
    · simp at h
    · split at h
      · simp at h
      · rename_i mt tg ri hdec
        split at h
        · simp at h
        · simp only [Option.some.injEq, Prod.mk.injEq] at h
          rw [← h.1]
          exact decodeRegion_tag _ _ _ _ _ _ _ hdec
  · simp at h

theorem regionRequests_tag (beanInfo : JsonObject) (pre ts : String) :
    ∀ (keys : List String) (tags : Tags) (out : List Request × Tags),
      regionRequests beanInfo pre ts keys tags = some out →
      ∀ r ∈ out.1, ∃ key ∈ keys, r.tagString = ts ++ markerSuffix (split key '_') := by
  intro keys
  induction keys with
  | nil =>
    intro tags out h r hr
    simp only [regionRequests, Option.some.injEq] at h
    rw [← h] at hr
    simp at hr
  | cons key keys ih =>
    intro tags out h r hr
    rw [regionRequests] at h
    cases h1 : regionRequest beanInfo pre ts key tags with
    | none => simp [h1] at h
    | some x =>
      obtain ⟨r0, tg⟩ := x
      simp only [h1] at h
      cases h2 : regionRequests beanInfo pre ts keys tg with
      | none => simp [h2] at h
      | some y =>
        obtain ⟨rs, tg'⟩ := y
        simp only [h2, Option.some.injEq] at h
        rw [← h] at hr
        rcases List.mem_append.1 hr with hr | hr
        · cases r0 with
          | none => simp at hr
          | some r1 =>
            simp only [Option.toList, List.mem_singleton] at hr
            subst hr
            exact ⟨key, by simp, regionRequest_tag _ _ _ _ _ _ _ h1⟩
        · obtain ⟨k, hk, hkr⟩ := ih tg (rs, tg') h2 r hr
          exact ⟨k, List.mem_cons_of_mem _ hk, hkr⟩

theorem resolveAll_get (lower : Char → Char) :
    ∀ (reqs : List Request) (ks : KeySet) (i : Nat) (r : Request) (m : Metric),
      reqs[i]? = some r → (resolveAll lower ks reqs).1[i]? = some m →
      m.labels = r.labels ∧ m.value = r.value := by
  intro reqs
  induction reqs with
  | nil => intro ks i r m h; simp at h
  | cons r0 reqs ih =>
    intro ks i r m hr hm
    cases i with
    | zero =>
      simp only [List.getElem?_cons_zero, Option.some.injEq] at hr
      simp only [resolveAll, resolve, List.getElem?_cons_zero, Option.some.injEq] at hm
      subst hr
      subst hm
      exact ⟨rfl, rfl⟩
    | succ i =>
      simp only [List.getElem?_cons_succ] at hr
      simp only [resolveAll, List.getElem?_cons_succ] at hm
      exact ih _ i r m hr hm

theorem resolveAll_name_get (lower : Char → Char) (reqs : List Request) (ks : KeySet)
    (i : Nat) (m : Metric) (hm : (resolveAll lower ks reqs).1[i]? = some m) :
    (renameAll lower ks (reqs.map (fun r => (r.metricName, r.tagString)))).1[i]? =
      some m.name := by
  rw [← resolveAll_names, List.getElem?_map, hm]
  rfl

/-! ## Registries reached by runs of calls -/

theorem renameAll_append (lower : Char → Char) :
    ∀ (pre calls : List (String × String)) (ks : KeySet),
      renameAll lower ks (pre ++ calls) =
        ((renameAll lower ks pre).1 ++ (renameAll lower (renameAll lower ks pre).2 calls).1,
          (renameAll lower (renameAll lower ks pre).2 calls).2) := by
  intro pre
  induction pre with
  | nil => intro calls ks; simp [renameAll]
  | cons c pre ih => intro calls ks; simp [renameAll, ih]

theorem renameAll_length (lower : Char → Char) :
    ∀ (calls : List (String × String)) (ks : KeySet),
      (renameAll lower ks calls).1.length = calls.length := by
  intro calls
  induction calls with
  | nil => intro ks; rfl
  | cons c calls ih => intro ks; simp [renameAll, ih]

theorem registryInv_empty (lower : Char → Char) : RegistryInv lower emptyKeySet := by
  intro b l h
  simp [emptyKeySet] at h

theorem registryInv_rename (lower : Char → Char) (ks : KeySet) (m t : String)
    (hinv : RegistryInv lower ks) : RegistryInv lower (renameMetricName lower ks m t).2 := by
  have hsig : ∃ m' t' : String, signature m t = sanitize m' ++ "_" ++ t' ∧
      toLower lower (sanitize m') = bucketKey lower m := ⟨m, t, rfl, rfl⟩
  cases h : ks (bucketKey lower m) with
  | none =>
    rw [rename_unseen lower ks m t h]
    intro b l hb
    by_cases hbk : b = bucketKey lower m
    · subst hbk
      simp only [KeySet.set, if_true, Option.some.injEq] at hb
      subst hb
      refine ⟨by simp, List.nodup_singleton _, ?_⟩
      intro s hs
      rw [List.mem_singleton] at hs
      subst hs
      exact hsig
    · simp only [KeySet.set, hbk, if_false] at hb
      exact hinv b l hb
  | some d =>
    by_cases hm : signature m t ∈ d
    · rw [rename_found lower ks m t d h hm]; exact hinv
    · rw [rename_new lower ks m t d h hm]
      intro b l hb
      by_cases hbk : b = bucketKey lower m
      · subst hbk
        simp only [KeySet.set, if_true, Option.some.injEq] at hb
        subst hb
        obtain ⟨_, hnd, hform⟩ := hinv _ d h
        refine ⟨by simp, ?_, ?_⟩
        · exact List.Nodup.append hnd (List.nodup_singleton _) (by simpa using hm)
        · intro s hs
          rcases List.mem_append.1 hs with hs | hs
          · exact hform s hs
          · rw [List.mem_singleton] at hs
            subst hs
            exact hsig
      · simp only [KeySet.set, hbk, if_false] at hb
        exact hinv b l hb

theorem registryInv_renameAll (lower : Char → Char) :
    ∀ (calls : List (String × String)) (ks : KeySet), RegistryInv lower ks →
      RegistryInv lower (renameAll lower ks calls).2 := by
  intro calls
  induction calls with
  | nil => intro ks h; exact h
  | cons c calls ih =>
    intro ks h
    exact ih _ (registryInv_rename lower ks c.1 c.2 h)

/-! ## Observations of a request list, one by one -/

theorem resolveAll_length (lower : Char → Char) :
    ∀ (reqs : List Request) (ks : KeySet), (resolveAll lower ks reqs).1.length = reqs.length := by
  intro reqs
  induction reqs with
  | nil => intro ks; rfl
  | cons r reqs ih => intro ks; simp [resolveAll, ih]

theorem resolveAll_get_at (lower : Char → Char) :
    ∀ (reqs : List Request) (ks : KeySet) (i : Nat) (r : Request), reqs[i]? = some r →
      (resolveAll lower ks reqs).1[i]? =
        some (resolve lower (resolveAll lower ks (reqs.take i)).2 r).1 := by
  intro reqs
  induction reqs with
  | nil => intro ks i r h; simp at h
  | cons r0 reqs ih =>
    intro ks i r h
    cases i with
    | zero =>
      simp only [List.getElem?_cons_zero, Option.some.injEq] at h
      subst h
      simp [resolveAll]
    | succ i =>
      simp only [List.getElem?_cons_succ] at h
      simp only [resolveAll, List.getElem?_cons_succ, List.take_succ_cons]
      exact ih _ i r h

theorem isMetricKey_iff (key : String) :
    isMetricKey key = true ↔
      key ≠ "name" ∧ key ≠ "modelerType" ∧ hasPrefix key "tag." = false := by
  simp [isMetricKey, and_assoc]

/-! ## The first occurrence of a pattern -/

theorem indexChars_some (pat : List Char) :
    ∀ (s : List Char) (i : Nat), indexChars pat s = some i →
      ∃ a t : List Char, s = a ++ pat ++ t ∧ a.length = i := by
  intro s
  induction s with
  | nil =>
    intro i h
    simp only [indexChars] at h
    split at h
    · rename_i hp
      rw [List.isPrefixOf_iff_prefix] at hp
      have hpat : pat = [] := List.prefix_nil.1 hp
      exact ⟨[], [], by simp [hpat], by simpa using Option.some.inj h⟩
    · cases h
  | cons c cs ih =>
    intro i h
    simp only [indexChars] at h
    split at h
    · rename_i hp
      rw [List.isPrefixOf_iff_prefix] at hp
      obtain ⟨t, ht⟩ := hp
      exact ⟨[], t, by simp [ht], by simpa using Option.some.inj h⟩
    · cases hrec : indexChars pat cs with
      | none => simp [hrec] at h
      | some k =>
        simp only [hrec, Option.map_some', Option.some.injEq] at h
        obtain ⟨a, t, hs, hl⟩ := ih k hrec
        exact ⟨c :: a, t, by simp [hs], by simp [hl, h]⟩

theorem indexChars_le (pat : List Char) :
    ∀ (a t : List Char), ∃ i, indexChars pat (a ++ pat ++ t) = some i ∧ i ≤ a.length := by
  intro a
  induction a with
  | nil =>
    intro t
    have hp : pat.isPrefixOf (pat ++ t) = true := by
      rw [List.isPrefixOf_iff_prefix]; exact List.prefix_append _ _
    refine ⟨0, ?_, Nat.le_refl _⟩
    rw [List.nil_append]
    cases hx : pat ++ t with
    | nil => rw [hx] at hp; simp [indexChars, hp]
    | cons x xs => rw [hx] at hp; simp [indexChars, hp]
  | cons c a ih =>
    intro t
    obtain ⟨i, hi, hle⟩ := ih t
    have hcons : (c :: a) ++ pat ++ t = c :: (a ++ pat ++ t) := rfl
    rw [hcons, indexChars]
    split
    · exact ⟨0, rfl, Nat.zero_le _⟩
    · exact ⟨i + 1, by rw [hi]; rfl, by simp [hle]⟩

theorem indexChars_first (pat a t : List Char)
    (hfirst : ∀ a' t' : List Char, a ++ pat ++ t = a' ++ pat ++ t' → a.length ≤ a'.length) :
    indexChars pat (a ++ pat ++ t) = some a.length := by
  obtain ⟨i, hi, hle⟩ := indexChars_le pat a t
  obtain ⟨a', t', hs, hl⟩ := indexChars_some pat _ i hi
  have := hfirst a' t' hs
  have hia : i = a.length := by omega
  rw [hi, hia]

/-! ## Deleting labels -/

theorem tags_get_delete_same (tags : Tags) (k : String) : (tags.delete k).get k = none := by
  unfold Tags.get
  induction tags with
  | nil => rfl
  | cons kv tags ih =>
    obtain ⟨k', v'⟩ := kv
    by_cases h : k' = k
    · simpa [Tags.delete, List.filter_cons, h] using ih
    · have h' : (k == k') = false := by simpa using fun e => h e.symm
      simp only [Tags.delete, List.filter_cons, h, ne_eq, not_false_eq_true, decide_True,
        if_true, List.lookup, h']
      simpa [Tags.delete] using ih

theorem tags_get_delete_other (tags : Tags) (k k' : String) (hk : k' ≠ k) :
    (tags.delete k).get k' = tags.get k' := by
  unfold Tags.get
  induction tags with
  | nil => rfl
  | cons kv tags ih =>
    obtain ⟨k₀, v₀⟩ := kv
    by_cases h : k₀ = k
    · subst h
      have h' : (k' == k₀) = false := by simpa using hk
      simp only [Tags.delete, List.filter_cons, ne_eq, not_true_eq_false, decide_False,
        Bool.false_eq_true, if_false, List.lookup, h']
      simpa [Tags.delete] using ih
    · simp only [Tags.delete, List.filter_cons, h, ne_eq, not_false_eq_true, decide_True,
        if_true, List.lookup]
      split
      · rfl
      · simpa [Tags.delete] using ih

/-! ## The region decoder and the scoped labels -/

theorem decodeRegion_tableName (parts : List String) :
    ∀ (rest : List String) (i : Nat) (mt : String) (tags : Tags) (ri : Nat)
      (out : String × Tags × Nat),
      (∀ part ∈ rest, part ≠ "region") →
      decodeRegion parts rest i mt tags ri = some out →
      out.2.1.get "tableName" = tags.get "tableName" := by
  intro rest
  induction rest with
  | nil =>
    intro i mt tags ri out _ h
    simp only [decodeRegion, Option.some.injEq] at h
    rw [← h]
  | cons part rest ih =>
    intro i mt tags ri out hno h
    have hpart : part ≠ "region" := hno part (by simp)
    have hrest : ∀ p ∈ rest, p ≠ "region" := fun p hp => hno p (List.mem_cons_of_mem _ hp)
    rw [decodeRegion, if_neg hpart] at h
    by_cases hm : part = "metric"
    · rw [if_pos hm] at h
      cases hs : sliceList parts (ri + 1) i with
      | none => simp [hs] at h
      | some sl =>
        simp only [hs] at h
        rw [ih _ _ _ _ _ hrest h, tags_get_set_other _ _ _ _ (by decide)]
    · rw [if_neg hm] at h
      exact ih _ _ _ _ _ hrest h

theorem regionLoop_append (descOk : String → Tags → Bool) (lower : Char → Char) (beanInfo : JsonObject) (pre ts : String) :
    ∀ (keys1 keys2 : List String) (metrics : List Metric) (tags : Tags) (ks : KeySet),
      regionLoop descOk lower beanInfo pre ts (keys1 ++ keys2) metrics tags ks =
        (regionLoop descOk lower beanInfo pre ts keys1 metrics tags ks).bind
          (fun s => regionLoop descOk lower beanInfo pre ts keys2 s.1 s.2.1 s.2.2) := by
  intro keys1
  induction keys1 with
  | nil => intro keys2 metrics tags ks; simp [regionLoop]
  | cons key keys1 ih =>
    intro keys2 metrics tags ks
    simp only [List.cons_append, regionLoop]
    cases regionKeyStep descOk lower beanInfo pre ts key metrics tags ks with
    | none => rfl
    | some s =>
      obtain ⟨m, t, k⟩ := s
      exact ih keys2 m t k

theorem regionKeyStep_cases (descOk : String → Tags → Bool) (lower : Char → Char) (beanInfo : JsonObject) (pre ts key : String)
    (metrics : List Metric) (tags : Tags) (ks : KeySet) (out : List Metric × Tags × KeySet)
    (h : regionKeyStep descOk lower beanInfo pre ts key metrics tags ks = some out) :
    (out.1 = metrics ∧ out.2.1 = tags) ∨
      ∃ m : Metric, out.1 = metrics ++ [m] ∧
        out.2.1.get "tableName" = none ∧ out.2.1.get "tableId" = none ∧
        ((∀ part ∈ split key '_', part ≠ "region") →
          m.labels.get "tableName" = tags.get "tableName") := by
  unfold regionKeyStep at h
  by_cases hk : isMetricKey key = true
  · rw [if_pos hk] at h
    cases hidx : index key "_metric_" with
    | none =>
      simp only [hidx, Option.some.injEq] at h
      rw [← h]
      exact Or.inl ⟨rfl, rfl⟩
    | some mi =>
      simp only [hidx] at h
      cases hdec : decodeRegion (split key '_') (split key '_') 0 ts tags 0 with
      | none => simp [hdec] at h
      | some d =>
        obtain ⟨mt, tg, ri⟩ := d
        simp only [hdec] at h
        cases hsl : sliceFrom key (mi + 8) with
        | none => simp [hsl] at h
        | some tail =>
          simp only [hsl] at h
          cases hnew : mustNewConstMetric descOk
              (renameMetricName lower ks (pre ++ "_" ++ tail) mt).1 tg
              (getAttributeValue (beanInfo.attributes key)) with
          | none => simp [hnew] at h
          | some metric =>
            simp only [hnew, Option.some.injEq] at h
            have hlab : metric.labels = tg := by
              unfold mustNewConstMetric at hnew
              split at hnew
              · rw [← Option.some.inj hnew]
              · cases hnew
            right
            rw [← h]
            refine ⟨_, rfl, ?_, ?_, ?_⟩
            · rw [tags_get_delete_other _ _ _ (by decide), tags_get_delete_same]
            · rw [tags_get_delete_same]
            · intro hno
              rw [hlab]
              exact decodeRegion_tableName _ _ _ _ _ _ _ hno hdec
  · rw [if_neg hk] at h
    simp only [Option.some.injEq] at h
    rw [← h]
    exact Or.inl ⟨rfl, rfl⟩

theorem regionLoop_cases (descOk : String → Tags → Bool) (lower : Char → Char) (beanInfo : JsonObject) (pre ts : String) :
    ∀ (keys : List String) (metrics : List Metric) (tags : Tags) (ks : KeySet)
      (out : List Metric × Tags × KeySet),
      regionLoop descOk lower beanInfo pre ts keys metrics tags ks = some out →
      (out.1 = metrics ∧ out.2.1 = tags) ∨
        ((∃ ms : List Metric, ms ≠ [] ∧ out.1 = metrics ++ ms) ∧
          out.2.1.get "tableName" = none ∧ out.2.1.get "tableId" = none) := by
  intro keys
  induction keys with
  | nil =>
    intro metrics tags ks out h
    simp only [regionLoop, Option.some.injEq] at h
    rw [← h]
    exact Or.inl ⟨rfl, rfl⟩
  | cons key keys ih =>
    intro metrics tags ks out h
    rw [regionLoop] at h
    cases hstep : regionKeyStep descOk lower beanInfo pre ts key metrics tags ks with
    | none => simp [hstep] at h
    | some s =>
      obtain ⟨m1, t1, k1⟩ := s
      simp only [hstep] at h
      rcases regionKeyStep_cases descOk lower beanInfo pre ts key metrics tags ks _ hstep with
        ⟨hm, ht⟩ | ⟨m, hm, hn, hi, _⟩
      · simp only at hm ht
        subst hm
        subst ht
        exact ih _ _ _ _ h
      · simp only at hm hn hi
        right
        rcases ih _ _ _ _ h with ⟨hm', ht'⟩ | ⟨⟨ms, _, hms⟩, hn', hi'⟩
        · rw [ht']
          exact ⟨⟨[m], by simp, by rw [hm', hm]⟩, hn, hi⟩
        · exact ⟨⟨m :: ms, by simp, by rw [hms, hm]; simp⟩, hn', hi'⟩

/-! ## Which keys the translators answer -/

theorem isRegionKey_eq :
    (fun key : String => decide (key ≠ "name" ∧ key ≠ "modelerType" ∧
      hasPrefix key "tag." = false ∧ index key "_metric_" ≠ none)) = isRegionKey := by
  funext key
  unfold isRegionKey isMetricKey
  cases hidx : index key "_metric_" <;> simp [Bool.and_assoc]

theorem isMetricKey_eq :
    (fun key : String => decide (key ≠ "name" ∧ key ≠ "modelerType" ∧
      hasPrefix key "tag." = false)) = isMetricKey := by
  funext key
  unfold isMetricKey
  simp [Bool.and_assoc]

theorem regionRequest_some (beanInfo : JsonObject) (pre ts key : String) (tags : Tags)
    (out : Option Request × Tags) (h : regionRequest beanInfo pre ts key tags = some out) :
    out.1.toList.map (fun r => (r.metricName, r.value)) =
      if isRegionKey key = true then
        [(pre ++ "_" ++ afterMarker key, getAttributeValue (beanInfo.attributes key))]
      else [] := by
  unfold regionRequest at h
  unfold isRegionKey afterMarker
  by_cases hk : isMetricKey key = true
  · rw [if_pos hk] at h
    cases hidx : index key "_metric_" with
    | none =>
      simp only [hidx, Option.some.injEq] at h
      rw [← h]
      simp
    | some mi =>
      simp only [hidx] at h
      cases hdec : decodeRegion (split key '_') (split key '_') 0 ts tags 0 with
      | none => simp [hdec] at h
      | some d =>
        obtain ⟨mt, tg, ri⟩ := d
        simp only [hdec] at h
        cases hsl : sliceFrom key (mi + 8) with
        | none => simp [hsl] at h
        | some tail =>
          simp only [hsl, Option.some.injEq] at h
          rw [← h]
          unfold sliceFrom at hsl
          split at hsl
          · simp only [Option.some.injEq] at hsl
            simp [hk, hsl]
          · cases hsl
  · rw [if_neg hk] at h
    simp only [Option.some.injEq] at h
    rw [← h]
    simp [hk]

theorem regionRequests_names (beanInfo : JsonObject) (pre ts : String) :
    ∀ (keys : List String) (tags : Tags) (out : List Request × Tags),
      regionRequests beanInfo pre ts keys tags = some out →
      out.1.map (fun r => (r.metricName, r.value)) =
        (keys.filter isRegionKey).map (fun key =>
          (pre ++ "_" ++ afterMarker key, getAttributeValue (beanInfo.attributes key))) := by
  intro keys
  induction keys with
  | nil =>
    intro tags out h
    simp only [regionRequests, Option.some.injEq] at h
    rw [← h]
    rfl
  | cons key keys ih =>
    intro tags out h
    rw [regionRequests] at h
    cases h1 : regionRequest beanInfo pre ts key tags with
    | none => simp [h1] at h
    | some x =>
      obtain ⟨r0, tg⟩ := x
      simp only [h1] at h
      cases h2 : regionRequests beanInfo pre ts keys tg with
      | none => simp [h2] at h
      | some y =>
        obtain ⟨rs, tg'⟩ := y
        simp only [h2, Option.some.injEq] at h
        rw [← h]
        have hhead := regionRequest_some beanInfo pre ts key tags _ h1
        have htail := ih tg _ h2
        simp only at hhead htail
        rw [List.map_append, hhead, htail, List.filter_cons]
        by_cases hk : isRegionKey key = true <;> simp [hk]

theorem index_ne_none_iff (key : String) :
    index key "_metric_" ≠ none ↔
      ∃ a t : List Char, key.data = a ++ "_metric_".data ++ t := by
  unfold index
  constructor
  · intro h
    cases hidx : indexChars "_metric_".data key.data with
    | none => exact absurd hidx h
    | some i =>
      obtain ⟨a, t, hs, _⟩ := indexChars_some _ _ i hidx
      exact ⟨a, t, hs⟩
  · rintro ⟨a, t, hs⟩
    obtain ⟨i, hi, _⟩ := indexChars_le "_metric_".data a t
    rw [hs, hi]
    simp

theorem afterMarker_first (key : String) (a t : List Char)
    (hkey : key.data = a ++ "_metric_".data ++ t)
    (hfirst : ∀ a' t' : List Char, key.data = a' ++ "_metric_".data ++ t' →
      a.length ≤ a'.length) : afterMarker key = ⟨t⟩ := by
  have hidx : index key "_metric_" = some a.length := by
    unfold index
    rw [hkey]
    exact indexChars_first _ a t (fun a' t' h => hfirst a' t' (hkey.trans h))
  unfold afterMarker
  rw [hidx]
  simp only
  congr 1
  rw [hkey]
  have h8 : "_metric_".data.length = 8 := rfl
  rw [List.append_assoc, List.drop_append, ← h8, List.drop_left]

/-! ## The name deriver on well-formed identities -/

theorem split_join_char (c : Char) (toks : List String) (h : toks ≠ [])
    (htok : ∀ t ∈ toks, c ∉ t.data) : split (join toks ⟨[c]⟩) c = toks := by
  unfold split join
  rw [splitChars_joinChars c (toks.map String.data) (by simpa using h) (by simpa using htok)]
  simp [Function.comp_def]

theorem splitChars_head (sep : Char) (v rest : List Char) (hv : sep ∉ v)
    (hrest : rest = [] ∨ ∃ r, rest = sep :: r) :
    (splitChars sep (v ++ rest)).head? = some v := by
  rcases hrest with rfl | ⟨r, rfl⟩
  · rw [List.append_nil, splitChars_no_sep sep v hv]; rfl
  · rw [splitChars_append_sep sep v r hv]; rfl

theorem split_segment (k v : String) (hk : '=' ∉ k.data) (hv : '=' ∉ v.data) :
    split (k ++ "=" ++ v) '=' = [k, v] := by
  unfold split
  have hd : (k ++ "=" ++ v).data = k.data ++ '=' :: v.data := by
    simp only [String.data_append, List.append_assoc]
    rfl
  rw [hd, splitChars_append_sep '=' _ _ hk, splitChars_no_sep '=' _ hv]
  rfl

theorem sliceFrom_identity (body : String) : sliceFrom ("Hadoop:" ++ body) 7 = some body := by
  unfold sliceFrom
  have hd : ("Hadoop:" ++ body).data = "Hadoop:".data ++ body.data := String.data_append _ _
  have h7 : "Hadoop:".data.length = 7 := rfl
  rw [hd, if_pos (by rw [List.length_append, h7]; omega), List.drop_left' h7]

theorem nameSegments_well_formed :
    ∀ (segs : List (String × String)) (pre : List String) (tags : Tags),
      (∀ p ∈ segs, '=' ∉ p.1.data ∧ '=' ∉ p.2.data) →
      nameSegments (segs.map (fun p => p.1 ++ "=" ++ p.2)) pre tags =
        some (pre ++ serviceValues segs, tags.setAll (identityLabels segs)) := by
  intro segs
  induction segs with
  | nil => intro pre tags _; simp [nameSegments, serviceValues, identityLabels, Tags.setAll]
  | cons p segs ih =>
    intro pre tags h
    obtain ⟨k, v⟩ := p
    have hp := h (k, v) (by simp)
    have hrest : ∀ q ∈ segs, '=' ∉ q.1.data ∧ '=' ∉ q.2.data :=
      fun q hq => h q (List.mem_cons_of_mem _ hq)
    simp only [List.map_cons, nameSegments, split_segment k v hp.1 hp.2, List.head?_cons,
      Option.some.injEq]
    by_cases hs : k = "service"
    · subst hs
      simp only [if_true]
      have h1 : (["service", v] : List String)[1]? = some v := rfl
      rw [h1]
      simp only
      rw [ih _ _ hrest]
      simp [serviceValues, identityLabels, List.filter_cons]
    · rw [if_neg hs]
      by_cases hn : k = "name"
      · subst hn
        simp only [ne_eq, not_true_eq_false, if_false]
        rw [ih _ _ hrest]
        simp [serviceValues, identityLabels, List.filter_cons]
      · rw [if_pos (by simpa using hn)]
        have h1 : ([k, v] : List String)[1]? = some v := rfl
        rw [h1]
        simp only
        rw [ih _ _ hrest]
        simp [serviceValues, identityLabels, List.filter_cons, hs, hn, Tags.setAll]

theorem segment_no_comma (p : String × String)
    (h : ',' ∉ p.1.data ∧ ',' ∉ p.2.data) : ',' ∉ (p.1 ++ "=" ++ p.2).data := by
  simp only [String.data_append, List.mem_append, not_or]
  exact ⟨⟨h.1, by decide⟩, h.2⟩

theorem nameLabelLoop_well_formed (beanInfo : JsonObject) (modulePrefix : String)
    (segs : List (String × String)) (hsegs : segs ≠ [])
    (hchars : ∀ p ∈ segs,
      ',' ∉ p.1.data ∧ '=' ∉ p.1.data ∧ ',' ∉ p.2.data ∧ '=' ∉ p.2.data)
    (hname : beanInfo.getString "name" = identityOf segs) :
    ∀ (keys : List String) (pre0 : String) (tags0 : Tags),
      nameLabelLoop beanInfo modulePrefix keys pre0 tags0 =
        some (if "name" ∈ keys then modulePrefixOf segs modulePrefix else pre0,
          keys.foldl (labelStep beanInfo segs) tags0) := by
  have hsplit : split (join (segs.map (fun p => p.1 ++ "=" ++ p.2)) ",") ',' =
      segs.map (fun p => p.1 ++ "=" ++ p.2) := by
    have := split_join_char ',' (segs.map (fun p => p.1 ++ "=" ++ p.2)) (by simpa using hsegs)
      (by
        intro t ht
        obtain ⟨p, hp, rfl⟩ := List.mem_map.1 ht
        exact segment_no_comma p ⟨(hchars p hp).1, (hchars p hp).2.2.1⟩)
    exact this
  have hseg := nameSegments_well_formed segs ["Hadoop"]
  intro keys
  induction keys with
  | nil => intro pre0 tags0; simp [nameLabelLoop]
  | cons key keys ih =>
    intro pre0 tags0
    rw [nameLabelLoop]
    by_cases hk : key = "name"
    · subst hk
      rw [if_pos rfl, hname]
      unfold identityOf
      rw [sliceFrom_identity]
      simp only
      rw [hsplit, hseg tags0 (fun p hp => ⟨(hchars p hp).2.1, (hchars p hp).2.2.2⟩)]
      simp only
      rw [ih]
      simp only [List.mem_cons, true_or, if_true, List.foldl_cons, labelStep]
      congr 2
      · unfold modulePrefixOf
        by_cases hm : modulePrefix = ""
        · simp [hm]
        · simp [hm, String.append_assoc]
    · rw [if_neg hk]
      have hmem : ("name" ∈ key :: keys) ↔ ("name" ∈ keys) := by
        constructor
        · intro h
          rcases List.mem_cons.1 h with h | h
          · exact absurd h.symm hk
          · exact h
        · exact List.mem_cons_of_mem _
      have hif : (if "name" ∈ key :: keys then modulePrefixOf segs modulePrefix else pre0) =
          (if "name" ∈ keys then modulePrefixOf segs modulePrefix else pre0) := by
        simp only [hmem]
      rw [List.foldl_cons, hif]
      by_cases hm : key = "modelerType"
      · have hstep : labelStep beanInfo segs tags0 key = tags0 := by
          unfold labelStep; rw [if_neg hk, if_pos hm]
        rw [if_pos hm, ih, hstep]
      · rw [if_neg hm]
        by_cases ht : hasPrefix key "tag." = true
        · have hstep : labelStep beanInfo segs tags0 key =
              tags0.set ⟨key.data.drop 4⟩ (beanInfo.getString key) := by
            unfold labelStep; rw [if_neg hk, if_neg hm, if_pos ht]
          rw [if_pos ht, ih, hstep]
        · have hstep : labelStep beanInfo segs tags0 key = tags0 := by
            unfold labelStep; rw [if_neg hk, if_neg hm, if_neg ht]
          rw [if_neg ht, ih, hstep]

/-! ## Label lookups through the name deriver -/

theorem setAll_get_last :
    ∀ (after before : List (String × String)) (tags : Tags) (k v : String),
      (∀ p ∈ after, p.1 ≠ k) →
      (tags.setAll (before ++ (k, v) :: after)).get k = some v := by
  intro after
  induction after using List.reverseRecOn with
  | nil =>
    intro before tags k v _
    unfold Tags.setAll
    rw [List.foldl_append]
    simp only [List.foldl_cons, List.foldl_nil]
    exact tags_get_set_same _ _ _
  | append_singleton after q ih =>
    intro before tags k v h
    have hq : q.1 ≠ k := h q (by simp)
    have hrest : ∀ p ∈ after, p.1 ≠ k := fun p hp => h p (by simp [hp])
    have := ih before tags k v hrest
    unfold Tags.setAll at this ⊢
    rw [show before ++ (k, v) :: (after ++ [q]) = (before ++ (k, v) :: after) ++ [q] by simp,
      List.foldl_append]
    simp only [List.foldl_cons, List.foldl_nil]
    rw [tags_get_set_other _ _ _ _ (fun e => hq e.symm)]
    exact this

theorem tags_get_set_ne_none (tags : Tags) (x w k : String)
    (h : (tags.set x w).get k ≠ none) : k = x ∨ tags.get k ≠ none := by
  by_cases hk : k = x
  · exact Or.inl hk
  · right
    rwa [tags_get_set_other _ _ _ _ hk] at h

theorem setAll_get_ne_none :
    ∀ (l : List (String × String)) (tags : Tags) (k : String),
      (tags.setAll l).get k ≠ none → (∃ v, (k, v) ∈ l) ∨ tags.get k ≠ none := by
  intro l
  induction l with
  | nil => intro tags k h; exact Or.inr h
  | cons p l ih =>
    intro tags k h
    unfold Tags.setAll at h
    rw [List.foldl_cons] at h
    rcases ih (tags.set p.1 p.2) k h with ⟨v, hv⟩ | h'
    · exact Or.inl ⟨v, List.mem_cons_of_mem _ hv⟩
    · rcases tags_get_set_ne_none _ _ _ _ h' with rfl | h''
      · exact Or.inl ⟨p.2, by simp⟩
      · exact Or.inr h''

theorem tag_key_hasPrefix (k : String) : hasPrefix ("tag." ++ k) "tag." = true := by
  unfold hasPrefix
  rw [List.isPrefixOf_iff_prefix, String.data_append]
  exact List.prefix_append _ _

theorem tag_key_drop (k : String) : (⟨("tag." ++ k).data.drop 4⟩ : String) = k := by
  have h4 : "tag.".data.length = 4 := rfl
  rw [String.data_append, List.drop_left' h4]

theorem tag_key_ne_name (k : String) : "tag." ++ k ≠ "name" ∧ "tag." ++ k ≠ "modelerType" := by
  have hhead : ("tag." ++ k).data.head? = some 't' := by
    rw [String.data_append]; rfl
  constructor
  · intro e
    rw [e] at hhead
    revert hhead
    decide
  · intro e
    rw [e] at hhead
    revert hhead
    decide

theorem tag_key_of_hasPrefix (key : String) (h : hasPrefix key "tag." = true) :
    key = "tag." ++ ⟨key.data.drop 4⟩ := by
  unfold hasPrefix at h
  rw [List.isPrefixOf_iff_prefix] at h
  obtain ⟨t, ht⟩ := h
  apply String.ext
  have h4 : "tag.".data.length = 4 := rfl
  rw [String.data_append, ← ht, List.drop_left' h4]

theorem labelStep_tag_key (beanInfo : JsonObject) (segs : List (String × String))
    (tags : Tags) (k : String) :
    labelStep beanInfo segs tags ("tag." ++ k) = tags.set k (beanInfo.getString ("tag." ++ k)) := by
  unfold labelStep
  rw [if_neg (tag_key_ne_name k).1, if_neg (tag_key_ne_name k).2, if_pos (tag_key_hasPrefix k),
    tag_key_drop]

theorem labelStep_get_other (beanInfo : JsonObject) (segs : List (String × String))
    (tags : Tags) (key k : String) (hname : key ≠ "name") (htag : key ≠ "tag." ++ k) :
    (labelStep beanInfo segs tags key).get k = tags.get k := by
  unfold labelStep
  rw [if_neg hname]
  split
  · rfl
  · split
    · rename_i ht
      have hkey := tag_key_of_hasPrefix key ht
      rw [tags_get_set_other]
      intro e
      apply htag
      rw [hkey, ← e]
    · rfl

theorem fold_labelStep_tag (beanInfo : JsonObject) (segs : List (String × String)) (k : String) :
    ∀ (keys : List String) (tags : Tags), "name" ∉ keys →
      tags.get k = some (beanInfo.getString ("tag." ++ k)) →
      (keys.foldl (labelStep beanInfo segs) tags).get k =
        some (beanInfo.getString ("tag." ++ k)) := by
  intro keys
  induction keys with
  | nil => intro tags _ h; exact h
  | cons key keys ih =>
    intro tags hno h
    rw [List.foldl_cons]
    apply ih _ (fun e => hno (List.mem_cons_of_mem _ e))
    by_cases ht : key = "tag." ++ k
    · rw [ht, labelStep_tag_key, tags_get_set_same]
    · rw [labelStep_get_other beanInfo segs tags key k (fun e => hno (by simp [e])) ht]
      exact h

theorem fold_labelStep_identity (beanInfo : JsonObject) (segs : List (String × String))
    (k v : String) (before after : List (String × String))
    (hlab : identityLabels segs = before ++ (k, v) :: after) (hlast : ∀ p ∈ after, p.1 ≠ k) :
    ∀ (keys : List String) (tags : Tags), "tag." ++ k ∉ keys →
      (tags.get k = some v ∨ "name" ∈ keys) →
      (keys.foldl (labelStep beanInfo segs) tags).get k = some v := by
  intro keys
  induction keys with
  | nil =>
    intro tags _ h
    rcases h with h | h
    · exact h
    · simp at h
  | cons key keys ih =>
    intro tags hno h
    rw [List.foldl_cons]
    have hkey : key ≠ "tag." ++ k := fun e => hno (by simp [e])
    apply ih _ (fun e => hno (List.mem_cons_of_mem _ e))
    by_cases hn : key = "name"
    · left
      rw [hn]
      unfold labelStep
      rw [if_pos rfl, hlab]
      exact setAll_get_last after before tags k v hlast
    · rcases h with h | h
      · left
        rw [labelStep_get_other beanInfo segs tags key k hn hkey]
        exact h
      · right
        rcases List.mem_cons.1 h with h | h
        · exact absurd h.symm hn
        · exact h

theorem fold_labelStep_source (beanInfo : JsonObject) (segs : List (String × String))
    (allKeys : List String) :
    ∀ (keys : List String) (tags : Tags), (∀ key ∈ keys, key ∈ allKeys) →
      (∀ k, tags.get k ≠ none →
        (∃ v, (k, v) ∈ identityLabels segs) ∨ "tag." ++ k ∈ allKeys) →
      ∀ k, (keys.foldl (labelStep beanInfo segs) tags).get k ≠ none →
        (∃ v, (k, v) ∈ identityLabels segs) ∨ "tag." ++ k ∈ allKeys := by
  intro keys
  induction keys with
  | nil => intro tags _ h k hk; exact h k hk
  | cons key keys ih =>
    intro tags hsub h
    rw [List.foldl_cons]
    apply ih _ (fun x hx => hsub x (List.mem_cons_of_mem _ hx))
    intro k hk
    unfold labelStep at hk
    split at hk
    · rcases setAll_get_ne_none _ _ _ hk with hv | hk'
      · exact Or.inl hv
      · exact h k hk'
    · split at hk
      · exact h k hk
      · split at hk
        · rename_i ht
          rcases tags_get_set_ne_none _ _ _ _ hk with hkx | hk'
          · right
            have hkey := tag_key_of_hasPrefix key ht
            rw [← hkx] at hkey
            rw [← hkey]
            exact hsub key (by simp)
          · exact h k hk'
        · exact h k hk

/-! ## The tag string of a region-server request -/

theorem regionRequest_triple (beanInfo : JsonObject) (pre ts key : String) (tags : Tags)
    (out : Option Request × Tags) (h : regionRequest beanInfo pre ts key tags = some out) :
    out.1.toList.map (fun r => (r.metricName, r.tagString, r.value)) =
      if isRegionKey key = true then
        [(pre ++ "_" ++ afterMarker key, ts ++ markerSuffix (split key '_'),
          getAttributeValue (beanInfo.attributes key))]
      else [] := by
  have hnames := regionRequest_some beanInfo pre ts key tags out h
  obtain ⟨r0, tg⟩ := out
  cases r0 with
  | none =>
    simp only [Option.toList, List.map_nil] at hnames ⊢
    by_cases hk : isRegionKey key = true
    · rw [if_pos hk] at hnames; cases hnames
    · rw [if_neg hk]
  | some r =>
    have htag := regionRequest_tag beanInfo pre ts key tags tg r h
    simp only [Option.toList, List.map_cons, List.map_nil] at hnames ⊢
    by_cases hk : isRegionKey key = true
    · rw [if_pos hk] at hnames
      rw [if_pos hk]
      have h1 := List.cons.inj hnames
      have h2 := Prod.mk.inj h1.1
      rw [h2.1, h2.2, htag]
    · rw [if_neg hk] at hnames; cases hnames

theorem regionRequests_triples (beanInfo : JsonObject) (pre ts : String) :
    ∀ (keys : List String) (tags : Tags) (out : List Request × Tags),
      regionRequests beanInfo pre ts keys tags = some out →
      out.1.map (fun r => (r.metricName, r.tagString, r.value)) =
        (keys.filter isRegionKey).map (fun key =>
          (pre ++ "_" ++ afterMarker key, ts ++ markerSuffix (split key '_'),
            getAttributeValue (beanInfo.attributes key))) := by
  intro keys
  induction keys with
  | nil =>
    intro tags out h
    simp only [regionRequests, Option.some.injEq] at h
    rw [← h]
    rfl
  | cons key keys ih =>
    intro tags out h
    rw [regionRequests] at h
    cases h1 : regionRequest beanInfo pre ts key tags with
    | none => simp [h1] at h
    | some x =>
      obtain ⟨r0, tg⟩ := x
      simp only [h1] at h
      cases h2 : regionRequests beanInfo pre ts keys tg with
      | none => simp [h2] at h
      | some y =>
        obtain ⟨rs, tg'⟩ := y
        simp only [h2, Option.some.injEq] at h
        rw [← h]
        have hhead := regionRequest_triple beanInfo pre ts key tags _ h1
        have htail := ih tg _ h2
        simp only at hhead htail
        rw [List.map_append, hhead, htail, List.filter_cons]
        by_cases hk : isRegionKey key = true <;> simp [hk]

/-- C1. Suffix law over whole runs: in any run of calls starting from the empty
registry, a call with sanitized name `n` and signature `s` returns `n`
unchanged when no other signature was requested in its bucket before `s` was
first requested there, and otherwise `n` directly followed by the decimal
numeral of `k - 1`, where `k` is the number of distinct signatures requested
in the bucket before `s` was first requested; every call of the run with the
same arguments returns the same name. -/
theorem renameAll_suffix_law (lower : Char → Char) (calls : List (String × String))
    (i : Nat) (c : String × String) (hc : calls[i]? = some c) :
    (renameAll lower emptyKeySet calls).1[i]? =
        some (if (priorSignatures lower calls c).card = 0 then sanitize c.1
          else sanitize c.1 ++ Nat.repr ((priorSignatures lower calls c).card - 1)) ∧
    ∀ j : Nat, calls[j]? = some c →
      (renameAll lower emptyKeySet calls).1[j]? = (renameAll lower emptyKeySet calls).1[i]? := by
  have key : ∀ j : Nat, calls[j]? = some c →
      (renameAll lower emptyKeySet calls).1[j]? =
        some (suffixed (sanitize c.1) (priorSignatures lower calls c).card) := by
    intro j hj
    rw [renameAll_get lower calls emptyKeySet (fun b => by simp [emptyKeySet]) j c hj]
    have hb : KeySet.bucket emptyKeySet (bucketKey lower c.1) = [] := rfl
    rw [hb, indexOf_registerAll_card _ _ [] List.nodup_nil (by simp)
      (mem_sigsIn_of_get lower calls j c hj)]
    unfold priorSignatures
    rw [sigsIn_take_firstRequest]
    simp
  refine ⟨key i hc, fun j hj => ?_⟩
  rw [key j hj, key i hc]

theorem renameAll_suffix_law_witness :
    (renameAll Char.toLower emptyKeySet
        [("P_k", "a"), ("P_K", "a"), ("P_k", "b"), ("P_K", "a"), ("P_k", "a")]).1[3]? =
      some "P_K0" ∧
    (renameAll Char.toLower emptyKeySet
        [("P_k", "a"), ("P_K", "a"), ("P_k", "b"), ("P_K", "a"), ("P_k", "a")]).1 =
      ["P_k", "P_K0", "P_k1", "P_K0", "P_k"] :=
  ⟨(renameAll_suffix_law Char.toLower
      [("P_k", "a"), ("P_K", "a"), ("P_k", "b"), ("P_K", "a"), ("P_k", "a")] 3 ("P_K", "a")
      (by decide)).1.trans (by decide), by decide⟩

/-- C2. Resolution of an already-registered signature: when the bucket of the
sanitized name exists and holds the signature, first at position `p`, the call
returns the sanitized name unchanged if `p = 0` and otherwise the sanitized
name directly followed by the decimal numeral of `p - 1`; the registry is left
unchanged. -/
theorem renameMetricName_registered (lower : Char → Char) (keySet : KeySet)
    (metricName tagString : String) (dupMetrics : List String) (p : Nat)
    (hbucket : keySet (toLower lower (sanitize metricName)) = some dupMetrics)
    (hat : dupMetrics[p]? = some (sanitize metricName ++ "_" ++ tagString))
    (hfirst : ∀ q, q < p → dupMetrics[q]? ≠ some (sanitize metricName ++ "_" ++ tagString)) :
    renameMetricName lower keySet metricName tagString =
      (if p = 0 then sanitize metricName else sanitize metricName ++ Nat.repr (p - 1),
        keySet) := by
  simp only [renameMetricName, hbucket, rangeFind_first _ _ p 0 0 hat hfirst]
  by_cases h0 : p = 0 <;> simp [h0]

theorem renameMetricName_registered_witness :
    renameMetricName Char.toLower
        (emptyKeySet.set "hadoop_x_count" ["Hadoop_X_count_a", "Hadoop_X_Count_b", "Hadoop_X_count_c"])
        "Hadoop.X-count" "c" =
      ("Hadoop_X_count1",
        emptyKeySet.set "hadoop_x_count" ["Hadoop_X_count_a", "Hadoop_X_Count_b", "Hadoop_X_count_c"]) :=
  renameMetricName_registered Char.toLower
    (emptyKeySet.set "hadoop_x_count" ["Hadoop_X_count_a", "Hadoop_X_Count_b", "Hadoop_X_count_c"])
    "Hadoop.X-count" "c" ["Hadoop_X_count_a", "Hadoop_X_Count_b", "Hadoop_X_count_c"] 2
    (by decide) (by decide) (by decide)

/-- C3. Registration of a new signature.  On an unseen bucket the call returns
the sanitized name unchanged and the bucket becomes the one-element list of the
signature.  On a bucket holding a non-empty list of length `L` without the
signature, the call returns the sanitized name followed by the numeral of
`L - 1` and the bucket becomes the old list with the signature appended at
position `L`; so the first duplicate in a bucket gets the suffix 0 and the
next distinct signature the suffix 1. -/
theorem renameMetricName_new_signature (lower : Char → Char) (keySet : KeySet)
    (metricName tagString : String) :
    (keySet (toLower lower (sanitize metricName)) = none →
      (renameMetricName lower keySet metricName tagString).1 = sanitize metricName ∧
      (renameMetricName lower keySet metricName tagString).2
          (toLower lower (sanitize metricName)) =
        some [sanitize metricName ++ "_" ++ tagString]) ∧
    (∀ dupMetrics : List String,
      keySet (toLower lower (sanitize metricName)) = some dupMetrics →
      dupMetrics ≠ [] →
      sanitize metricName ++ "_" ++ tagString ∉ dupMetrics →
      (renameMetricName lower keySet metricName tagString).1 =
        sanitize metricName ++ Nat.repr (dupMetrics.length - 1) ∧
      (renameMetricName lower keySet metricName tagString).2
          (toLower lower (sanitize metricName)) =
        some (dupMetrics ++ [sanitize metricName ++ "_" ++ tagString]) ∧
      (dupMetrics ++ [sanitize metricName ++ "_" ++ tagString])[dupMetrics.length]? =
        some (sanitize metricName ++ "_" ++ tagString) ∧
      (dupMetrics.length = 1 →
        (renameMetricName lower keySet metricName tagString).1 = sanitize metricName ++ "0") ∧
      (dupMetrics.length = 2 →
        (renameMetricName lower keySet metricName tagString).1 = sanitize metricName ++ "1")) := by
  constructor
  · intro h
    rw [rename_unseen lower keySet metricName tagString h]
    simp [KeySet.set, bucketKey, signature]
  · intro l h hne hm
    have hr := rename_new lower keySet metricName tagString l h hm
    simp only [hne, if_false] at hr
    rw [hr]
    refine ⟨rfl, ?_, ?_, ?_, ?_⟩
    · simp [KeySet.set, bucketKey, signature]
    · simp
    · intro h1; simp only [h1]; rfl
    · intro h2; simp only [h2]; rfl

theorem renameMetricName_new_signature_witness :
    ((renameMetricName Char.toLower emptyKeySet "Hadoop_X.count" "a").1 = "Hadoop_X_count" ∧
      (renameMetricName Char.toLower emptyKeySet "Hadoop_X.count" "a").2 "hadoop_x_count" =
        some ["Hadoop_X_count_a"]) ∧
    ((renameMetricName Char.toLower (emptyKeySet.set "hadoop_x_count" ["Hadoop_X_count_a"])
        "Hadoop_X.Count" "a").1 = "Hadoop_X_Count0" ∧
      (renameMetricName Char.toLower (emptyKeySet.set "hadoop_x_count" ["Hadoop_X_count_a"])
        "Hadoop_X.Count" "a").2 "hadoop_x_count" =
        some ["Hadoop_X_count_a", "Hadoop_X_Count_a"]) :=
  ⟨(renameMetricName_new_signature Char.toLower emptyKeySet "Hadoop_X.count" "a").1 (by decide),
    ((renameMetricName_new_signature Char.toLower
        (emptyKeySet.set "hadoop_x_count" ["Hadoop_X_count_a"]) "Hadoop_X.Count" "a").2
      ["Hadoop_X_count_a"] (by decide) (by decide) (by decide)).1,
    ((renameMetricName_new_signature Char.toLower
        (emptyKeySet.set "hadoop_x_count" ["Hadoop_X_count_a"]) "Hadoop_X.Count" "a").2
      ["Hadoop_X_count_a"] (by decide) (by decide) (by decide)).2.1⟩

/-- C4. Case folding: two candidate names whose sanitized forms differ only in
letter case (equal length, and at every position the two characters have the
same lowercase form, while the names themselves differ), requested one after
the other with the same tag string on a registry where their bucket is unseen,
use the same bucket key; the first request returns its sanitized name
unchanged, the second returns its own sanitized name followed by 0, and the
bucket ends up holding the two signatures in request order. -/
theorem renameMetricName_case_folding (lower : Char → Char) (keySet : KeySet)
    (name1 name2 tagString : String)
    (hcase : List.Forall₂ (fun a b => lower a = lower b)
      (sanitize name1).data (sanitize name2).data)
    (hdiff : sanitize name1 ≠ sanitize name2)
    (hunseen : keySet (toLower lower (sanitize name1)) = none) :
    toLower lower (sanitize name1) = toLower lower (sanitize name2) ∧
    (renameMetricName lower keySet name1 tagString).1 = sanitize name1 ∧
    (renameMetricName lower (renameMetricName lower keySet name1 tagString).2
        name2 tagString).1 = sanitize name2 ++ "0" ∧
    (renameMetricName lower (renameMetricName lower keySet name1 tagString).2
        name2 tagString).2 (toLower lower (sanitize name1)) =
      some [sanitize name1 ++ "_" ++ tagString, sanitize name2 ++ "_" ++ tagString] := by
  have hkey : toLower lower (sanitize name1) = toLower lower (sanitize name2) := by
    unfold toLower
    rw [map_lower_eq_of_same_case lower _ _ hcase]
  have h1 := rename_unseen lower keySet name1 tagString hunseen
  have hb : bucketKey lower name2 = bucketKey lower name1 := hkey.symm
  have hk : (keySet.set (bucketKey lower name1) [signature name1 tagString])
      (bucketKey lower name2) = some [signature name1 tagString] := by
    simp [KeySet.set, hb]
  have hm : signature name2 tagString ∉ [signature name1 tagString] := by
    intro h
    rw [List.mem_singleton] at h
    unfold signature at h
    rw [String.append_assoc, String.append_assoc] at h
    exact hdiff (str_append_right_cancel h).symm
  have h2 := rename_new lower _ name2 tagString _ hk hm
  simp only [List.cons_ne_nil, if_false, List.length_singleton, Nat.sub_self] at h2
  rw [h1]
  refine ⟨hkey, rfl, ?_, ?_⟩
  · rw [h2]; rfl
  · rw [h2]
    show KeySet.set _ _ _ (bucketKey lower name1) = _
    simp [KeySet.set, hb, signature]

theorem renameMetricName_case_folding_witness :
    toLower Char.toLower (sanitize "Hadoop_RegionServer_requests") =
      toLower Char.toLower (sanitize "hadoop_regionserver_requests") ∧
    (renameMetricName Char.toLower emptyKeySet "Hadoop_RegionServer_requests" "Hostname").1 =
      "Hadoop_RegionServer_requests" ∧
    (renameMetricName Char.toLower
        (renameMetricName Char.toLower emptyKeySet "Hadoop_RegionServer_requests" "Hostname").2
        "hadoop_regionserver_requests" "Hostname").1 = "hadoop_regionserver_requests0" ∧
    (renameMetricName Char.toLower
        (renameMetricName Char.toLower emptyKeySet "Hadoop_RegionServer_requests" "Hostname").2
        "hadoop_regionserver_requests" "Hostname").2 "hadoop_regionserver_requests" =
      some ["Hadoop_RegionServer_requests_Hostname", "hadoop_regionserver_requests_Hostname"] :=
  renameMetricName_case_folding Char.toLower emptyKeySet "Hadoop_RegionServer_requests"
    "hadoop_regionserver_requests" "Hostname" (by decide) (by decide) (by decide)

/-- C5. The registry is append-only: after any call every bucket's former list
is a prefix of its new list (so no bucket disappears and nothing is removed or
reordered), every bucket other than the lowercase sanitized name is unchanged,
and the registry is either unchanged or differs by exactly one signature
appended to the bucket of the lowercase sanitized name. -/
theorem renameMetricName_append_only (lower : Char → Char) (keySet : KeySet)
    (metricName tagString : String) :
    (∀ (b : String) (l : List String), keySet b = some l →
      ∃ l', (renameMetricName lower keySet metricName tagString).2 b = some l' ∧ l <+: l') ∧
    (∀ b : String, b ≠ toLower lower (sanitize metricName) →
      (renameMetricName lower keySet metricName tagString).2 b = keySet b) ∧
    ((renameMetricName lower keySet metricName tagString).2 = keySet ∨
      ∃ s : String, (renameMetricName lower keySet metricName tagString).2 =
        keySet.set (toLower lower (sanitize metricName))
          ((keySet (toLower lower (sanitize metricName))).getD [] ++ [s])) := by
  cases h : keySet (bucketKey lower metricName) with
  | none =>
    have h' : keySet (toLower lower (sanitize metricName)) = none := h
    rw [rename_unseen lower keySet metricName tagString h]
    refine ⟨?_, ?_, Or.inr ⟨signature metricName tagString, ?_⟩⟩
    · intro b l hb
      by_cases hbk : b = bucketKey lower metricName
      · rw [hbk, h] at hb; cases hb
      · exact ⟨l, by simp [KeySet.set, hbk, hb], List.prefix_refl l⟩
    · intro b hb
      simp [KeySet.set, bucketKey, hb]
    · simp [h', bucketKey]
  | some d =>
    have h' : keySet (toLower lower (sanitize metricName)) = some d := h
    by_cases hm : signature metricName tagString ∈ d
    · rw [rename_found lower keySet metricName tagString d h hm]
      exact ⟨fun b l hb => ⟨l, hb, List.prefix_refl l⟩, fun _ _ => rfl, Or.inl rfl⟩
    · rw [rename_new lower keySet metricName tagString d h hm]
      refine ⟨?_, ?_, Or.inr ⟨signature metricName tagString, ?_⟩⟩
      · intro b l hb
        by_cases hbk : b = bucketKey lower metricName
        · rw [hbk, h] at hb
          cases hb
          exact ⟨d ++ [signature metricName tagString], by simp [KeySet.set, hbk],
            List.prefix_append _ _⟩
        · exact ⟨l, by simp [KeySet.set, hbk, hb], List.prefix_refl l⟩
      · intro b hb
        simp [KeySet.set, bucketKey, hb]
      · simp [h', bucketKey]

theorem renameMetricName_append_only_witness :
    (∃ l', (renameMetricName Char.toLower (emptyKeySet.set "a_b" ["a_b_x"]) "A.b" "x").2 "a_b" =
        some l' ∧ ["a_b_x"] <+: l') ∧
    (renameMetricName Char.toLower (emptyKeySet.set "a_b" ["a_b_x"]) "A.b" "x").2 "c" =
      (emptyKeySet.set "a_b" ["a_b_x"]) "c" :=
  ⟨(renameMetricName_append_only Char.toLower (emptyKeySet.set "a_b" ["a_b_x"]) "A.b" "x").1
      "a_b" ["a_b_x"] (by decide),
    (renameMetricName_append_only Char.toLower (emptyKeySet.set "a_b" ["a_b_x"]) "A.b" "x").2.1
      "c" (by decide)⟩

/-- C6. Sanitization: the five replacements of the program delete every
parenthesis and turn every `.`, `-` and `:` into `_`, keeping all other
characters in order; the name returned by a call is that sanitized candidate
followed by decimal digits only (possibly none), so it contains none of the
characters `(`, `)`, `.`, `-`, `:`; and on an unseen bucket the candidate
`Hadoop_Name(space).sub-key:x` returns exactly `Hadoop_Namespace_sub_key_x`. -/
theorem renameMetricName_sanitized (lower : Char → Char) (keySet : KeySet)
    (metricName tagString : String) :
    sanitize metricName = sanitizeSpec metricName ∧
    (∃ digits : String, (∀ c ∈ digits.data, c.isDigit = true) ∧
      (renameMetricName lower keySet metricName tagString).1 =
        sanitizeSpec metricName ++ digits) ∧
    (∀ c ∈ (renameMetricName lower keySet metricName tagString).1.data,
      c ≠ '(' ∧ c ≠ ')' ∧ c ≠ '.' ∧ c ≠ '-' ∧ c ≠ ':') ∧
    (keySet (toLower lower "Hadoop_Namespace_sub_key_x") = none →
      (renameMetricName lower keySet "Hadoop_Name(space).sub-key:x" tagString).1 =
        "Hadoop_Namespace_sub_key_x") := by
  have hshape : ∃ digits : String, (∀ c ∈ digits.data, c.isDigit = true) ∧
      (renameMetricName lower keySet metricName tagString).1 =
        sanitizeSpec metricName ++ digits := by
    rcases rename_name_shape lower keySet metricName tagString with h | ⟨k, h⟩
    · exact ⟨"", by simp, by rw [h, sanitize_eq_spec]; simp⟩
    · exact ⟨Nat.repr k, repr_isDigit k, by rw [h, sanitize_eq_spec]⟩
  refine ⟨sanitize_eq_spec metricName, hshape, ?_, ?_⟩
  · obtain ⟨digits, hd, he⟩ := hshape
    intro c hc
    rw [he, String.data_append, List.mem_append] at hc
    rcases hc with hc | hc
    · exact sanitizeSpec_not_special metricName c hc
    · exact isDigit_not_special c (hd c hc)
  · intro h
    have hs : sanitize "Hadoop_Name(space).sub-key:x" = "Hadoop_Namespace_sub_key_x" := by decide
    have h' : keySet (bucketKey lower "Hadoop_Name(space).sub-key:x") = none := by
      unfold bucketKey; rw [hs]; exact h
    rw [rename_unseen lower keySet _ tagString h', hs]

theorem renameMetricName_sanitized_witness :
    (renameMetricName Char.toLower emptyKeySet "Hadoop_Name(space).sub-key:x" "Hostname").1 =
      "Hadoop_Namespace_sub_key_x" :=
  (renameMetricName_sanitized Char.toLower emptyKeySet "" "Hostname").2.2.2 (by decide)

/-- C7 fails as stated: one bean with the attribute keys `a.b` and `a_b`
yields two observations with the same final name and the same (empty) label
set, and so do two beans that differ only in the `name` segment of their
identity. -/
theorem getJmxInfo_duplicate_observations :
    getJmxInfo classicDescOk Char.toLower
        [JsonObject.ofList
          [("name", .str "Hadoop:service=DataNode,name=FSDatasetState"),
            ("a.b", .int32 5), ("a_b", .int32 7)]] "" =
      some [⟨"Hadoop_DataNode_a_b", [], .fromInt 5⟩, ⟨"Hadoop_DataNode_a_b", [], .fromInt 7⟩] ∧
    getJmxInfo classicDescOk Char.toLower
        [JsonObject.ofList
          [("name", .str "Hadoop:service=DataNode,name=VolumeA"), ("Capacity", .int32 5)],
          JsonObject.ofList
          [("name", .str "Hadoop:service=DataNode,name=VolumeB"), ("Capacity", .int32 7)]] "" =
      some [⟨"Hadoop_DataNode_Capacity", [], .fromInt 5⟩,
        ⟨"Hadoop_DataNode_Capacity", [], .fromInt 7⟩] := by
  constructor <;> decide

/-- C7, amended. Uniqueness within a scrape, per bucket and signature: a
completed scrape pass over any bean list, starting from the empty registry,
emits one observation per registry request, in request order, each carrying
the labels of its request; two observations whose requests have the same
bucket key (lowercase sanitized candidate name) but different signatures
(sanitized name, `_`, tag string) never have the same final name, while two
observations whose requests have the same sanitized name and tag string always
share their final name. -/
theorem getJmxInfo_distinct_names (descOk : String → Tags → Bool) (lower : Char → Char)
    (beanInfos : List JsonObject) (modulePrefix : String) (out : List Metric)
    (h : getJmxInfo descOk lower beanInfos modulePrefix = some out) :
    ∃ reqs : List Request,
      scrapeRequests modulePrefix beanInfos = some reqs ∧
      out = (resolveAll lower emptyKeySet reqs).1 ∧
      ∀ (i j : Nat) (ri rj : Request) (mi mj : Metric),
        reqs[i]? = some ri → reqs[j]? = some rj → out[i]? = some mi → out[j]? = some mj →
        mi.labels = ri.labels ∧ mj.labels = rj.labels ∧
        (bucketKey lower ri.metricName = bucketKey lower rj.metricName →
          signature ri.metricName ri.tagString ≠ signature rj.metricName rj.tagString →
          mi.name ≠ mj.name) ∧
        (sanitize ri.metricName = sanitize rj.metricName → ri.tagString = rj.tagString →
          mi.name = mj.name) := by
  rw [getJmxInfo_eq] at h
  cases hreq : scrapeRequests modulePrefix beanInfos with
  | none => simp [hreq] at h
  | some reqs =>
    simp only [hreq, Option.some_bind] at h
    cases hchk : checked descOk (resolveAll lower emptyKeySet reqs) with
    | none => simp [hchk] at h
    | some y =>
    simp only [hchk, Option.map_some', Option.some.injEq] at h
    rw [(checked_some descOk _ _ hchk).1] at h
    refine ⟨reqs, rfl, h.symm, ?_⟩
    intro i j ri rj mi mj hri hrj hmi hmj
    rw [← h] at hmi hmj
    have hci : (reqs.map (fun r => (r.metricName, r.tagString)))[i]? =
        some (ri.metricName, ri.tagString) := by rw [List.getElem?_map, hri]; rfl
    have hcj : (reqs.map (fun r => (r.metricName, r.tagString)))[j]? =
        some (rj.metricName, rj.tagString) := by rw [List.getElem?_map, hrj]; rfl
    have hni := resolveAll_name_get lower reqs emptyKeySet i mi hmi
    have hnj := resolveAll_name_get lower reqs emptyKeySet j mj hmj
    refine ⟨(resolveAll_get lower reqs emptyKeySet i ri mi hri hmi).1,
      (resolveAll_get lower reqs emptyKeySet j rj mj hrj hmj).1, ?_, ?_⟩
    · intro hb hs
      exact renameAll_distinct lower _ i j _ _ _ _ hci hcj hni hnj hb hs
    · intro hn ht
      exact renameAll_same lower _ i j _ _ _ _ hci hcj hni hnj hn ht

theorem getJmxInfo_distinct_names_witness :
    getJmxInfo classicDescOk Char.toLower
        [JsonObject.ofList
          [("name", .str "Hadoop:service=DataNode,name=VolumeA,zone=z"), ("Capacity", .int32 5)],
          JsonObject.ofList
          [("name", .str "Hadoop:service=DataNode,name=VolumeB"), ("capacity", .int32 7)]] "" =
      some [⟨"Hadoop_DataNode_Capacity", [("zone", "z")], .fromInt 5⟩,
        ⟨"Hadoop_DataNode_capacity0", [], .fromInt 7⟩] ∧
    (⟨"Hadoop_DataNode_Capacity", [("zone", "z")], .fromInt 5⟩ : Metric).name ≠
      (⟨"Hadoop_DataNode_capacity0", [], .fromInt 7⟩ : Metric).name := by
  have hout : getJmxInfo classicDescOk Char.toLower
        [JsonObject.ofList
          [("name", .str "Hadoop:service=DataNode,name=VolumeA,zone=z"), ("Capacity", .int32 5)],
          JsonObject.ofList
          [("name", .str "Hadoop:service=DataNode,name=VolumeB"), ("capacity", .int32 7)]] "" =
      some [⟨"Hadoop_DataNode_Capacity", [("zone", "z")], .fromInt 5⟩,
        ⟨"Hadoop_DataNode_capacity0", [], .fromInt 7⟩] := by decide
  refine ⟨hout, ?_⟩
  obtain ⟨reqs, hreqs, _, hall⟩ := getJmxInfo_distinct_names classicDescOk Char.toLower _ "" _ hout
  have hr : scrapeRequests ""
        [JsonObject.ofList
          [("name", .str "Hadoop:service=DataNode,name=VolumeA,zone=z"), ("Capacity", .int32 5)],
          JsonObject.ofList
          [("name", .str "Hadoop:service=DataNode,name=VolumeB"), ("capacity", .int32 7)]] =
      some [⟨"Hadoop_DataNode_Capacity", "zone", [("zone", "z")], .fromInt 5⟩,
        ⟨"Hadoop_DataNode_capacity", "", [], .fromInt 7⟩] := by decide
  rw [hr] at hreqs
  have hreqs' := Option.some.inj hreqs
  subst hreqs'
  exact (hall 0 1 _ _ _ _ rfl rfl rfl rfl).2.2.1 (by decide) (by decide)

/-- C8 fails as stated: a key of the stated form whose first token begins with
`tag.` is dropped by the attribute filter, so the translator emits no
observation for it and submits nothing to the registry; and on a bean with the
attribute `tag.` (a bean-level label with the empty name) the descriptor of a
decoded key is refused, so the translator panics at the key of the example
although the name deriver returns and the key decodes. -/
theorem regionKeyStep_tag_key_skipped :
    join (["tag.a", "b", "c"] ++ ["MyTable"] ++ "region" :: (["1234"] ++ "metric" ::
        ["readRequestCount"])) "_" =
      "tag.a_b_c_MyTable_region_1234_metric_readRequestCount" ∧
    (handlerRegionServerRegions classicDescOk Char.toLower
        (JsonObject.ofList
          [("name", .str "Hadoop:service=HBase,name=RegionServer,sub=Regions"),
            ("tag.a_b_c_MyTable_region_1234_metric_readRequestCount", .int32 5)])
        emptyKeySet "RegionServer").map
        (fun x => (x.1, x.2 "hadoop_hbase_regionserver_readrequestcount")) =
      some ([], none) ∧
    getNameLabelInfo
        (JsonObject.ofList
          [("name", .str "Hadoop:service=HBase,name=RegionServer,sub=Regions"),
            ("tag.", .str "v"),
            ("a_b_c_MyTable_region_1234_metric_readRequestCount", .int32 5)])
        [] "RegionServer" =
      some ("Hadoop_HBase_RegionServer", [("sub", "Regions"), ("", "v")]) ∧
    (regionServerRequests
        (JsonObject.ofList
          [("name", .str "Hadoop:service=HBase,name=RegionServer,sub=Regions"),
            ("tag.", .str "v"),
            ("a_b_c_MyTable_region_1234_metric_readRequestCount", .int32 5)])
        "RegionServer").map (fun rs => rs.map (fun r => (r.metricName, r.labels))) =
      some [("Hadoop_HBase_RegionServer_readRequestCount",
        [("sub", "Regions"), ("", "v"), ("tableName", "MyTable"), ("tableId", "1234")])] ∧
    (handlerRegionServerRegions classicDescOk Char.toLower
        (JsonObject.ofList
          [("name", .str "Hadoop:service=HBase,name=RegionServer,sub=Regions"),
            ("tag.", .str "v"),
            ("a_b_c_MyTable_region_1234_metric_readRequestCount", .int32 5)])
        emptyKeySet "RegionServer").map (fun x => x.1) = none := by
  refine ⟨?_, ?_, ?_, ?_, ?_⟩ <;> decide

/-- C8, amended. Region decoding of a well-formed key that passes the attribute
filter: for a key `t0_t1_t2_N_region_I_metric_T` that does not begin with
`tag.`, where `t0`, `t1`, `t2` are underscore-free tokens, `N`, `I` and `T`
are one or more underscore-free tokens joined by `_`, and no token is `region`
or `metric`, the translator submits the candidate `prefix_T` to the registry
(with the tag string extended by `_tableName_tableId`) and builds the
descriptor of the registry's answer with the working labels in which
`tableName = N` and `tableId = I` are set; when the client library accepts
that descriptor the step emits exactly this one observation and goes on with
the two labels deleted, and when the library refuses it the step panics. With
prefix `Hadoop_HBase_RegionServer` and the key
`a_b_c_MyTable_region_1234_metric_readRequestCount` on an unseen bucket the
name is `Hadoop_HBase_RegionServer_readRequestCount` and the labels carry
`tableName = MyTable` and `tableId = 1234`. -/
theorem regionKeyStep_well_formed (descOk : String → Tags → Bool) (lower : Char → Char)
    (beanInfo : JsonObject)
    (metrixPerfix tagString : String) (metrics : List Metric) (tags : Tags) (keySet : KeySet)
    (t0 t1 t2 : String) (Ns Is Ts : List String)
    (hN : Ns ≠ []) (hI : Is ≠ []) (hT : Ts ≠ [])
    (htok : ∀ t ∈ [t0, t1, t2] ++ Ns ++ Is ++ Ts,
      '_' ∉ t.data ∧ t ≠ "region" ∧ t ≠ "metric")
    (hfilter : hasPrefix
      (join ([t0, t1, t2] ++ Ns ++ "region" :: (Is ++ "metric" :: Ts)) "_") "tag." = false) :
    (regionKeyStep descOk lower beanInfo metrixPerfix tagString
        (join ([t0, t1, t2] ++ Ns ++ "region" :: (Is ++ "metric" :: Ts)) "_")
        metrics tags keySet =
      if descOk
          (renameMetricName lower keySet (metrixPerfix ++ "_" ++ join Ts "_")
            (tagString ++ "_tableName" ++ "_tableId")).1
          ((tags.set "tableName" (join Ns "_")).set "tableId" (join Is "_")) = true then
        some (metrics ++
            [⟨(renameMetricName lower keySet (metrixPerfix ++ "_" ++ join Ts "_")
                  (tagString ++ "_tableName" ++ "_tableId")).1,
                (tags.set "tableName" (join Ns "_")).set "tableId" (join Is "_"),
                getAttributeValue (beanInfo.attributes
                  (join ([t0, t1, t2] ++ Ns ++ "region" :: (Is ++ "metric" :: Ts)) "_"))⟩],
          (((tags.set "tableName" (join Ns "_")).set "tableId" (join Is "_")).delete
            "tableName").delete "tableId",
          (renameMetricName lower keySet (metrixPerfix ++ "_" ++ join Ts "_")
            (tagString ++ "_tableName" ++ "_tableId")).2)
      else none) ∧
    ((tags.set "tableName" (join Ns "_")).set "tableId" (join Is "_")).get "tableName" =
      some (join Ns "_") ∧
    ((tags.set "tableName" (join Ns "_")).set "tableId" (join Is "_")).get "tableId" =
      some (join Is "_") ∧
    (keySet (toLower lower "Hadoop_HBase_RegionServer_readRequestCount") = none →
      regionKeyStep descOk lower beanInfo "Hadoop_HBase_RegionServer" tagString
          "a_b_c_MyTable_region_1234_metric_readRequestCount" metrics tags keySet =
        if descOk "Hadoop_HBase_RegionServer_readRequestCount"
            ((tags.set "tableName" "MyTable").set "tableId" "1234") = true then
          some (metrics ++
              [⟨"Hadoop_HBase_RegionServer_readRequestCount",
                  (tags.set "tableName" "MyTable").set "tableId" "1234",
                  getAttributeValue (beanInfo.attributes
                    "a_b_c_MyTable_region_1234_metric_readRequestCount")⟩],
            (((tags.set "tableName" "MyTable").set "tableId" "1234").delete
              "tableName").delete "tableId",
            keySet.set (toLower lower "Hadoop_HBase_RegionServer_readRequestCount")
              ["Hadoop_HBase_RegionServer_readRequestCount" ++ "_" ++
                (tagString ++ "_tableName" ++ "_tableId")])
        else none) := by
  have general : ∀ (pre : String) (t0 t1 t2 : String) (Ns Is Ts : List String),
      Ns ≠ [] → Is ≠ [] → Ts ≠ [] →
      (∀ t ∈ [t0, t1, t2] ++ Ns ++ Is ++ Ts, '_' ∉ t.data ∧ t ≠ "region" ∧ t ≠ "metric") →
      hasPrefix (join ([t0, t1, t2] ++ Ns ++ "region" :: (Is ++ "metric" :: Ts)) "_") "tag." =
        false →
      regionKeyStep descOk lower beanInfo pre tagString
          (join ([t0, t1, t2] ++ Ns ++ "region" :: (Is ++ "metric" :: Ts)) "_")
          metrics tags keySet =
        if descOk
            (renameMetricName lower keySet (pre ++ "_" ++ join Ts "_")
              (tagString ++ "_tableName" ++ "_tableId")).1
            ((tags.set "tableName" (join Ns "_")).set "tableId" (join Is "_")) = true then
          some (metrics ++
              [⟨(renameMetricName lower keySet (pre ++ "_" ++ join Ts "_")
                    (tagString ++ "_tableName" ++ "_tableId")).1,
                  (tags.set "tableName" (join Ns "_")).set "tableId" (join Is "_"),
                  getAttributeValue (beanInfo.attributes
                    (join ([t0, t1, t2] ++ Ns ++ "region" :: (Is ++ "metric" :: Ts)) "_"))⟩],
            (((tags.set "tableName" (join Ns "_")).set "tableId" (join Is "_")).delete
              "tableName").delete "tableId",
            (renameMetricName lower keySet (pre ++ "_" ++ join Ts "_")
              (tagString ++ "_tableName" ++ "_tableId")).2)
        else none := by
    intro pre t0 t1 t2 Ns Is Ts _ _ hT htok hfilter
    have hA : ∀ t ∈ [t0, t1, t2], '_' ∉ t.data ∧ t ≠ "region" ∧ t ≠ "metric" := fun t ht =>
      htok t (List.mem_append_left _ (List.mem_append_left _ (List.mem_append_left _ ht)))
    have hNs : ∀ t ∈ Ns, '_' ∉ t.data ∧ t ≠ "region" ∧ t ≠ "metric" := fun t ht =>
      htok t (List.mem_append_left _ (List.mem_append_left _ (List.mem_append_right _ ht)))
    have hIs : ∀ t ∈ Is, '_' ∉ t.data ∧ t ≠ "region" ∧ t ≠ "metric" := fun t ht =>
      htok t (List.mem_append_left _ (List.mem_append_right _ ht))
    have hTs : ∀ t ∈ Ts, '_' ∉ t.data ∧ t ≠ "region" ∧ t ≠ "metric" := fun t ht =>
      htok t (List.mem_append_right _ ht)
    have hall : ∀ t ∈ [t0, t1, t2] ++ Ns ++ "region" :: (Is ++ "metric" :: Ts), '_' ∉ t.data := by
      intro t ht
      rcases List.mem_append.1 ht with h | h
      · rcases List.mem_append.1 h with h | h
        · exact (hA t h).1
        · exact (hNs t h).1
      · rcases List.mem_cons.1 h with rfl | h
        · decide
        · rcases List.mem_append.1 h with h | h
          · exact (hIs t h).1
          · rcases List.mem_cons.1 h with rfl | h
            · decide
            · exact (hTs t h).1
    have hkey := isMetricKey_of_tokens _ (by simp) hall hfilter
    have hsplit := split_join _ (by simp) hall
    have hre : [t0, t1, t2] ++ Ns ++ "region" :: (Is ++ "metric" :: Ts) =
        ([t0, t1, t2] ++ Ns ++ "region" :: Is) ++ "metric" :: Ts := by simp
    have hpre : ∀ t ∈ [t0, t1, t2] ++ Ns ++ "region" :: Is, '_' ∉ t.data ∧ t ≠ "metric" := by
      intro t ht
      rcases List.mem_append.1 ht with h | h
      · rcases List.mem_append.1 h with h | h
        · exact ⟨(hA t h).1, (hA t h).2.2⟩
        · exact ⟨(hNs t h).1, (hNs t h).2.2⟩
      · rcases List.mem_cons.1 h with rfl | h
        · exact ⟨by decide, by decide⟩
        · exact ⟨(hIs t h).1, (hIs t h).2.2⟩
    have hidx : index (join ([t0, t1, t2] ++ Ns ++ "region" :: (Is ++ "metric" :: Ts)) "_")
        "_metric_" = some (join ([t0, t1, t2] ++ Ns ++ "region" :: Is) "_").data.length := by
      rw [hre]; exact index_marker _ Ts (by simp) hT hpre
    have hslice : sliceFrom (join ([t0, t1, t2] ++ Ns ++ "region" :: (Is ++ "metric" :: Ts)) "_")
        ((join ([t0, t1, t2] ++ Ns ++ "region" :: Is) "_").data.length + 8) =
          some (join Ts "_") := by
      rw [hre]; exact sliceFrom_marker _ Ts (by simp) hT
    have hdec := decodeRegion_well_formed t0 t1 t2 Ns Is Ts
      (fun t ht => (htok t ht).2) tagString tags
    unfold regionKeyStep
    rw [if_pos hkey, hidx]
    simp only [hsplit, hdec, hslice, mustNewConstMetric]
    by_cases hok : descOk
        (renameMetricName lower keySet (pre ++ "_" ++ join Ts "_")
          (tagString ++ "_tableName" ++ "_tableId")).1
        ((tags.set "tableName" (join Ns "_")).set "tableId" (join Is "_")) = true
    · rw [if_pos hok, if_pos hok]
    · rw [if_neg hok, if_neg hok]
  refine ⟨general metrixPerfix t0 t1 t2 Ns Is Ts hN hI hT htok hfilter, ?_, ?_, ?_⟩
  · rw [tags_get_set_other _ _ _ _ (by decide), tags_get_set_same]
  · rw [tags_get_set_same]
  · intro hunseen
    have h := general "Hadoop_HBase_RegionServer" "a" "b" "c" ["MyTable"] ["1234"]
      ["readRequestCount"] (by simp) (by simp) (by simp) (by decide) (by decide)
    have hj : join (["a", "b", "c"] ++ ["MyTable"] ++ "region" :: (["1234"] ++ "metric" ::
        ["readRequestCount"])) "_" = "a_b_c_MyTable_region_1234_metric_readRequestCount" := by
      decide
    have hT1 : join ["readRequestCount"] "_" = "readRequestCount" := by decide
    have hN1 : join ["MyTable"] "_" = "MyTable" := by decide
    have hI1 : join ["1234"] "_" = "1234" := by decide
    have hcand : "Hadoop_HBase_RegionServer" ++ "_" ++ "readRequestCount" =
        "Hadoop_HBase_RegionServer_readRequestCount" := by decide
    have hsan : sanitize "Hadoop_HBase_RegionServer_readRequestCount" =
        "Hadoop_HBase_RegionServer_readRequestCount" := by decide
    rw [hj, hT1, hN1, hI1, hcand] at h
    have hb : keySet (bucketKey lower "Hadoop_HBase_RegionServer_readRequestCount") = none := by
      unfold bucketKey; rw [hsan]; exact hunseen
    rw [h, rename_unseen lower keySet _ _ hb]
    simp only [bucketKey, signature, hsan]

theorem regionKeyStep_well_formed_witness :
    (regionKeyStep classicDescOk Char.toLower
        (JsonObject.ofList [("a_b_c_MyTable_region_1234_metric_readRequestCount", .int32 5)])
        "Hadoop_HBase_RegionServer" "sub"
        "a_b_c_MyTable_region_1234_metric_readRequestCount" [] [("sub", "Regions")]
        emptyKeySet).map (fun x => (x.1, x.2.1)) =
      some ([⟨"Hadoop_HBase_RegionServer_readRequestCount",
          [("sub", "Regions"), ("tableName", "MyTable"), ("tableId", "1234")], .fromInt 5⟩],
        [("sub", "Regions")]) ∧
    (regionKeyStep classicDescOk Char.toLower
        (JsonObject.ofList [("a_b_c_MyTable_region_1234_metric_readRequestCount", .int32 5)])
        "Hadoop_HBase_RegionServer" "sub"
        "a_b_c_MyTable_region_1234_metric_readRequestCount" [] [("sub", "Regions")]
        emptyKeySet).map (fun x => x.2.2 "hadoop_hbase_regionserver_readrequestcount") =
      some (some ["Hadoop_HBase_RegionServer_readRequestCount_sub_tableName_tableId"]) ∧
    (regionKeyStep classicDescOk Char.toLower
        (JsonObject.ofList [("a_b_c_MyTable_region_1234_metric_readRequestCount", .int32 5)])
        "Hadoop_HBase_RegionServer" "sub"
        "a_b_c_MyTable_region_1234_metric_readRequestCount" [] [("sub", "Regions"), ("", "v")]
        emptyKeySet).map (fun x => x.1) = none := by
  have h := (regionKeyStep_well_formed classicDescOk Char.toLower
    (JsonObject.ofList [("a_b_c_MyTable_region_1234_metric_readRequestCount", .int32 5)])
    "Hadoop_HBase_RegionServer" "sub" [] [("sub", "Regions")] emptyKeySet
    "a" "b" "c" ["MyTable"] ["1234"] ["readRequestCount"]
    (by decide) (by decide) (by decide) (by decide) (by decide)).1
  have h4 := (regionKeyStep_well_formed classicDescOk Char.toLower
    (JsonObject.ofList [("a_b_c_MyTable_region_1234_metric_readRequestCount", .int32 5)])
    "Hadoop_HBase_RegionServer" "sub" [] [("sub", "Regions")] emptyKeySet
    "a" "b" "c" ["MyTable"] ["1234"] ["readRequestCount"]
    (by decide) (by decide) (by decide) (by decide) (by decide)).2.2.2 (by decide)
  have h5 := (regionKeyStep_well_formed classicDescOk Char.toLower
    (JsonObject.ofList [("a_b_c_MyTable_region_1234_metric_readRequestCount", .int32 5)])
    "Hadoop_HBase_RegionServer" "sub" [] [("sub", "Regions"), ("", "v")] emptyKeySet
    "a" "b" "c" ["MyTable"] ["1234"] ["readRequestCount"]
    (by decide) (by decide) (by decide) (by decide) (by decide)).2.2.2 (by decide)
  have hj : join (["a", "b", "c"] ++ ["MyTable"] ++ "region" :: (["1234"] ++ "metric" ::
      ["readRequestCount"])) "_" = "a_b_c_MyTable_region_1234_metric_readRequestCount" := by
    decide
  rw [hj] at h
  refine ⟨?_, ?_, ?_⟩
  · rw [h]; decide
  · rw [h4]; decide
  · rw [h5]; decide

/-- C9. The region decoder can fail: a `region` token among the first three
tokens makes `parts[3:index]` a slice with low bound above high bound, and a
`metric` token at position 0 does the same for `parts[regionIndex+1:index]`;
the translator panics and emits nothing for such a key, whatever the bean, the
labels and the registry, and the whole scrape pass fails with it. -/
theorem handlerRegionServerRegions_panics :
    (∀ (descOk : String → Tags → Bool) (lower : Char → Char) (beanInfo : JsonObject)
        (metrixPerfix tagString : String) (metrics : List Metric) (tags : Tags) (keySet : KeySet),
      regionKeyStep descOk lower beanInfo metrixPerfix tagString "region_metric_x" metrics tags
        keySet = none ∧
      regionKeyStep descOk lower beanInfo metrixPerfix tagString "a_region_b_metric_x" metrics
        tags keySet = none ∧
      regionKeyStep descOk lower beanInfo metrixPerfix tagString "metric_metric_x" metrics tags
        keySet = none) ∧
    (∀ descOk : String → Tags → Bool,
      handlerRegionServerRegions descOk Char.toLower
          (JsonObject.ofList
            [("name", .str "Hadoop:service=HBase,name=RegionServer,sub=Regions"),
              ("region_metric_x", .int32 1)])
          emptyKeySet "" = none ∧
      getJmxInfo descOk Char.toLower
          [JsonObject.ofList
            [("name", .str "Hadoop:service=HBase,name=RegionServer,sub=Regions"),
              ("region_metric_x", .int32 1)]] "" = none) := by
  refine ⟨fun descOk lower beanInfo pre tagString metrics tags keySet => ⟨rfl, rfl, rfl⟩,
    fun descOk => ⟨rfl, ?_⟩⟩
  rw [getJmxInfo_eq]
  have h : scrapeRequests ""
      [JsonObject.ofList
        [("name", .str "Hadoop:service=HBase,name=RegionServer,sub=Regions"),
          ("region_metric_x", .int32 1)]] = none := by decide
  rw [h]
  rfl

/-- C10 fails as stated: for a bean with the label `sub`, the tag string passed
for a decoded key is `sub_tableName_tableId` (it becomes the label part of the
registered signature), while the sorted, joined label names of the emitted
observation are `sub_tableId_tableName`. -/
theorem region_tag_string_not_sorted :
    (handlerRegionServerRegions classicDescOk Char.toLower
        (JsonObject.ofList
          [("name", .str "Hadoop:service=HBase,name=RegionServer,sub=Regions"),
            ("a_b_c_MyTable_region_1234_metric_readRequestCount", .int32 5)])
        emptyKeySet "").map (fun x => (x.1, x.2 "hadoop_hbase_readrequestcount")) =
      some ([⟨"Hadoop_HBase_readRequestCount",
          [("sub", "Regions"), ("tableName", "MyTable"), ("tableId", "1234")], .fromInt 5⟩],
        some ["Hadoop_HBase_readRequestCount_sub_tableName_tableId"]) ∧
    (regionServerRequests
        (JsonObject.ofList
          [("name", .str "Hadoop:service=HBase,name=RegionServer,sub=Regions"),
            ("a_b_c_MyTable_region_1234_metric_readRequestCount", .int32 5)]) "").map
        (fun rs => rs.map (fun r => r.tagString)) = some ["sub_tableName_tableId"] ∧
    getTagNames [("sub", "Regions"), ("tableName", "MyTable"), ("tableId", "1234")] =
      "sub_tableId_tableName" := by
  refine ⟨?_, ?_, ?_⟩ <;> decide

/-- C10, amended. Signature of region-server observations: when the translator
completes on a bean, its observations are, in order, those of the attribute
keys that pass the filter and contain `_metric_`, and the observation at
position `i` is named by `renameMetricName` called with the candidate of the
key at position `i` and with the tag string made of the ascending-sorted,
`_`-joined list of the bean-level label names followed by `_tableName` for each
`region` token and `_tableId` for each `metric` token of that same key, in
token order (appended, not sorted in). -/
theorem handlerRegionServerRegions_tag_string (descOk : String → Tags → Bool)
    (lower : Char → Char) (beanInfo : JsonObject) (keySet : KeySet) (modulePrefix : String)
    (out : List Metric × KeySet)
    (hrun : handlerRegionServerRegions descOk lower beanInfo keySet modulePrefix = some out) :
    ∃ (metrixPerfix : String) (tags : Tags) (reqs : List Request),
      getNameLabelInfo beanInfo [] modulePrefix = some (metrixPerfix, tags) ∧
      out = resolveAll lower keySet reqs ∧
      out.1.length =
        (beanInfo.keys.filter (fun key => decide (key ≠ "name" ∧ key ≠ "modelerType" ∧
            hasPrefix key "tag." = false ∧ index key "_metric_" ≠ none))).length ∧
      ∀ (i : Nat) (m : Metric), out.1[i]? = some m →
        ∃ (key : String) (r : Request),
          (beanInfo.keys.filter (fun key => decide (key ≠ "name" ∧ key ≠ "modelerType" ∧
            hasPrefix key "tag." = false ∧ index key "_metric_" ≠ none)))[i]? = some key ∧
          reqs[i]? = some r ∧
          r.metricName = metrixPerfix ++ "_" ++ afterMarker key ∧
          r.tagString = getTagNames tags ++ markerSuffix (split key '_') ∧
          m = ⟨(renameMetricName lower (resolveAll lower keySet (reqs.take i)).2
              (metrixPerfix ++ "_" ++ afterMarker key)
              (getTagNames tags ++ markerSuffix (split key '_'))).1, r.labels, r.value⟩ := by
  rw [handlerRegionServerRegions_eq] at hrun
  unfold regionServerRequests at hrun
  cases hinfo : getNameLabelInfo beanInfo [] modulePrefix with
  | none => simp [hinfo] at hrun
  | some x =>
    obtain ⟨pre, tags⟩ := x
    simp only [hinfo] at hrun
    cases hrr : regionRequests beanInfo pre (getTagNames tags) beanInfo.keys tags with
    | none => simp [hrr] at hrun
    | some y =>
      simp only [hrr, Option.map_some', Option.some_bind] at hrun
      have hout := (checked_some descOk _ _ hrun).1
      have htri := regionRequests_triples beanInfo pre (getTagNames tags) beanInfo.keys tags y hrr
      rw [isRegionKey_eq]
      have hlen : y.1.length = (beanInfo.keys.filter isRegionKey).length := by
        have := congrArg List.length htri
        simpa using this
      refine ⟨pre, tags, y.1, rfl, hout, ?_, ?_⟩
      · rw [hout, resolveAll_length, hlen]
      · intro i m hm
        rw [hout] at hm
        have hi : i < y.1.length := by
          rw [← resolveAll_length lower y.1 keySet]
          exact (List.getElem?_eq_some.1 hm).1
        have hr : y.1[i]? = some y.1[i] := List.getElem?_eq_getElem hi
        have hk : (beanInfo.keys.filter isRegionKey)[i]? =
            some ((beanInfo.keys.filter isRegionKey)[i]) :=
          List.getElem?_eq_getElem (hlen ▸ hi)
        have hat := congrArg (fun l => l[i]?) htri
        simp only [List.getElem?_map, hr, hk, Option.map_some', Option.some.injEq,
          Prod.mk.injEq] at hat
        have hres := resolveAll_get_at lower y.1 keySet i _ hr
        rw [hm] at hres
        refine ⟨_, _, hk, hr, hat.1, hat.2.1, ?_⟩
        rw [← hat.1, ← hat.2.1]
        exact Option.some.inj hres

theorem handlerRegionServerRegions_tag_string_witness :
    ∃ (key : String) (r : Request),
      key = "a_b_c_MyTable_region_1234_metric_readRequestCount" ∧
      r.tagString = getTagNames [("sub", "Regions")] ++ markerSuffix (split key '_') ∧
      r.tagString = "sub_tableName_tableId" := by
  obtain ⟨pre, tags, reqs, hinfo, _, _, hall⟩ :=
    handlerRegionServerRegions_tag_string classicDescOk Char.toLower
      (JsonObject.ofList
        [("name", .str "Hadoop:service=HBase,name=RegionServer,sub=Regions"),
          ("a_b_c_MyTable_region_1234_metric_readRequestCount", .int32 5)])
      emptyKeySet "" _ rfl
  have hinfo' : getNameLabelInfo
      (JsonObject.ofList
        [("name", .str "Hadoop:service=HBase,name=RegionServer,sub=Regions"),
          ("a_b_c_MyTable_region_1234_metric_readRequestCount", .int32 5)]) [] "" =
      some ("Hadoop_HBase", [("sub", "Regions")]) := by decide
  rw [hinfo'] at hinfo
  have hpt := Prod.mk.inj (Option.some.inj hinfo)
  obtain ⟨key, r, hkey, _, _, htag, _⟩ := hall 0 _ rfl
  have hfilt : (List.filter (fun key => decide (key ≠ "name" ∧ key ≠ "modelerType" ∧
        hasPrefix key "tag." = false ∧ index key "_metric_" ≠ none))
      (JsonObject.ofList
        [("name", .str "Hadoop:service=HBase,name=RegionServer,sub=Regions"),
          ("a_b_c_MyTable_region_1234_metric_readRequestCount", .int32 5)]).keys)[0]? =
      some "a_b_c_MyTable_region_1234_metric_readRequestCount" := by decide
  rw [hfilt] at hkey
  have hkey' := Option.some.inj hkey
  rw [← hpt.2] at htag
  refine ⟨key, r, hkey'.symm, htag, ?_⟩
  rw [htag, ← hkey']
  decide

/-- C11. Scoping of decoded labels in the region-server translator.  One
attribute either leaves the observations and the working label set as they
were, or emits one observation and leaves a working label set without
`tableName` and without `tableId`; an observation whose key has no `region`
token carries exactly the `tableName` entry its attribute started with.  After
any prefix of the bean's keys the working label set, with which the next
attribute starts, is either still the one the loop started with (nothing
emitted yet) or has neither label; hence an observation emitted after an
earlier one for a key without `region` token carries no `tableName`. -/
theorem regionLoop_scoped_labels (descOk : String → Tags → Bool) (lower : Char → Char)
    (beanInfo : JsonObject) (metrixPerfix tagString : String) :
    (∀ (key : String) (metrics : List Metric) (tags : Tags) (keySet : KeySet)
        (out : List Metric × Tags × KeySet),
      regionKeyStep descOk lower beanInfo metrixPerfix tagString key metrics tags keySet = some out →
      (out.1 = metrics ∧ out.2.1 = tags) ∨
        ∃ m : Metric, out.1 = metrics ++ [m] ∧
          out.2.1.get "tableName" = none ∧ out.2.1.get "tableId" = none ∧
          ((∀ part ∈ split key '_', part ≠ "region") →
            m.labels.get "tableName" = tags.get "tableName")) ∧
    (∀ (keys : List String) (metrics : List Metric) (tags : Tags) (keySet : KeySet)
        (out : List Metric × Tags × KeySet),
      regionLoop descOk lower beanInfo metrixPerfix tagString keys metrics tags keySet = some out →
      (out.1 = metrics ∧ out.2.1 = tags) ∨
        ((∃ ms : List Metric, ms ≠ [] ∧ out.1 = metrics ++ ms) ∧
          out.2.1.get "tableName" = none ∧ out.2.1.get "tableId" = none)) ∧
    (∀ (keys1 keys2 : List String) (metrics : List Metric) (tags : Tags) (keySet : KeySet),
      regionLoop descOk lower beanInfo metrixPerfix tagString (keys1 ++ keys2) metrics tags keySet =
        (regionLoop descOk lower beanInfo metrixPerfix tagString keys1 metrics tags keySet).bind
          (fun s => regionLoop descOk lower beanInfo metrixPerfix tagString keys2 s.1 s.2.1 s.2.2)) ∧
    (∀ (keys : List String) (key : String) (metrics : List Metric) (tags : Tags)
        (keySet : KeySet) (mid out : List Metric × Tags × KeySet) (m : Metric),
      regionLoop descOk lower beanInfo metrixPerfix tagString keys metrics tags keySet = some mid →
      mid.1 ≠ metrics →
      regionKeyStep descOk lower beanInfo metrixPerfix tagString key mid.1 mid.2.1 mid.2.2 = some out →
      out.1 = mid.1 ++ [m] →
      (∀ part ∈ split key '_', part ≠ "region") →
      m.labels.get "tableName" = none) := by
  refine ⟨fun key metrics tags keySet out h =>
      regionKeyStep_cases descOk lower beanInfo metrixPerfix tagString key metrics tags keySet out h,
    fun keys metrics tags keySet out h =>
      regionLoop_cases descOk lower beanInfo metrixPerfix tagString keys metrics tags keySet out h,
    regionLoop_append descOk lower beanInfo metrixPerfix tagString, ?_⟩
  intro keys key metrics tags keySet mid out m hloop hemit hstep hout hno
  have hmid : mid.2.1.get "tableName" = none := by
    rcases regionLoop_cases descOk lower beanInfo metrixPerfix tagString keys metrics tags keySet mid
      hloop with ⟨h1, _⟩ | ⟨_, h2, _⟩
    · exact absurd h1 hemit
    · exact h2
  rcases regionKeyStep_cases descOk lower beanInfo metrixPerfix tagString key _ _ _ out hstep with
    ⟨h1, _⟩ | ⟨m', hm', _, _, hlab⟩
  · rw [h1] at hout
    have := congrArg List.length hout
    simp at this
  · rw [hm'] at hout
    have hmm : m' = m := by simpa using hout
    rw [← hmm, hlab hno, hmid]

theorem regionLoop_scoped_labels_witness :
    (handlerRegionServerRegions classicDescOk Char.toLower
        (JsonObject.ofList
          [("name", .str "Hadoop:service=HBase,name=RegionServer,sub=Regions"),
            ("a_b_c_MyTable_region_1234_metric_readRequestCount", .int32 5),
            ("x_metric_y", .int32 7)])
        emptyKeySet "").map Prod.fst =
      some [⟨"Hadoop_HBase_readRequestCount",
          [("sub", "Regions"), ("tableName", "MyTable"), ("tableId", "1234")], .fromInt 5⟩,
        ⟨"Hadoop_HBase_y", [("sub", "Regions"), ("tableId", "")], .fromInt 7⟩] ∧
    (⟨"Hadoop_HBase_y", [("sub", "Regions"), ("tableId", "")], .fromInt 7⟩ : Metric).labels.get
      "tableName" = none := by
  refine ⟨by decide, ?_⟩
  have h := (regionLoop_scoped_labels classicDescOk Char.toLower
    (JsonObject.ofList
      [("name", .str "Hadoop:service=HBase,name=RegionServer,sub=Regions"),
        ("a_b_c_MyTable_region_1234_metric_readRequestCount", .int32 5),
        ("x_metric_y", .int32 7)])
    "Hadoop_HBase" "sub").2.2.2
    ["name", "a_b_c_MyTable_region_1234_metric_readRequestCount"] "x_metric_y" []
    [("sub", "Regions")] emptyKeySet
    ([⟨"Hadoop_HBase_readRequestCount",
        [("sub", "Regions"), ("tableName", "MyTable"), ("tableId", "1234")], .fromInt 5⟩],
      [("sub", "Regions")],
      (renameMetricName Char.toLower emptyKeySet "Hadoop_HBase_readRequestCount"
        "sub_tableName_tableId").2)
    ([⟨"Hadoop_HBase_readRequestCount",
        [("sub", "Regions"), ("tableName", "MyTable"), ("tableId", "1234")], .fromInt 5⟩,
      ⟨"Hadoop_HBase_y", [("sub", "Regions"), ("tableId", "")], .fromInt 7⟩],
      [("sub", "Regions")],
      (renameMetricName Char.toLower
        (renameMetricName Char.toLower emptyKeySet "Hadoop_HBase_readRequestCount"
          "sub_tableName_tableId").2 "Hadoop_HBase_y" "sub_tableId").2)
    ⟨"Hadoop_HBase_y", [("sub", "Regions"), ("tableId", "")], .fromInt 7⟩
    rfl (by decide) rfl rfl (by decide)
  exact h

/-- C12. Region-server translator filter and name tail: when the translator
completes on a bean, it emits one observation per request, in order, and its
requests are, in key order, exactly one for each attribute key that is not
`name`, not `modelerType`, does not start with `tag.` and contains `_metric_`;
the candidate name of the request for a key is the prefix, `_`, and the text
of the key after the first occurrence of `_metric_`, and its value is that of
the key's attribute. -/
theorem handlerRegionServerRegions_observations (descOk : String → Tags → Bool)
    (lower : Char → Char) (beanInfo : JsonObject)
    (keySet : KeySet) (modulePrefix : String) (out : List Metric × KeySet)
    (hrun : handlerRegionServerRegions descOk lower beanInfo keySet modulePrefix = some out) :
    (∃ (metrixPerfix : String) (tags : Tags) (reqs : List Request),
      getNameLabelInfo beanInfo [] modulePrefix = some (metrixPerfix, tags) ∧
      out = resolveAll lower keySet reqs ∧
      reqs.map (fun r => (r.metricName, r.value)) =
        (beanInfo.keys.filter (fun key => decide (key ≠ "name" ∧ key ≠ "modelerType" ∧
            hasPrefix key "tag." = false ∧ index key "_metric_" ≠ none))).map
          (fun key => (metrixPerfix ++ "_" ++ afterMarker key,
            getAttributeValue (beanInfo.attributes key))) ∧
      out.1.length =
        (beanInfo.keys.filter (fun key => decide (key ≠ "name" ∧ key ≠ "modelerType" ∧
            hasPrefix key "tag." = false ∧ index key "_metric_" ≠ none))).length ∧
      ∀ (i : Nat) (r : Request), reqs[i]? = some r →
        out.1[i]? =
          some ⟨(renameMetricName lower (resolveAll lower keySet (reqs.take i)).2
              r.metricName r.tagString).1, r.labels, r.value⟩) ∧
    (∀ key : String, index key "_metric_" ≠ none ↔
      ∃ a t : List Char, key.data = a ++ "_metric_".data ++ t) ∧
    (∀ (key : String) (a t : List Char), key.data = a ++ "_metric_".data ++ t →
      (∀ a' t' : List Char, key.data = a' ++ "_metric_".data ++ t' → a.length ≤ a'.length) →
      afterMarker key = ⟨t⟩) := by
  refine ⟨?_, index_ne_none_iff, afterMarker_first⟩
  rw [handlerRegionServerRegions_eq] at hrun
  unfold regionServerRequests at hrun
  cases hinfo : getNameLabelInfo beanInfo [] modulePrefix with
  | none => simp [hinfo] at hrun
  | some x =>
    obtain ⟨pre, tags⟩ := x
    simp only [hinfo] at hrun
    cases hrr : regionRequests beanInfo pre (getTagNames tags) beanInfo.keys tags with
    | none => simp [hrr] at hrun
    | some y =>
      simp only [hrr, Option.map_some', Option.some_bind] at hrun
      replace hrun := (checked_some descOk _ _ hrun).1.symm
      have hnames := regionRequests_names beanInfo pre (getTagNames tags) beanInfo.keys tags y hrr
      refine ⟨pre, tags, y.1, rfl, hrun.symm, ?_, ?_, ?_⟩
      · rw [isRegionKey_eq]; exact hnames
      · rw [← hrun, resolveAll_length, isRegionKey_eq]
        have := congrArg List.length hnames
        simpa using this
      · intro i r hr
        rw [← hrun, resolveAll_get_at lower y.1 keySet i r hr]
        rfl

theorem handlerRegionServerRegions_observations_witness :
    (handlerRegionServerRegions classicDescOk Char.toLower
        (JsonObject.ofList
          [("name", .str "Hadoop:service=HBase,name=RegionServer,sub=Regions"),
            ("tag.Context", .str "regionserver"), ("plain", .int32 1),
            ("a_b_c_T_region_1_metric_x_metric_y", .int32 5)])
        emptyKeySet "").map Prod.fst =
      some [⟨"Hadoop_HBase_x_metric_y",
        [("sub", "Regions"), ("Context", "regionserver"), ("tableName", "T"),
          ("tableId", "1_metric_x")],
        .fromInt 5⟩] ∧
    afterMarker "a_b_c_T_region_1_metric_x_metric_y" = "x_metric_y" ∧
    ∃ a t : List Char, "a_b_c_T_region_1_metric_x_metric_y".data = a ++ "_metric_".data ++ t :=
  ⟨by decide, by decide,
    ((handlerRegionServerRegions_observations classicDescOk Char.toLower
        (JsonObject.ofList
          [("name", .str "Hadoop:service=HBase,name=RegionServer,sub=Regions"),
            ("tag.Context", .str "regionserver"), ("plain", .int32 1),
            ("a_b_c_T_region_1_metric_x_metric_y", .int32 5)])
        emptyKeySet "" _ rfl).2.1 "a_b_c_T_region_1_metric_x_metric_y").1 (by decide)⟩

/-- C13 fails as stated: on a bean whose identity has the segment `=v` the name
deriver returns the prefix and a bean-level label set with the empty label
name, the descriptor of the first attribute is refused, and `getBeanMetrics`
panics instead of emitting an observation; the same happens through the scrape
pass. On a bean whose identity has a segment without `=` the name deriver
itself panics, and `getBeanMetrics` with it. -/
theorem getBeanMetrics_panics :
    getNameLabelInfo
        (JsonObject.ofList [("name", .str "Hadoop:service=S,name=N,=v"), ("Capacity", .int32 5)])
        [] "" = some ("Hadoop_S", [("", "v")]) ∧
    (genericRequests
        (JsonObject.ofList [("name", .str "Hadoop:service=S,name=N,=v"), ("Capacity", .int32 5)])
        "").map (fun rs => rs.map (fun r => (r.metricName, r.labels))) =
      some [("Hadoop_S_Capacity", [("", "v")])] ∧
    classicDescOk "Hadoop_S_Capacity" [("", "v")] = false ∧
    (getBeanMetrics classicDescOk Char.toLower
        (JsonObject.ofList [("name", .str "Hadoop:service=S,name=N,=v"), ("Capacity", .int32 5)])
        emptyKeySet "").map Prod.fst = none ∧
    getJmxInfo classicDescOk Char.toLower
        [JsonObject.ofList [("name", .str "Hadoop:service=S,name=N,=v"), ("Capacity", .int32 5)]]
        "" = none ∧
    getNameLabelInfo
        (JsonObject.ofList [("name", .str "Hadoop:service"), ("Capacity", .int32 5)])
        [] "" = none ∧
    (getBeanMetrics classicDescOk Char.toLower
        (JsonObject.ofList [("name", .str "Hadoop:service"), ("Capacity", .int32 5)])
        emptyKeySet "").map Prod.fst = none := by
  refine ⟨?_, ?_, ?_, ?_, ?_, ?_, ?_⟩ <;> decide

/-- C13, amended. Generic translator: on a bean for which the name deriver
returns the prefix and the bean-level label set, `getBeanMetrics` builds
exactly one observation, in key order, for each attribute key that is not
`name`, not `modelerType` and does not start with `tag.`, and none for other
keys; the name of the observation for a key is `renameMetricName` applied, on
the registry left by the earlier keys, to the candidate prefix, `_`, key with
the tag string of the bean-level label set; its labels are the bean-level
label set and its value that of the key's attribute. The translator returns
these observations when the client library accepts the descriptor of every one
of them, and panics when it refuses one. -/
theorem getBeanMetrics_observations (descOk : String → Tags → Bool) (lower : Char → Char)
    (beanInfo : JsonObject)
    (keySet : KeySet) (modulePrefix metrixPerfix : String) (tags : Tags)
    (hinfo : getNameLabelInfo beanInfo [] modulePrefix = some (metrixPerfix, tags)) :
    ∃ out : List Metric × KeySet,
      out = resolveAll lower keySet
        ((beanInfo.keys.filter (fun key => decide (key ≠ "name" ∧ key ≠ "modelerType" ∧
            hasPrefix key "tag." = false))).map
          (fun k => ⟨metrixPerfix ++ "_" ++ k, getTagNames tags, tags,
            getAttributeValue (beanInfo.attributes k)⟩)) ∧
      getBeanMetrics descOk lower beanInfo keySet modulePrefix =
        (if out.1.all (fun m => descOk m.name m.labels) = true then some out else none) ∧
      out.1.length =
        (beanInfo.keys.filter (fun key => decide (key ≠ "name" ∧ key ≠ "modelerType" ∧
            hasPrefix key "tag." = false))).length ∧
      (∀ (i : Nat) (key : String),
        (beanInfo.keys.filter (fun key => decide (key ≠ "name" ∧ key ≠ "modelerType" ∧
            hasPrefix key "tag." = false)))[i]? = some key →
        out.1[i]? =
          some ⟨(renameMetricName lower
              (resolveAll lower keySet
                (((beanInfo.keys.filter (fun key => decide (key ≠ "name" ∧
                    key ≠ "modelerType" ∧ hasPrefix key "tag." = false))).take i).map
                  (fun k => ⟨metrixPerfix ++ "_" ++ k, getTagNames tags, tags,
                    getAttributeValue (beanInfo.attributes k)⟩))).2
              (metrixPerfix ++ "_" ++ key) (getTagNames tags)).1,
            tags, getAttributeValue (beanInfo.attributes key)⟩) ∧
      ∀ m ∈ out.1, m.labels = tags := by
  refine ⟨_, rfl, ?_, ?_⟩
  · rw [getBeanMetrics_eq]
    unfold genericRequests
    rw [hinfo]
    unfold beanRequests
    rw [isMetricKey_eq]
    rfl
  rw [isMetricKey_eq]
  refine ⟨by rw [resolveAll_length, List.length_map], ?_, ?_⟩
  · intro i key hkey
    rw [resolveAll_get_at lower _ keySet i
      ⟨metrixPerfix ++ "_" ++ key, getTagNames tags, tags,
        getAttributeValue (beanInfo.attributes key)⟩ (by rw [List.getElem?_map, hkey]; rfl),
      List.map_take]
    rfl
  · intro m hm
    obtain ⟨i, hi⟩ := List.getElem?_of_mem hm
    have hlt : i < ((beanInfo.keys.filter isMetricKey).map (fun key =>
        (⟨metrixPerfix ++ "_" ++ key, getTagNames tags, tags,
          getAttributeValue (beanInfo.attributes key)⟩ : Request))).length := by
      rw [← resolveAll_length lower _ keySet]
      exact (List.getElem?_eq_some.1 hi).1
    obtain ⟨r, hr⟩ : ∃ r, ((beanInfo.keys.filter isMetricKey).map (fun key =>
        (⟨metrixPerfix ++ "_" ++ key, getTagNames tags, tags,
          getAttributeValue (beanInfo.attributes key)⟩ : Request)))[i]? = some r :=
      ⟨_, List.getElem?_eq_getElem hlt⟩
    have hlab := (resolveAll_get lower _ keySet i r m hr hi).1
    rw [hlab]
    rw [List.getElem?_map] at hr
    cases hk : (beanInfo.keys.filter isMetricKey)[i]? with
    | none => simp [hk] at hr
    | some k =>
      simp only [hk, Option.map_some', Option.some.injEq] at hr
      rw [← hr]

theorem getBeanMetrics_observations_witness :
    (getBeanMetrics classicDescOk Char.toLower
        (JsonObject.ofList
          [("name", .str "Hadoop:service=NameNode,name=FSNamesystem"),
            ("modelerType", .str "FSNamesystem"), ("tag.Context", .str "dfs"),
            ("Capacity.Total", .int32 5), ("capacity_total", .int32 7)])
        emptyKeySet "").map Prod.fst =
      some [⟨"Hadoop_NameNode_Capacity_Total", [("Context", "dfs")], .fromInt 5⟩,
        ⟨"Hadoop_NameNode_capacity_total0", [("Context", "dfs")], .fromInt 7⟩] ∧
    ∃ out : List Metric × KeySet,
      getBeanMetrics classicDescOk Char.toLower
        (JsonObject.ofList
          [("name", .str "Hadoop:service=NameNode,name=FSNamesystem"),
            ("modelerType", .str "FSNamesystem"), ("tag.Context", .str "dfs"),
            ("Capacity.Total", .int32 5), ("capacity_total", .int32 7)])
        emptyKeySet "" =
        (if out.1.all (fun m => classicDescOk m.name m.labels) = true then some out else none) ∧
      out.1.length = 2 ∧ ∀ m ∈ out.1, m.labels = [("Context", "dfs")] := by
  refine ⟨by decide, ?_⟩
  obtain ⟨out, _, h1, h2, _, h4⟩ := getBeanMetrics_observations classicDescOk Char.toLower
    (JsonObject.ofList
      [("name", .str "Hadoop:service=NameNode,name=FSNamesystem"),
        ("modelerType", .str "FSNamesystem"), ("tag.Context", .str "dfs"),
        ("Capacity.Total", .int32 5), ("capacity_total", .int32 7)])
    emptyKeySet "" "Hadoop_NameNode" [("Context", "dfs")] (by decide)
  exact ⟨out, h1, h2.trans (by decide), h4⟩

/-- C14. NameDeriver on well-formed identities: for a bean whose attribute keys
include `name` and whose identity is `Hadoop:` followed by one or more
comma-separated segments `key=value` (keys and values free of `,` and `=`),
`getNameLabelInfo` returns the prefix made of `Hadoop` and the values of the
`service` segments in their order of appearance joined by `_`, followed by `_`
and the module override exactly when the override is not empty.  Every segment
whose key is neither `service` nor `name` puts its label into the label set,
the last segment with a key deciding its value (unless the bean also has the
attribute `tag.` followed by that key); `service` and `name` segments add no
label: every label of the result comes from such a segment or from a `tag.`
attribute. -/
theorem getNameLabelInfo_well_formed (beanInfo : JsonObject) (modulePrefix : String)
    (segs : List (String × String)) (hsegs : segs ≠ [])
    (hchars : ∀ p ∈ segs,
      ',' ∉ p.1.data ∧ '=' ∉ p.1.data ∧ ',' ∉ p.2.data ∧ '=' ∉ p.2.data)
    (hname : beanInfo.getString "name" = identityOf segs)
    (hkey : "name" ∈ beanInfo.keys) :
    ∃ tags : Tags,
      getNameLabelInfo beanInfo [] modulePrefix =
        some (join ("Hadoop" :: (segs.filter (fun p => p.1 = "service")).map Prod.snd) "_" ++
            (if modulePrefix = "" then "" else "_" ++ modulePrefix), tags) ∧
      (∀ (k v : String) (before after : List (String × String)),
        segs.filter (fun p => p.1 ≠ "service" ∧ p.1 ≠ "name") = before ++ (k, v) :: after →
        (∀ p ∈ after, p.1 ≠ k) → "tag." ++ k ∉ beanInfo.keys → tags.get k = some v) ∧
      (∀ k : String, tags.get k ≠ none →
        (∃ v, (k, v) ∈ segs ∧ k ≠ "service" ∧ k ≠ "name") ∨ "tag." ++ k ∈ beanInfo.keys) := by
  have hloop := nameLabelLoop_well_formed beanInfo modulePrefix segs hsegs hchars hname
    beanInfo.keys "" []
  rw [if_pos hkey] at hloop
  refine ⟨beanInfo.keys.foldl (labelStep beanInfo segs) [], hloop, ?_, ?_⟩
  · intro k v before after hlab hlast hnotag
    exact fold_labelStep_identity beanInfo segs k v before after hlab hlast beanInfo.keys []
      hnotag (Or.inr hkey)
  · intro k hk
    rcases fold_labelStep_source beanInfo segs beanInfo.keys beanInfo.keys []
        (fun _ h => h) (fun k h => absurd rfl h) k hk with ⟨v, hv⟩ | h
    · left
      unfold identityLabels at hv
      rw [List.mem_filter] at hv
      exact ⟨v, hv.1, by simpa using hv.2⟩
    · exact Or.inr h

theorem getNameLabelInfo_well_formed_witness :
    getNameLabelInfo
        (JsonObject.ofList
          [("name", .str "Hadoop:service=HBase,name=RegionServer,sub=Regions,service=x,sub=Tables"),
            ("modelerType", .str "m"), ("tag.Context", .str "regionserver")])
        [] "prod" =
      some ("Hadoop_HBase_x_prod", [("sub", "Tables"), ("Context", "regionserver")]) ∧
    ∃ tags : Tags,
      getNameLabelInfo
        (JsonObject.ofList
          [("name", .str "Hadoop:service=HBase,name=RegionServer,sub=Regions,service=x,sub=Tables"),
            ("modelerType", .str "m"), ("tag.Context", .str "regionserver")])
        [] "prod" =
        some (join ("Hadoop" ::
            ([("service", "HBase"), ("name", "RegionServer"), ("sub", "Regions"),
              ("service", "x"), ("sub", "Tables")].filter
                (fun p => p.1 = "service")).map Prod.snd) "_" ++
            (if "prod" = "" then "" else "_" ++ "prod"), tags) ∧
      tags.get "sub" = some "Tables" := by
  refine ⟨by decide, ?_⟩
  obtain ⟨tags, h1, h2, _⟩ := getNameLabelInfo_well_formed
    (JsonObject.ofList
      [("name", .str "Hadoop:service=HBase,name=RegionServer,sub=Regions,service=x,sub=Tables"),
        ("modelerType", .str "m"), ("tag.Context", .str "regionserver")])
    "prod"
    [("service", "HBase"), ("name", "RegionServer"), ("sub", "Regions"), ("service", "x"),
      ("sub", "Tables")]
    (by decide) (by decide) (by decide) (by decide)
  exact ⟨tags, h1, h2 "sub" "Tables" [("sub", "Regions")] [] (by decide) (by decide) (by decide)⟩

/-- C15 fails as stated: the segment `k=a=b` is cut at every `=`, and the
value taken is the second piece `a`, not `a=b`; likewise `service=a=b` gives
the prefix part `a`. -/
theorem nameSegments_value_cut_at_second_equals :
    split "k=a=b" '=' = ["k", "a", "b"] ∧
    getNameLabelInfo
        (JsonObject.ofList [("name", .str "Hadoop:service=HBase,name=RS,k=a=b")]) [] "" =
      some ("Hadoop_HBase", [("k", "a")]) ∧
    getNameLabelInfo
        (JsonObject.ofList [("name", .str "Hadoop:service=a=b,name=RS")]) [] "" =
      some ("Hadoop_a", []) := by
  refine ⟨?_, ?_, ?_⟩ <;> decide

/-- C15, amended. Identity segments are cut at every `=` and the first two
pieces are used: for a segment that contains at least one `=`, the key is the
text before the first `=` and the value is the text between the first `=` and
the second `=` (all of the text after the first `=` when there is no second
one); whatever follows a second `=` is ignored.  The value becomes the service
prefix part when the key is `service`, is dropped when the key is `name`, and
becomes the label value otherwise. -/
theorem nameSegments_first_two_fields (k v rest : String) (more pre : List String)
    (tags : Tags) (hk : '=' ∉ k.data) (hv : '=' ∉ v.data)
    (hrest : rest = "" ∨ hasPrefix rest "=" = true) :
    (split (k ++ "=" ++ v ++ rest) '=').head? = some k ∧
    (split (k ++ "=" ++ v ++ rest) '=')[1]? = some v ∧
    nameSegments ((k ++ "=" ++ v ++ rest) :: more) pre tags =
      if k = "service" then nameSegments more (pre ++ [v]) tags
      else if k ≠ "name" then nameSegments more pre (tags.set k v)
      else nameSegments more pre tags := by
  have hd : (k ++ "=" ++ v ++ rest).data = k.data ++ '=' :: (v.data ++ rest.data) := by
    simp only [String.data_append, List.append_assoc]
    rfl
  have hr : rest.data = [] ∨ ∃ r, rest.data = '=' :: r := by
    rcases hrest with h | h
    · left; rw [h]
    · right
      unfold hasPrefix at h
      rw [List.isPrefixOf_iff_prefix] at h
      obtain ⟨t, ht⟩ := h
      exact ⟨t, ht.symm⟩
  obtain ⟨xs, hxs⟩ : ∃ xs, splitChars '=' (v.data ++ rest.data) = v.data :: xs := by
    have := splitChars_head '=' v.data rest.data hv hr
    cases hsp : splitChars '=' (v.data ++ rest.data) with
    | nil => rw [hsp] at this; cases this
    | cons y ys =>
      rw [hsp] at this
      simp only [List.head?_cons, Option.some.injEq] at this
      exact ⟨ys, by rw [this]⟩
  have hsplit : split (k ++ "=" ++ v ++ rest) '=' = k :: v :: xs.map String.mk := by
    unfold split
    rw [hd, splitChars_append_sep '=' _ _ hk, hxs]
    rfl
  have h1 : (k :: v :: xs.map String.mk)[1]? = some v := by simp
  refine ⟨by rw [hsplit]; rfl, by rw [hsplit]; exact h1, ?_⟩
  rw [nameSegments]
  simp only [hsplit, List.head?_cons, Option.some.injEq]
  by_cases hs : k = "service"
  · rw [if_pos hs, if_pos hs, h1]
  · rw [if_neg hs, if_neg hs]
    by_cases hn : k = "name"
    · rw [if_neg (by simpa using hn), if_neg (by simpa using hn)]
    · rw [if_pos (by simpa using hn), if_pos hn, h1]

theorem nameSegments_first_two_fields_witness :
    (split ("k" ++ "=" ++ "a" ++ "=b") '=').head? = some "k" ∧
    (split ("k" ++ "=" ++ "a" ++ "=b") '=')[1]? = some "a" ∧
    nameSegments (("k" ++ "=" ++ "a" ++ "=b") :: []) ["Hadoop"] [] =
      if "k" = "service" then nameSegments [] (["Hadoop"] ++ ["a"]) []
      else if "k" ≠ "name" then nameSegments [] ["Hadoop"] (Tags.set [] "k" "a")
      else nameSegments [] ["Hadoop"] [] :=
  nameSegments_first_two_fields "k" "a" "=b" [] ["Hadoop"] [] (by decide) (by decide)
    (Or.inr (by decide))

/-- C16 fails as stated: when the attribute `tag.region` is enumerated before
`name`, the identity segment `region=east` is written last and the label set
maps `region` to `east`, not to the tag's value `west`. -/
theorem getNameLabelInfo_identity_after_tag :
    getNameLabelInfo
        (JsonObject.ofList
          [("tag.region", .str "west"),
            ("name", .str "Hadoop:service=HBase,name=RS,region=east")]) [] "" =
      some ("Hadoop_HBase", [("region", "east")]) := by
  decide

/-- C16, amended. Tag override by enumeration order: for a bean with a
well-formed identity, the later-enumerated of the keys `name` and `tag.k`
decides the label `k`.  When no `name` key is enumerated after `tag.k`, the
label set maps `k` to the string value of the attribute `tag.k` (the tag wins
over the identity-string label); when `name` is enumerated and no `tag.k` key
follows it, the label set maps `k` to the value of the last identity segment
with key `k`. -/
theorem getNameLabelInfo_tag_override (beanInfo : JsonObject) (modulePrefix : String)
    (segs : List (String × String)) (k : String) (hsegs : segs ≠ [])
    (hchars : ∀ p ∈ segs,
      ',' ∉ p.1.data ∧ '=' ∉ p.1.data ∧ ',' ∉ p.2.data ∧ '=' ∉ p.2.data)
    (hname : beanInfo.getString "name" = identityOf segs) :
    (∀ earlier later : List String,
      beanInfo.keys = earlier ++ ("tag." ++ k) :: later → "name" ∉ later →
      ∃ (metrixPerfix : String) (tags : Tags),
        getNameLabelInfo beanInfo [] modulePrefix = some (metrixPerfix, tags) ∧
        tags.get k = some (beanInfo.getString ("tag." ++ k))) ∧
    (∀ (earlier later : List String) (v : String) (before after : List (String × String)),
      beanInfo.keys = earlier ++ "name" :: later → "tag." ++ k ∉ later →
      segs.filter (fun p => p.1 ≠ "service" ∧ p.1 ≠ "name") = before ++ (k, v) :: after →
      (∀ p ∈ after, p.1 ≠ k) →
      ∃ (metrixPerfix : String) (tags : Tags),
        getNameLabelInfo beanInfo [] modulePrefix = some (metrixPerfix, tags) ∧
        tags.get k = some v) := by
  have hloop := nameLabelLoop_well_formed beanInfo modulePrefix segs hsegs hchars hname
    beanInfo.keys "" []
  constructor
  · intro earlier later hkeys hno
    refine ⟨_, _, hloop, ?_⟩
    rw [hkeys, List.foldl_append, List.foldl_cons]
    apply fold_labelStep_tag beanInfo segs k later _ hno
    rw [labelStep_tag_key, tags_get_set_same]
  · intro earlier later v before after hkeys hno hlab hlast
    refine ⟨_, _, hloop, ?_⟩
    rw [hkeys, List.foldl_append, List.foldl_cons]
    apply fold_labelStep_identity beanInfo segs k v before after hlab hlast later _ hno
    left
    have hl : identityLabels segs = before ++ (k, v) :: after := hlab
    unfold labelStep
    rw [if_pos rfl, hl]
    exact setAll_get_last after before _ k v hlast

theorem getNameLabelInfo_tag_override_witness :
    getNameLabelInfo
        (JsonObject.ofList
          [("name", .str "Hadoop:service=HBase,name=RS,region=east"),
            ("tag.region", .str "west")]) [] "" =
      some ("Hadoop_HBase", [("region", "west")]) ∧
    ∃ (metrixPerfix : String) (tags : Tags),
      getNameLabelInfo
        (JsonObject.ofList
          [("name", .str "Hadoop:service=HBase,name=RS,region=east"),
            ("tag.region", .str "west")]) [] "" = some (metrixPerfix, tags) ∧
      tags.get "region" = some "west" := by
  refine ⟨by decide, ?_⟩
  exact (getNameLabelInfo_tag_override
    (JsonObject.ofList
      [("name", .str "Hadoop:service=HBase,name=RS,region=east"), ("tag.region", .str "west")])
    "" [("service", "HBase"), ("name", "RS"), ("region", "east")] "region"
    (by decide) (by decide) (by decide)).1 ["name"] [] (by decide) (by decide)

/-- C17. Label-name signature is canonical: `getTagNames` returns the label
names (never the values) in ascending order joined by `_`, each name as often
as it is a key of the label map, hence exactly once and in strictly ascending
order for a map with unique keys; the result is the same for any two label
maps with the same names, whatever the order of the entries and whatever the
values. -/
theorem getTagNames_canonical (tags : Tags) :
    (∃ names : List String, getTagNames tags = join names "_" ∧
      names.Sorted strLe ∧ names.Perm (tags.map Prod.fst) ∧
      ((tags.map Prod.fst).Nodup →
        names.Nodup ∧ names.Sorted (fun a b => a.data < b.data))) ∧
    (∀ tags' : Tags, (tags'.map Prod.fst).Perm (tags.map Prod.fst) →
      getTagNames tags' = getTagNames tags) ∧
    (∀ tags' : Tags, (tags.map Prod.fst).Nodup → (tags'.map Prod.fst).Nodup →
      (∀ k : String, k ∈ tags'.map Prod.fst ↔ k ∈ tags.map Prod.fst) →
      getTagNames tags' = getTagNames tags) := by
  haveI : IsTotal String strLe := ⟨fun a b => le_total a.data b.data⟩
  haveI : IsTrans String strLe := ⟨fun a b c hab hbc => le_trans (α := List Char) hab hbc⟩
  haveI : IsAntisymm String strLe :=
    ⟨fun a b hab hba => String.ext (le_antisymm (α := List Char) hab hba)⟩
  have hperm : ∀ t t' : Tags, (t'.map Prod.fst).Perm (t.map Prod.fst) →
      getTagNames t' = getTagNames t := by
    intro t t' h
    unfold getTagNames
    congr 1
    exact List.eq_of_perm_of_sorted
      (((List.perm_insertionSort strLe _).trans h).trans (List.perm_insertionSort strLe _).symm)
      (List.sorted_insertionSort strLe _) (List.sorted_insertionSort strLe _)
  refine ⟨⟨List.insertionSort strLe (tags.map Prod.fst), rfl,
    List.sorted_insertionSort strLe _, List.perm_insertionSort strLe _, ?_⟩, hperm tags, ?_⟩
  · intro hnd
    have hnd' : (List.insertionSort strLe (tags.map Prod.fst)).Nodup :=
      (List.perm_insertionSort strLe _).nodup_iff.2 hnd
    refine ⟨hnd', ?_⟩
    have hs : (List.insertionSort strLe (tags.map Prod.fst)).Pairwise strLe :=
      List.sorted_insertionSort strLe _
    exact (hs.and hnd').imp (fun {a b} h =>
      lt_of_le_of_ne (α := List Char) h.1 (fun e => h.2 (String.ext e)))
  · intro tags' h1 h2 hmem
    exact hperm tags tags' ((List.perm_ext_iff_of_nodup h2 h1).2 hmem)

theorem getTagNames_canonical_witness :
    getTagNames [("zone", "a"), ("Hostname", "h"), ("tableName", "t"), ("tableId", "i")] =
      "Hostname_tableId_tableName_zone" ∧
    getTagNames [("tableId", "9"), ("zone", "b"), ("tableName", "u"), ("Hostname", "g")] =
      getTagNames [("zone", "a"), ("Hostname", "h"), ("tableName", "t"), ("tableId", "i")] :=
  ⟨by decide,
    (getTagNames_canonical
      [("zone", "a"), ("Hostname", "h"), ("tableName", "t"), ("tableId", "i")]).2.2
      [("tableId", "9"), ("zone", "b"), ("tableName", "u"), ("Hostname", "g")]
      (by decide) (by decide) (fun k => by simp only [List.map_cons, List.map_nil,
        List.mem_cons, List.mem_singleton, List.not_mem_nil, or_false]; tauto)⟩

/-- C18. Distinct signatures in one bucket never share a final name: starting
from any registry reached from the empty registry by a run of calls, any two
calls of a further run whose sanitized names have the same lowercase form but
whose signatures differ return different final names. -/
theorem renameMetricName_distinct_in_bucket (lower : Char → Char)
    (before calls : List (String × String)) (i j : Nat) (ci cj : String × String)
    (ni nj : String)
    (hci : calls[i]? = some ci) (hcj : calls[j]? = some cj)
    (hni : (renameAll lower (renameAll lower emptyKeySet before).2 calls).1[i]? = some ni)
    (hnj : (renameAll lower (renameAll lower emptyKeySet before).2 calls).1[j]? = some nj)
    (hbucket : toLower lower (sanitize ci.1) = toLower lower (sanitize cj.1))
    (hsig : sanitize ci.1 ++ "_" ++ ci.2 ≠ sanitize cj.1 ++ "_" ++ cj.2) : ni ≠ nj := by
  have hlen := renameAll_length lower before emptyKeySet
  have hrun := renameAll_append lower before calls emptyKeySet
  have hget : ∀ (k : Nat) (c : String × String) (n : String), calls[k]? = some c →
      (renameAll lower (renameAll lower emptyKeySet before).2 calls).1[k]? = some n →
      (before ++ calls)[before.length + k]? = some c ∧
        (renameAll lower emptyKeySet (before ++ calls)).1[before.length + k]? = some n := by
    intro k c n hc hn
    constructor
    · rw [List.getElem?_append_right (Nat.le_add_right _ _), Nat.add_sub_cancel_left, hc]
    · rw [hrun]
      simp only
      rw [List.getElem?_append_right (by rw [hlen]; exact Nat.le_add_right _ _), hlen,
        Nat.add_sub_cancel_left, hn]
  obtain ⟨h1, h2⟩ := hget i ci ni hci hni
  obtain ⟨h3, h4⟩ := hget j cj nj hcj hnj
  exact renameAll_distinct lower (before ++ calls) _ _ ci cj ni nj h1 h3 h2 h4 hbucket hsig

theorem renameMetricName_distinct_in_bucket_witness :
    (renameAll Char.toLower (renameAll Char.toLower emptyKeySet [("P_k", "a")]).2
        [("P_K", "a"), ("P_k", "b")]).1 = ["P_K0", "P_k1"] ∧ "P_K0" ≠ "P_k1" :=
  ⟨by decide,
    renameMetricName_distinct_in_bucket Char.toLower [("P_k", "a")]
      [("P_K", "a"), ("P_k", "b")] 0 1 ("P_K", "a") ("P_k", "b") "P_K0" "P_k1"
      (by decide) (by decide) (by decide) (by decide) (by decide) (by decide)⟩

/-- C19. Reachable-registry invariant: in every registry obtained from the
empty registry by a run of calls, every bucket present holds a non-empty list
without repeated signatures, and each of its signatures is a sanitized name
whose lowercase form is the bucket key, followed by `_` and a tag string. -/
theorem renameAll_registry_invariant (lower : Char → Char) (calls : List (String × String))
    (b : String) (l : List String)
    (hbucket : (renameAll lower emptyKeySet calls).2 b = some l) :
    l ≠ [] ∧ l.Nodup ∧
      ∀ s ∈ l, ∃ m t : String, s = sanitize m ++ "_" ++ t ∧ toLower lower (sanitize m) = b :=
  registryInv_renameAll lower calls emptyKeySet (registryInv_empty lower) b l hbucket

theorem renameAll_registry_invariant_witness :
    (renameAll Char.toLower emptyKeySet [("P.k", "a"), ("P_K", "a"), ("P_k", "a")]).2 "p_k" =
      some ["P_k_a", "P_K_a"] ∧
    (["P_k_a", "P_K_a"] ≠ [] ∧ ["P_k_a", "P_K_a"].Nodup ∧
      ∀ s ∈ ["P_k_a", "P_K_a"], ∃ m t : String, s = sanitize m ++ "_" ++ t ∧
        toLower Char.toLower (sanitize m) = "p_k") :=
  ⟨by decide,
    renameAll_registry_invariant Char.toLower [("P.k", "a"), ("P_K", "a"), ("P_k", "a")]
      "p_k" ["P_k_a", "P_K_a"] (by decide)⟩

/-- C20. Bean-level labels do not survive region decoding: for a bean with the
attribute `tag.tableName` the name deriver puts `tableName` into the bean-level
label set, the first observation of the region-server translator carries it,
and the `delete` after that observation removes it, so the second observation
(whose key has no `region` token) no longer carries the bean-level label
`tableName`; the generic translator keeps it on every observation of the same
bean. -/
theorem handlerRegionServerRegions_drops_bean_label :
    getNameLabelInfo
        (JsonObject.ofList
          [("name", .str "Hadoop:service=HBase,name=RegionServer,sub=Tables"),
            ("tag.tableName", .str "t1"), ("a_metric_x", .int32 1), ("b_metric_y", .int32 2)])
        [] "" =
      some ("Hadoop_HBase", [("sub", "Tables"), ("tableName", "t1")]) ∧
    getJmxInfo classicDescOk Char.toLower
        [JsonObject.ofList
          [("name", .str "Hadoop:service=HBase,name=RegionServer,sub=Tables"),
            ("tag.tableName", .str "t1"), ("a_metric_x", .int32 1), ("b_metric_y", .int32 2)]]
        "" =
      some [⟨"Hadoop_HBase_x", [("sub", "Tables"), ("tableName", "t1"), ("tableId", "")],
          .fromInt 1⟩,
        ⟨"Hadoop_HBase_y", [("sub", "Tables"), ("tableId", "")], .fromInt 2⟩] ∧
    Tags.get [("sub", "Tables"), ("tableId", "")] "tableName" = none ∧
    (getBeanMetrics classicDescOk Char.toLower
        (JsonObject.ofList
          [("name", .str "Hadoop:service=HBase,name=RegionServer,sub=Tables"),
            ("tag.tableName", .str "t1"), ("a_metric_x", .int32 1), ("b_metric_y", .int32 2)])
        emptyKeySet "").map (fun out => out.1.map (fun m => m.labels)) =
      some [[("sub", "Tables"), ("tableName", "t1")], [("sub", "Tables"), ("tableName", "t1")]] := by
  refine ⟨?_, ?_, ?_, ?_⟩ <;> decide

end HadoopExporter
